import Mathlib

/-!
# Multiverso allocator (`src/allocator.cpp`)

A shallow embedding of the pooled allocator (`SmartAllocator`, `FreeList`,
`MemoryBlock`) and of the simple reference-counted `Allocator`, followed by
the properties established about them.

Conventions of the embedding:

* Objects created by `new` and raw allocations made by `ALIGN_MALLOC` live in
  three separate heaps indexed by natural numbers; a fresh object always gets
  the next unused index.  Raw allocation never fails (the `CHECK` of
  `posix_memalign` is fatal in the source, so a failed allocation has no
  continuation to describe).
* A `char*` is a pair of a raw allocation and a byte offset into it.
* Pointer-sized stores into a raw allocation are recorded per byte offset.
* `nullptr` is `none`.
* Dereferencing something that is not there is undefined behaviour in the
  source; the embedding returns `none` for it.
* The operations are executed one at a time (the mutexes are not modelled).
-/

namespace Multiverso

/-! ## Constants of `allocator.h` -/

/-- Modelled from the spec: the constants declared in `multiverso/allocator.h`
and fixed by the platform, which are not part of the sources at hand.
`size_bits` is the width of `size_t`, `g_pointer_size` the size of a pointer,
`header_size_` is `MemoryBlock::header_size_`, `alloc_header_size_` is
`Allocator::header_size_` and `int_bits` is the width of `int`. -/
structure Config where
  size_bits : Nat
  g_pointer_size : Nat
  header_size_ : Nat
  alloc_header_size_ : Nat
  int_bits : Nat

/-- Modelled from the spec: the header of a memory block consists of two
pointer-sized slots (slot 0 and slot 1), and a pointer occupies at least one
byte. -/
def Config.TwoSlotHeader (cfg : Config) : Prop :=
  0 < cfg.g_pointer_size ∧ cfg.header_size_ = 2 * cfg.g_pointer_size

instance (cfg : Config) : Decidable cfg.TwoSlotHeader := by
  unfold Config.TwoSlotHeader; infer_instance

/-- The usual 64-bit platform: 8-byte pointers and `size_t`, 32-bit `int`. -/
def cfg64 : Config :=
  { size_bits := 64, g_pointer_size := 8, header_size_ := 16,
    alloc_header_size_ := 8, int_bits := 32 }

/-! ## Rounding of the request size -/

/-- The first two lines of `SmartAllocator::Malloc`, in `w`-bit unsigned
arithmetic:
`t = ((size_t)(-1)) << 5; size = (size & 31) ? ((size & t) + 32) : size`. -/
def roundSize (w : Nat) (size : Nat) : Nat :=
  let t := ((2 ^ w - 1) <<< 5) % 2 ^ w
  if size &&& 31 ≠ 0 then ((size &&& t) + 32) % 2 ^ w else size

/-! ## Memory -/

/-- A pointer-sized value stored in a raw allocation. -/
inductive Word where
  | listPtr (l : Nat)
  | blockPtr (b : Nat)
  | counterPtr (c : Nat)
deriving DecidableEq, Repr

/-- A raw aligned allocation: its size in bytes and the pointers stored in
it, by byte offset. -/
structure RawAlloc where
  size : Nat
  slots : Nat → Option Word

/-- A `char*`: a raw allocation and a byte offset into it. -/
structure Ptr where
  base : Nat
  off : Nat
deriving DecidableEq, Repr

/-- Function update at one index. -/
def upd {α : Type} (f : Nat → α) (k : Nat) (v : α) : Nat → α :=
  fun x => if x = k then v else f x

/-- The class `MemoryBlock`.  Modelled from the spec: the declaration of
`ref_` is in `allocator.h`; the spec describes the reference count as an
integer that starts at zero. -/
structure MemoryBlock where
  next : Option Nat
  data_ : Ptr
  ref_ : Int

/-- The class `FreeList` (without its mutex). -/
structure FreeList where
  free_ : Option Nat
  size_ : Nat

/-- The heap as seen by one `SmartAllocator`, together with the allocator's
map `pools_`.  `nraw`, `nblock` and `nlist` count the allocations made so far
and are the next fresh indices. -/
structure State where
  raws : Nat → Option RawAlloc
  blocks : Nat → Option MemoryBlock
  lists : Nat → Option FreeList
  pools_ : Nat → Option Nat
  nraw : Nat
  nblock : Nat
  nlist : Nat

/-- A freshly constructed `SmartAllocator`: nothing allocated, empty map. -/
def State.empty : State :=
  { raws := fun _ => none, blocks := fun _ => none, lists := fun _ => none,
    pools_ := fun _ => none, nraw := 0, nblock := 0, nlist := 0 }

/-- Reading a pointer-sized slot: `*(T**)p`. -/
def load (st : State) (p : Ptr) : Option Word :=
  match st.raws p.base with
  | some r => r.slots p.off
  | none => none

/-! ## `MemoryBlock` -/

/-- The constructor `MemoryBlock::MemoryBlock(size, list)` together with the `new` that
calls it: a fresh block object with `next = nullptr` and `ref_ = 0`, one raw
allocation of `size + header_size_` bytes, the list stored in slot 0 and the
block itself at offset `g_pointer_size`.  Returns the new block. -/
def MemoryBlock.ctor (cfg : Config) (size list : Nat) (st : State) : Nat × State :=
  let b := st.nblock
  let a := st.nraw
  let hdr : Nat → Option Word :=
    upd (upd (fun _ => none) 0 (some (Word.listPtr list)))
      cfg.g_pointer_size (some (Word.blockPtr b))
  (b, { st with
          raws := upd st.raws a
            (some ⟨(size + cfg.header_size_) % 2 ^ cfg.size_bits, hdr⟩)
          nraw := a + 1
          blocks := upd st.blocks b (some ⟨none, ⟨a, 0⟩, 0⟩)
          nblock := b + 1 })

/-- The payload pointer of a block: `data_ + header_size_`. -/
def MemoryBlock.payload (cfg : Config) (mb : MemoryBlock) : Ptr :=
  ⟨mb.data_.base, mb.data_.off + cfg.header_size_⟩

/-- The method `MemoryBlock::data()`: `++ref_; return data_ + header_size_`. -/
def MemoryBlock.data (cfg : Config) (b : Nat) (st : State) : Option (Ptr × State) :=
  match st.blocks b with
  | none => none
  | some mb =>
    some (mb.payload cfg,
      { st with blocks := upd st.blocks b (some { mb with ref_ := mb.ref_ + 1 }) })

/-- The method `MemoryBlock::Link()`: `++ref_`. -/
def MemoryBlock.Link (b : Nat) (st : State) : Option State :=
  match st.blocks b with
  | none => none
  | some mb =>
    some { st with blocks := upd st.blocks b (some { mb with ref_ := mb.ref_ + 1 }) }

/-! ## `FreeList` -/

/-- The method `FreeList::Push(block)`: `block->next = free_; free_ = block`. -/
def FreeList.Push (l b : Nat) (st : State) : Option State :=
  match st.lists l, st.blocks b with
  | some fl, some mb =>
    some { st with
      blocks := upd st.blocks b (some { mb with next := fl.free_ })
      lists := upd st.lists l (some { fl with free_ := some b }) }
  | _, _ => none

/-- The list a block pushes itself to: `*(FreeList**)data_`. -/
def ownerList (st : State) (b : Nat) : Option Nat :=
  match st.blocks b with
  | none => none
  | some mb =>
    match load st mb.data_ with
    | some (Word.listPtr l) => some l
    | _ => none

/-- The method `MemoryBlock::Unlink()`:
`if ((--ref_) == 0) (*(FreeList**)data_)->Push(this)`. -/
def MemoryBlock.Unlink (b : Nat) (st : State) : Option State :=
  match st.blocks b with
  | none => none
  | some mb =>
    let st1 : State :=
      { st with blocks := upd st.blocks b (some { mb with ref_ := mb.ref_ - 1 }) }
    if mb.ref_ - 1 = 0 then
      match ownerList st1 b with
      | some l => FreeList.Push l b st1
      | none => none
    else some st1

/-- The constructor `FreeList::FreeList(size)` together with the `new` that calls it: a fresh
list whose stack holds one newly constructed block.  Returns the new list. -/
def FreeList.ctor (cfg : Config) (size : Nat) (st : State) : Nat × State :=
  let l := st.nlist
  let st1 : State :=
    { st with lists := upd st.lists l (some ⟨none, size⟩), nlist := l + 1 }
  let r := MemoryBlock.ctor cfg size l st1
  (l, { r.2 with lists := upd r.2.lists l (some ⟨some r.1, size⟩) })

/-- The method `FreeList::Pop()`: construct a block if the stack is empty, then
`data = free_->data(); free_ = free_->next; return data`. -/
def FreeList.Pop (cfg : Config) (l : Nat) (st : State) : Option (Ptr × State) :=
  match st.lists l with
  | none => none
  | some fl =>
    let st1 : State :=
      match fl.free_ with
      | some _ => st
      | none =>
        let r := MemoryBlock.ctor cfg fl.size_ l st
        { r.2 with lists := upd r.2.lists l (some { fl with free_ := some r.1 }) }
    match st1.lists l with
    | none => none
    | some fl1 =>
      match fl1.free_ with
      | none => none
      | some b =>
        match MemoryBlock.data cfg b st1 with
        | none => none
        | some (data, st2) =>
          match st2.blocks b, st2.lists l with
          | some mb, some fl2 =>
            some (data,
              { st2 with lists := upd st2.lists l (some { fl2 with free_ := mb.next }) })
          | _, _ => none

/-! ## `SmartAllocator` -/

/-- The method `SmartAllocator::Malloc(size)`: round the size, create the free list of
the rounded size if the map has none, and pop from it. -/
def SmartAllocator.Malloc (cfg : Config) (size : Nat) (st : State) :
    Option (Ptr × State) :=
  let size := roundSize cfg.size_bits size
  let st1 : State :=
    match st.pools_ size with
    | some _ => st
    | none =>
      let r := FreeList.ctor cfg size st
      { r.2 with pools_ := upd r.2.pools_ size (some r.1) }
  match st1.pools_ size with
  | none => none
  | some l => FreeList.Pop cfg l st1

/-- The block a payload pointer belongs to, as `Free` and `Refer` find it:
`*(MemoryBlock**)(data - g_pointer_size)`. -/
def recoverBlock (cfg : Config) (data : Ptr) (st : State) : Option Nat :=
  if cfg.g_pointer_size ≤ data.off then
    match load st ⟨data.base, data.off - cfg.g_pointer_size⟩ with
    | some (Word.blockPtr b) => some b
    | _ => none
  else none

/-- The method `SmartAllocator::Free(data)`. -/
def SmartAllocator.Free (cfg : Config) (data : Ptr) (st : State) : Option State :=
  match recoverBlock cfg data st with
  | none => none
  | some b => MemoryBlock.Unlink b st

/-- The method `SmartAllocator::Refer(data)`. -/
def SmartAllocator.Refer (cfg : Config) (data : Ptr) (st : State) : Option State :=
  match recoverBlock cfg data st with
  | none => none
  | some b => MemoryBlock.Link b st

/-! ## Free stacks, circulation, reachability -/

/-- The blocks linked from `head` through `next`, ending at `nullptr`, are
exactly those of the list `s`, in order. -/
def IsStack (blocks : Nat → Option MemoryBlock) : Option Nat → List Nat → Prop
  | head, [] => head = none
  | head, b :: rest =>
    head = some b ∧ ∃ mb, blocks b = some mb ∧ IsStack blocks mb.next rest

/-- Following `next` from `head` for at most `fuel` blocks: the blocks
visited if `nullptr` is reached, `none` if the fuel runs out or a link
dangles. -/
def walk (blocks : Nat → Option MemoryBlock) : Nat → Option Nat → Option (List Nat)
  | _, none => some []
  | 0, some _ => none
  | fuel + 1, some b =>
    match blocks b with
    | none => none
    | some mb =>
      match walk blocks fuel mb.next with
      | none => none
      | some rest => some (b :: rest)

/-- The free stack of a list, read off the heap. -/
def freeStack (st : State) (l : Nat) : Option (List Nat) :=
  match st.lists l with
  | none => none
  | some fl => walk st.blocks st.nblock fl.free_

/-- The reference count of the block behind a payload pointer. -/
def refCount (cfg : Config) (st : State) (p : Ptr) : Option Int :=
  match recoverBlock cfg p st with
  | none => none
  | some b =>
    match st.blocks b with
    | none => none
    | some mb => some mb.ref_

/-- The free list that serves a payload pointer: the owner recorded in the
header of its block. -/
def servingList (cfg : Config) (st : State) (p : Ptr) : Option Nat :=
  match recoverBlock cfg p st with
  | none => none
  | some b => ownerList st b

/-- The size class of a payload pointer: `size_` of the list serving it. -/
def sizeClass (cfg : Config) (st : State) (p : Ptr) : Option Nat :=
  match servingList cfg st p with
  | none => none
  | some l =>
    match st.lists l with
    | none => none
    | some fl => some fl.size_

/-- A payload pointer is in circulation: it is the payload pointer of its
block, and that block has at least one reference. -/
def InCirculation (cfg : Config) (st : State) (p : Ptr) : Prop :=
  match recoverBlock cfg p st with
  | none => False
  | some b =>
    match st.blocks b with
    | none => False
    | some mb => mb.payload cfg = p ∧ 1 ≤ mb.ref_

instance (cfg : Config) (st : State) (p : Ptr) : Decidable (InCirculation cfg st p) := by
  unfold InCirculation
  split
  · infer_instance
  · split <;> infer_instance

/-- One call of the public interface of `SmartAllocator`.  `Malloc` takes any
`size_t`; `Free` and `Refer` are applied to pointers in circulation only. -/
inductive Step (cfg : Config) : State → State → Prop
  | malloc {s s' : State} (size : Nat) (p : Ptr) :
      size < 2 ^ cfg.size_bits →
      SmartAllocator.Malloc cfg size s = some (p, s') → Step cfg s s'
  | free {s s' : State} (p : Ptr) :
      InCirculation cfg s p →
      SmartAllocator.Free cfg p s = some s' → Step cfg s s'
  | refer {s s' : State} (p : Ptr) :
      InCirculation cfg s p →
      SmartAllocator.Refer cfg p s = some s' → Step cfg s s'

/-- Any number of calls, one after the other. -/
inductive Steps (cfg : Config) : State → State → Prop
  | refl (s : State) : Steps cfg s s
  | tail {s t u : State} : Steps cfg s t → Step cfg t u → Steps cfg s u

/-- The states a `SmartAllocator` can be in. -/
def Reachable (cfg : Config) (st : State) : Prop :=
  Steps cfg State.empty st

/-- The header of block `b` is intact and names list `l`: the block owns raw
allocation `b`, whose slot 0 holds `l` and whose slot 1 holds `b`. -/
def HeaderOK (cfg : Config) (st : State) (b l : Nat) : Prop :=
  ∃ mb r, st.blocks b = some mb ∧ mb.data_ = ⟨b, 0⟩ ∧ st.raws b = some r ∧
    r.slots 0 = some (Word.listPtr l) ∧
    r.slots cfg.g_pointer_size = some (Word.blockPtr b)

/-- The invariant of the pooled allocator.  `stk l` is the content of the
free stack of list `l`. -/
structure Inv (cfg : Config) (st : State) (stk : Nat → List Nat) : Prop where
  counts : st.nraw = st.nblock
  fresh_raw : ∀ a, st.nraw ≤ a → st.raws a = none
  fresh_block : ∀ b, st.nblock ≤ b → st.blocks b = none
  fresh_list : ∀ l, st.nlist ≤ l → st.lists l = none
  pool_list : ∀ c l, st.pools_ c = some l → ∃ fl, st.lists l = some fl ∧ fl.size_ = c
  list_pool : ∀ l fl, st.lists l = some fl → st.pools_ fl.size_ = some l
  block : ∀ b mb, st.blocks b = some mb →
    0 ≤ mb.ref_ ∧ ∃ l fl, HeaderOK cfg st b l ∧ st.lists l = some fl ∧
      (mb.ref_ = 0 → b ∈ stk l)
  stack : ∀ l fl, st.lists l = some fl → IsStack st.blocks fl.free_ (stk l)
  stack_mem : ∀ l b, b ∈ stk l →
    ∃ mb, st.blocks b = some mb ∧ mb.ref_ = 0 ∧ HeaderOK cfg st b l

/-- The state after `Pop` took block `b` (with content `mb`) off the stack of
list `l` (with content `fl`). -/
def popState (st : State) (l : Nat) (fl : FreeList) (b : Nat) (mb : MemoryBlock) : State :=
  { st with
    blocks := upd st.blocks b (some { mb with ref_ := mb.ref_ + 1 })
    lists := upd st.lists l (some { fl with free_ := mb.next }) }

/-- The state after `Pop` constructed a block of `size` bytes for list `l`
and handed it out. -/
def growState (cfg : Config) (st : State) (size l : Nat) : State :=
  { st with
    raws := upd st.raws st.nraw
      (some ⟨(size + cfg.header_size_) % 2 ^ cfg.size_bits,
        upd (upd (fun _ => none) 0 (some (Word.listPtr l)))
          cfg.g_pointer_size (some (Word.blockPtr st.nblock))⟩)
    nraw := st.nraw + 1
    blocks := upd st.blocks st.nblock (some ⟨none, ⟨st.nraw, 0⟩, 0 + 1⟩)
    nblock := st.nblock + 1 }

/-- The state after `Malloc` created and registered the list of size class
`c`, before popping from it. -/
def registerState (cfg : Config) (st : State) (c : Nat) : State :=
  { (FreeList.ctor cfg c st).2 with
    pools_ := upd (FreeList.ctor cfg c st).2.pools_ c (some (FreeList.ctor cfg c st).1) }

/-- The state after the reference count of block `b` (content `mb`) was set
to `r`. -/
def refState (st : State) (b : Nat) (mb : MemoryBlock) (r : Int) : State :=
  { st with blocks := upd st.blocks b (some { mb with ref_ := r }) }

/-- The state after block `b` (content `mb`) dropped its last reference and
pushed itself onto list `l` (content `fl`). -/
def pushState (st : State) (l : Nat) (fl : FreeList) (b : Nat) (mb : MemoryBlock) : State :=
  { st with
    blocks := upd st.blocks b (some { mb with ref_ := mb.ref_ - 1, next := fl.free_ })
    lists := upd st.lists l (some { fl with free_ := some b }) }

/-- Calling `f` `n` times, one call after the other. -/
def repeatOp {σ : Type} (f : σ → Option σ) : Nat → σ → Option σ
  | 0, s => some s
  | n + 1, s =>
    match f s with
    | none => none
    | some s' => repeatOp f n s'

/-- What `Malloc(10)` returns on a freshly constructed allocator of the
64-bit platform. -/
def exMalloc : Ptr × State :=
  match SmartAllocator.Malloc cfg64 10 State.empty with
  | some r => r
  | none => (⟨0, 0⟩, State.empty)

/-- The pointer returned by the first `Malloc(10)`. -/
def exPtr : Ptr := exMalloc.1

/-- The state after the first `Malloc(10)`. -/
def exState : State := exMalloc.2

/-- The state after the first buffer was released again: `Malloc(10)`, then
`Free` of the result. -/
def exFreed : State :=
  match SmartAllocator.Free cfg64 exPtr exState with
  | some s => s
  | none => exState

/-! ## The simple `Allocator` -/

/-- The heap as seen by the simple `Allocator`: the raw allocations and the
`std::atomic<int>` objects created by `new`, with the next fresh index of
each kind. -/
structure SimpleHeap where
  raws : Nat → Option RawAlloc
  counters : Nat → Option Int
  nraw : Nat
  ncounter : Nat

/-- Nothing allocated. -/
def SimpleHeap.empty : SimpleHeap :=
  { raws := fun _ => none, counters := fun _ => none, nraw := 0, ncounter := 0 }

/-- Arithmetic of `std::atomic<int>`: the result wraps around in the two's
complement range of `int_bits` bits. -/
def wrapInt (cfg : Config) (x : Int) : Int :=
  Int.bmod x (2 ^ cfg.int_bits)

/-- Reading a pointer-sized slot of the simple allocator's heap. -/
def SimpleHeap.load (h : SimpleHeap) (p : Ptr) : Option Word :=
  match h.raws p.base with
  | some r => r.slots p.off
  | none => none

/-- The method `Allocator::Malloc(size)`: one raw allocation of `size + header_size_`
bytes, a new counter of value 1 whose address is stored at the start of the
allocation; returns `data + header_size_`. -/
def Allocator.Malloc (cfg : Config) (size : Nat) (h : SimpleHeap) : Ptr × SimpleHeap :=
  let a := h.nraw
  let c := h.ncounter
  (⟨a, 0 + cfg.alloc_header_size_⟩,
    { raws := upd h.raws a
        (some ⟨(size + cfg.alloc_header_size_) % 2 ^ cfg.size_bits,
          upd (fun _ => none) 0 (some (Word.counterPtr c))⟩)
      counters := upd h.counters c (some 1)
      nraw := a + 1
      ncounter := c + 1 })

/-- The method `Allocator::Free(data)`: `data -= header_size_`, decrement the counter
stored there, and if it is now zero delete the counter and release the raw
allocation. -/
def Allocator.Free (cfg : Config) (data : Ptr) (h : SimpleHeap) : Option SimpleHeap :=
  if cfg.alloc_header_size_ ≤ data.off then
    match h.load ⟨data.base, data.off - cfg.alloc_header_size_⟩ with
    | some (Word.counterPtr c) =>
      match h.counters c with
      | none => none
      | some v =>
        if wrapInt cfg (v - 1) = 0 then
          if data.off - cfg.alloc_header_size_ = 0 then
            some { h with
              counters := upd h.counters c none
              raws := upd h.raws data.base none }
          else none
        else some { h with counters := upd h.counters c (some (wrapInt cfg (v - 1))) }
    | _ => none
  else none

/-- The method `Allocator::Refer(data)`: increment the counter stored at
`data - header_size_`. -/
def Allocator.Refer (cfg : Config) (data : Ptr) (h : SimpleHeap) : Option SimpleHeap :=
  if cfg.alloc_header_size_ ≤ data.off then
    match h.load ⟨data.base, data.off - cfg.alloc_header_size_⟩ with
    | some (Word.counterPtr c) =>
      match h.counters c with
      | none => none
      | some v => some { h with counters := upd h.counters c (some (wrapInt cfg (v + 1))) }
    | _ => none
  else none

/-- The buffer at raw allocation `a` is live in heap `h`: the allocation is
`raw`, its header names counter `c`, and the counter holds `v`. -/
def SimpleHeap.Holds (h : SimpleHeap) (a c : Nat) (raw : RawAlloc) (v : Int) : Prop :=
  h.raws a = some raw ∧ raw.slots 0 = some (Word.counterPtr c) ∧ h.counters c = some v

/-! ## `Allocator::Get` -/

/-- The two function-local static allocators of `Allocator::Get`:
`static SmartAllocator allocator_` and `static Allocator allocator_`.  A
pointer returned by `Get` is the address of one of them. -/
inductive StaticAllocator where
  | smart
  | simple
deriving DecidableEq, Repr

/-- Which of the two statics have been constructed so far (a function-local
static is constructed when control first passes its declaration). -/
structure Statics where
  smart_built : Bool
  simple_built : Bool
deriving DecidableEq, Repr

/-- The method `Allocator::Get()`.  The value that `MV_CONFIG_allocator_type`
has when the call is made is the argument `allocator_type`: the function
compares it with `"smart"` on every call. -/
def Allocator.Get (allocator_type : String) (s : Statics) : StaticAllocator × Statics :=
  if allocator_type = "smart" then
    (StaticAllocator.smart, { s with smart_built := true })
  else
    (StaticAllocator.simple, { s with simple_built := true })

/-- Calls of `Get`, one after the other; the list gives the value of the
configuration string at the time of each call.  Returns what the calls
returned, in order. -/
def getCalls : List String → Statics → List StaticAllocator
  | [], _ => []
  | t :: ts, s => (Allocator.Get t s).1 :: getCalls ts (Allocator.Get t s).2

/-! ## Sizes of the raw allocations -/

/-- Every raw allocation whose slot 0 names a list belongs to a list that
exists, and has the size its constructor asked for: the `size_` of the list
plus `header_size_`, in `size_t` arithmetic. -/
def RawSized (cfg : Config) (st : State) : Prop :=
  ∀ a r l, st.raws a = some r → r.slots 0 = some (Word.listPtr l) →
    ∃ fl, st.lists l = some fl ∧
      r.size = (fl.size_ + cfg.header_size_) % 2 ^ cfg.size_bits

/-! ## Teardown -/

/-- The destructor `MemoryBlock::~MemoryBlock()` with the `delete` that calls
it: `ALIGN_FREE(data_)`, then the block object is gone.  Releasing something
that is not the start of a live raw allocation is undefined. -/
def MemoryBlock.dtor (b : Nat) (st : State) : Option State :=
  match st.blocks b with
  | none => none
  | some mb =>
    if mb.data_.off = 0 then
      match st.raws mb.data_.base with
      | none => none
      | some _ =>
        some { st with
          raws := upd st.raws mb.data_.base none
          blocks := upd st.blocks b none }
    else none

/-- The loop of `FreeList::~FreeList()`:
`while (move) { next = move->next; delete move; move = next; }`, for at most
`fuel` rounds; `none` if the fuel runs out or a step is undefined. -/
def FreeList.dtorLoop : Nat → Option Nat → State → Option State
  | _, none, st => some st
  | 0, some _, _ => none
  | fuel + 1, some b, st =>
    match st.blocks b with
    | none => none
    | some mb =>
      match MemoryBlock.dtor b st with
      | none => none
      | some st' => FreeList.dtorLoop fuel mb.next st'

/-- The destructor `FreeList::~FreeList()` with the `delete` that calls it:
the loop from `free_`, then the list object is gone. -/
def FreeList.dtor (fuel : Nat) (l : Nat) (st : State) : Option State :=
  match st.lists l with
  | none => none
  | some fl =>
    match FreeList.dtorLoop fuel fl.free_ st with
    | none => none
    | some st' => some { st' with lists := upd st'.lists l none }

/-- The destructor `SmartAllocator::~SmartAllocator()`:
`for (auto i : pools_) delete i.second;` (the log line is left out).  `keys`
are the keys of the map in the order the loop visits them; `delete` of a null
pointer does nothing. -/
def SmartAllocator.dtor (fuel : Nat) : List Nat → State → Option State
  | [], st => some st
  | c :: cs, st =>
    match st.pools_ c with
    | none => SmartAllocator.dtor fuel cs st
    | some l =>
      match FreeList.dtor fuel l st with
      | none => none
      | some st' => SmartAllocator.dtor fuel cs st'

/-- State `st` is state `s` after the lists in `D` were destroyed: these
lists are gone, with the blocks of their free stacks (`stk`) and the raw
allocations of those blocks; everything else is as in `s`. -/
structure TornDown (s : State) (stk : Nat → List Nat) (D : Nat → Prop) (st : State) :
    Prop where
  pools : st.pools_ = s.pools_
  lists_gone : ∀ l, D l → st.lists l = none
  lists_kept : ∀ l, ¬ D l → st.lists l = s.lists l
  gone : ∀ x, (∃ l, D l ∧ x ∈ stk l) → st.blocks x = none ∧ st.raws x = none
  kept : ∀ x, (¬ ∃ l, D l ∧ x ∈ stk l) → st.blocks x = s.blocks x ∧ st.raws x = s.raws x

/-! ## Locks and reference-count events -/

/-- What a call does to the mutexes and to the reference counts, in program
order: locking and unlocking `SmartAllocator::mutex_`, locking and unlocking
the `mutex_` of a free list, `++ref_` and `--ref_` of a block. -/
inductive Event where
  | lockMap
  | unlockMap
  | lock (l : Nat)
  | unlock (l : Nat)
  | refInc (b : Nat)
  | refDec (b : Nat)
deriving DecidableEq, Repr

/-- Events of `FreeList::Pop()`: the `lock_guard` is taken on entry, the head
of the stack (a block constructed on the spot if the stack is empty) gets
`++ref_` in `data()`, and the guard is released on return. -/
def FreeList.PopEvents (l : Nat) (st : State) : List Event :=
  match st.lists l with
  | none => []
  | some fl =>
    match fl.free_ with
    | some b => [Event.lock l, Event.refInc b, Event.unlock l]
    | none => [Event.lock l, Event.refInc st.nblock, Event.unlock l]

/-- Events of `FreeList::Push(block)`: the `lock_guard` around the two
assignments. -/
def FreeList.PushEvents (l : Nat) : List Event :=
  [Event.lock l, Event.unlock l]

/-- Events of `MemoryBlock::Unlink()`: `--ref_` first, then, if the count is
zero, the call of `Push` on the list named in the header. -/
def MemoryBlock.UnlinkEvents (b : Nat) (st : State) : List Event :=
  match st.blocks b with
  | none => []
  | some mb =>
    Event.refDec b ::
      (if mb.ref_ - 1 = 0 then
        match ownerList st b with
        | some l => FreeList.PushEvents l
        | none => []
      else [])

/-- Events of `MemoryBlock::Link()`: `++ref_`. -/
def MemoryBlock.LinkEvents (b : Nat) : List Event :=
  [Event.refInc b]

/-- Events of `SmartAllocator::Malloc(size)`: the `unique_lock` on the map
around the lookup and the creation of the list, then `Pop` of that list. -/
def SmartAllocator.MallocEvents (cfg : Config) (size : Nat) (st : State) : List Event :=
  [Event.lockMap, Event.unlockMap] ++
    (match st.pools_ (roundSize cfg.size_bits size) with
      | some l => FreeList.PopEvents l st
      | none =>
        FreeList.PopEvents st.nlist (registerState cfg st (roundSize cfg.size_bits size)))

/-- Events of `SmartAllocator::Free(data)`. -/
def SmartAllocator.FreeEvents (cfg : Config) (data : Ptr) (st : State) : List Event :=
  match recoverBlock cfg data st with
  | none => []
  | some b => MemoryBlock.UnlinkEvents b st

/-- Events of `SmartAllocator::Refer(data)`. -/
def SmartAllocator.ReferEvents (cfg : Config) (data : Ptr) (st : State) : List Event :=
  match recoverBlock cfg data st with
  | none => []
  | some b => MemoryBlock.LinkEvents b

/-- Every `++ref_` and `--ref_` in the events happens while the mutex of the
list that owns the block is held; `held` are the list mutexes held at the
start. -/
def guarded (owner : Nat → Option Nat) : List Nat → List Event → Bool
  | _, [] => true
  | held, Event.lock l :: t => guarded owner (l :: held) t
  | held, Event.unlock l :: t => guarded owner (held.erase l) t
  | held, Event.refInc b :: t =>
    (match owner b with
      | some l => decide (l ∈ held)
      | none => false) && guarded owner held t
  | held, Event.refDec b :: t =>
    (match owner b with
      | some l => decide (l ∈ held)
      | none => false) && guarded owner held t
  | held, Event.lockMap :: t => guarded owner held t
  | held, Event.unlockMap :: t => guarded owner held t

/-! ## Counting the blocks of a list -/

/-- The reference count of block `b` (0 if there is no such block). -/
def refOf (st : State) (b : Nat) : Int :=
  match st.blocks b with
  | some mb => mb.ref_
  | none => 0

/-- Block `b` was constructed by list `l`: its header names `l`. -/
def isBlockOf (st : State) (l b : Nat) : Bool :=
  decide (ownerList st b = some l)

/-- Block `b` was constructed by list `l` and is in circulation. -/
def isCirculating (st : State) (l b : Nat) : Bool :=
  decide (ownerList st b = some l) && decide (1 ≤ refOf st b)

/-- The number of blocks constructed so far by list `l`. -/
def builtCount (st : State) (l : Nat) : Nat :=
  (List.range st.nblock).countP (isBlockOf st l)

/-- The number of blocks of list `l` that are in circulation. -/
def circCount (st : State) (l : Nat) : Nat :=
  (List.range st.nblock).countP (isCirculating st l)

/-- The states an allocator has gone through since its construction, the
latest first, when its calls run one at a time: every call has returned
before the next one starts, so each entry is the state between two calls. -/
inductive History (cfg : Config) : List State → Prop
  | init : History cfg [State.empty]
  | step {s s' : State} {hist : List State} :
      History cfg (s :: hist) → Step cfg s s' → History cfg (s' :: s :: hist)

/-- The largest number of blocks of list `l` in circulation in any of the
given states. -/
def maxCirc (l : Nat) : List State → Nat
  | [] => 0
  | s :: hist => max (circCount s l) (maxCirc l hist)

/-! ## Calls that overlap

`MemoryBlock::Unlink` (l.64-68) is `--ref_` followed, when the result is 0, by
`Push`, and only `Push` takes the lock of the list (l.45-49).  Between the two
another thread can run. -/

/-- The first half of `MemoryBlock::Unlink` (l.65): `--ref_`, together with the
outcome of the test `== 0` on the decremented value. -/
def MemoryBlock.UnlinkDec (b : Nat) (st : State) : Option (State × Bool) :=
  match st.blocks b with
  | none => none
  | some mb =>
    some ({ st with blocks := upd st.blocks b (some { mb with ref_ := mb.ref_ - 1 }) },
      decide (mb.ref_ - 1 = 0))

/-- The second half of `MemoryBlock::Unlink` (l.66), run when the test
succeeded: `(*(FreeList**)data_)->Push(this)`. -/
def MemoryBlock.UnlinkPush (b : Nat) (st : State) : Option State :=
  match ownerList st b with
  | some l => FreeList.Push l b st
  | none => none

/-- The two halves of `MemoryBlock::Unlink` run one right after the other. -/
def MemoryBlock.UnlinkSplit (b : Nat) (st : State) : Option State :=
  match MemoryBlock.UnlinkDec b st with
  | none => none
  | some (st1, zero) => if zero then MemoryBlock.UnlinkPush b st1 else some st1

/-- The states an allocator goes through, the latest first, when calls of
several threads overlap: a `Free` is two steps, the decrement and (when the
count reached 0) the `Push`, and other steps may come between them.  The first
index lists the blocks whose `Unlink` has decremented the count to 0 and has
not pushed yet; when it is empty every call has returned.  `Malloc` and `Refer`
are taken in one step each. -/
inductive Overlapped (cfg : Config) : List Nat → List State → Prop
  | init : Overlapped cfg [] [State.empty]
  | malloc {pend : List Nat} {s s' : State} {hist : List State} (size : Nat) (p : Ptr) :
      Overlapped cfg pend (s :: hist) → size < 2 ^ cfg.size_bits →
      SmartAllocator.Malloc cfg size s = some (p, s') →
      Overlapped cfg pend (s' :: s :: hist)
  | refer {pend : List Nat} {s s' : State} {hist : List State} (p : Ptr) :
      Overlapped cfg pend (s :: hist) → InCirculation cfg s p →
      SmartAllocator.Refer cfg p s = some s' →
      Overlapped cfg pend (s' :: s :: hist)
  | freeDec {pend : List Nat} {s s' : State} {hist : List State} (p : Ptr) (b : Nat)
      (zero : Bool) :
      Overlapped cfg pend (s :: hist) → InCirculation cfg s p →
      recoverBlock cfg p s = some b →
      MemoryBlock.UnlinkDec b s = some (s', zero) →
      Overlapped cfg (if zero then b :: pend else pend) (s' :: s :: hist)
  | freePush {pend : List Nat} {s s' : State} {hist : List State} (b : Nat) :
      Overlapped cfg pend (s :: hist) → b ∈ pend →
      MemoryBlock.UnlinkPush b s = some s' →
      Overlapped cfg (pend.erase b) (s' :: s :: hist)

/-- The state after `Malloc(10)` and the decrement of a `Free` of its result:
block 0 has count 0 and is not yet pushed. -/
def exDec : State × Bool :=
  match MemoryBlock.UnlinkDec 0 exState with
  | some r => r
  | none => (exState, false)

/-- A second `Malloc(10)`, of another thread, run in the state `exDec.1`. -/
def exSecond : Ptr × State :=
  match SmartAllocator.Malloc cfg64 10 exDec.1 with
  | some r => r
  | none => (⟨0, 0⟩, exDec.1)

/-- The state after the `Push` of the first thread has run at last. -/
def exPushed : State :=
  match MemoryBlock.UnlinkPush 0 exSecond.2 with
  | some s => s
  | none => exSecond.2

/-! ## Basic facts -/

theorem upd_same {α : Type} (f : Nat → α) (k : Nat) (v : α) : upd f k v k = v := by
  simp [upd]

theorem upd_ne {α : Type} (f : Nat → α) {k x : Nat} (v : α) (h : x ≠ k) :
    upd f k v x = f x := by
  simp [upd, h]

theorem upd_upd {α : Type} (f : Nat → α) (k : Nat) (v v' : α) :
    upd (upd f k v) k v' = upd f k v' := by
  funext x
  by_cases h : x = k <;> simp [upd, h]

theorem upd_eq_self {α : Type} (f : Nat → α) (k : Nat) (v : α) (h : f k = v) :
    upd f k v = f := by
  funext x
  by_cases hx : x = k
  · subst hx; simp [upd, h]
  · simp [upd, hx]

theorem IsStack.congr {blocks blocks' : Nat → Option MemoryBlock} {s : List Nat} :
    ∀ {head : Option Nat},
      (∀ x ∈ s, ∀ mb, blocks x = some mb → ∃ mb', blocks' x = some mb' ∧ mb'.next = mb.next) →
      IsStack blocks head s → IsStack blocks' head s := by
  induction s with
  | nil => intro head _ h; exact h
  | cons b rest ih =>
    intro head hagree h
    obtain ⟨hh, mb, hb, hrest⟩ := h
    obtain ⟨mb', hb', hn⟩ := hagree b (List.mem_cons_self _ _) mb hb
    refine ⟨hh, mb', hb', ?_⟩
    rw [hn]
    exact ih (fun x hx => hagree x (List.mem_cons_of_mem _ hx)) hrest

theorem IsStack.frame {blocks : Nat → Option MemoryBlock} {s : List Nat} {head : Option Nat}
    (b : Nat) (v : Option MemoryBlock) (hb : b ∉ s) (h : IsStack blocks head s) :
    IsStack (upd blocks b v) head s := by
  refine IsStack.congr ?_ h
  intro x hx mb hmb
  have : x ≠ b := fun e => hb (e ▸ hx)
  exact ⟨mb, by simp [upd, this, hmb], rfl⟩

theorem IsStack.unique {blocks : Nat → Option MemoryBlock} {s : List Nat} :
    ∀ {t : List Nat} {head : Option Nat},
      IsStack blocks head s → IsStack blocks head t → s = t := by
  induction s with
  | nil =>
    intro t head h1 h2
    cases t with
    | nil => rfl
    | cons c t =>
      have h1' : head = none := h1
      have h2' := h2.1
      rw [h1'] at h2'
      cases h2'
  | cons b rest ih =>
    intro t head h1 h2
    obtain ⟨hh, mb, hb, hrest⟩ := h1
    cases t with
    | nil =>
      have h2' : head = none := h2
      rw [h2'] at hh
      cases hh
    | cons c t =>
      obtain ⟨hh2, mb2, hb2, hrest2⟩ := h2
      rw [hh] at hh2
      cases hh2
      rw [hb] at hb2
      cases hb2
      rw [ih hrest hrest2]

theorem IsStack.suffix {blocks : Nat → Option MemoryBlock} :
    ∀ {s : List Nat} {head : Option Nat} (pre : List Nat) (b : Nat) (post : List Nat),
      s = pre ++ b :: post → IsStack blocks head s → IsStack blocks (some b) (b :: post) := by
  intro s head pre
  induction pre generalizing s head with
  | nil =>
    intro b post hs h
    subst hs
    obtain ⟨_, mb, hb, hrest⟩ := h
    exact ⟨rfl, mb, hb, hrest⟩
  | cons a pre ih =>
    intro b post hs h
    subst hs
    obtain ⟨_, mb, _, hrest⟩ := h
    exact ih b post rfl hrest

theorem IsStack.nodup {blocks : Nat → Option MemoryBlock} :
    ∀ {s : List Nat} {head : Option Nat}, IsStack blocks head s → s.Nodup := by
  intro s
  induction s with
  | nil => intro _ _; exact List.nodup_nil
  | cons b rest ih =>
    intro head h
    obtain ⟨hh, mb, hb, hrest⟩ := h
    refine List.nodup_cons.mpr ⟨?_, ih hrest⟩
    intro hmem
    obtain ⟨pre, post, hsplit⟩ := List.append_of_mem hmem
    have h1 : IsStack blocks (some b) (b :: post) := IsStack.suffix pre b post hsplit hrest
    have h2 : IsStack blocks (some b) (b :: rest) := ⟨rfl, mb, hb, hrest⟩
    have := IsStack.unique h1 h2
    have hl := congrArg List.length this
    rw [hsplit] at hl
    simp at hl
    omega

theorem IsStack.walk_eq {blocks : Nat → Option MemoryBlock} :
    ∀ {s : List Nat} {head : Option Nat} (fuel : Nat),
      IsStack blocks head s → s.length ≤ fuel → walk blocks fuel head = some s := by
  intro s
  induction s with
  | nil =>
    intro head fuel h _
    have : head = none := h
    subst this
    cases fuel <;> rfl
  | cons b rest ih =>
    intro head fuel h hlen
    obtain ⟨hh, mb, hb, hrest⟩ := h
    subst hh
    cases fuel with
    | zero => simp at hlen
    | succ n =>
      have := ih n hrest (by simpa using hlen)
      simp [walk, hb, this]

theorem repeatOp_succ_last {σ : Type} (f : σ → Option σ) :
    ∀ (n : Nat) (a b c : σ), repeatOp f n a = some b → f b = some c →
      repeatOp f (n + 1) a = some c := by
  intro n
  induction n with
  | zero =>
    intro a b c h1 h2
    simp only [repeatOp] at h1
    cases h1
    simp [repeatOp, h2]
  | succ m ih =>
    intro a b c h1 h2
    simp only [repeatOp] at h1 ⊢
    cases hf : f a with
    | none => simp [hf] at h1
    | some a' =>
      simp only [hf] at h1 ⊢
      exact ih a' b c h1 h2

/-! ## The operations in closed form -/

theorem Pop_nonempty (cfg : Config) (st : State) (l : Nat) (fl : FreeList) (b : Nat)
    (mb : MemoryBlock) (hl : st.lists l = some fl) (hf : fl.free_ = some b)
    (hb : st.blocks b = some mb) :
    FreeList.Pop cfg l st = some (mb.payload cfg, popState st l fl b mb) := by
  simp [FreeList.Pop, hl, hf, MemoryBlock.data, hb, upd_same, popState]

theorem Pop_empty (cfg : Config) (st : State) (l : Nat) (fl : FreeList)
    (hl : st.lists l = some fl) (hf : fl.free_ = none) :
    FreeList.Pop cfg l st
      = some (⟨st.nraw, 0 + cfg.header_size_⟩, growState cfg st fl.size_ l) := by
  have hfl : ({ fl with free_ := none } : FreeList) = fl := by
    cases fl; simp_all
  simp [FreeList.Pop, hl, hf, MemoryBlock.data, MemoryBlock.ctor, upd_same, upd_upd,
    MemoryBlock.payload, growState, hfl]
  exact upd_eq_self _ _ _ hl

theorem Malloc_old (cfg : Config) (st : State) (size l : Nat)
    (hp : st.pools_ (roundSize cfg.size_bits size) = some l) :
    SmartAllocator.Malloc cfg size st = FreeList.Pop cfg l st := by
  simp [SmartAllocator.Malloc, hp]

theorem Malloc_new (cfg : Config) (st : State) (size : Nat)
    (hp : st.pools_ (roundSize cfg.size_bits size) = none) :
    SmartAllocator.Malloc cfg size st
      = FreeList.Pop cfg st.nlist (registerState cfg st (roundSize cfg.size_bits size)) := by
  simp [SmartAllocator.Malloc, hp, registerState, FreeList.ctor, MemoryBlock.ctor, upd_same]

theorem Link_eq (st : State) (b : Nat) (mb : MemoryBlock) (hb : st.blocks b = some mb) :
    MemoryBlock.Link b st = some (refState st b mb (mb.ref_ + 1)) := by
  simp [MemoryBlock.Link, hb, refState]

theorem Unlink_keep (st : State) (b : Nat) (mb : MemoryBlock) (hb : st.blocks b = some mb)
    (hr : mb.ref_ - 1 ≠ 0) :
    MemoryBlock.Unlink b st = some (refState st b mb (mb.ref_ - 1)) := by
  simp [MemoryBlock.Unlink, hb, hr, refState]

theorem Unlink_push (cfg : Config) (st : State) (b l : Nat) (mb : MemoryBlock) (fl : FreeList)
    (hb : st.blocks b = some mb) (hr : mb.ref_ - 1 = 0) (hh : HeaderOK cfg st b l)
    (hl : st.lists l = some fl) :
    MemoryBlock.Unlink b st = some (pushState st l fl b mb) := by
  obtain ⟨mb', r, hb', hd, hraw, h0, _⟩ := hh
  rw [hb] at hb'
  cases hb'
  simp [MemoryBlock.Unlink, hb, hr, ownerList, upd_same, load, hd, hraw, h0, FreeList.Push, hl,
    upd_upd, pushState]
/-! ## Preservation of the invariant -/

theorem HeaderOK.owner_unique {cfg : Config} {st : State} {b l l' : Nat}
    (h : HeaderOK cfg st b l) (h' : HeaderOK cfg st b l') : l = l' := by
  obtain ⟨_, r, _, _, hr, h0, _⟩ := h
  obtain ⟨_, r', _, _, hr', h0', _⟩ := h'
  rw [hr] at hr'
  cases hr'
  rw [h0] at h0'
  cases h0'
  rfl

theorem HeaderOK.transfer {cfg : Config} {st st' : State} {b l : Nat}
    (h : HeaderOK cfg st b l)
    (hb : ∀ mb, st.blocks b = some mb → ∃ mb', st'.blocks b = some mb' ∧ mb'.data_ = mb.data_)
    (hr : st'.raws b = st.raws b) : HeaderOK cfg st' b l := by
  obtain ⟨mb, r, hmb, hd, hraw, h0, h1⟩ := h
  obtain ⟨mb', hmb', hd'⟩ := hb mb hmb
  exact ⟨mb', r, hmb', hd'.trans hd, hr.trans hraw, h0, h1⟩

theorem HeaderOK.ownerList_eq {cfg : Config} {st : State} {b l : Nat}
    (h : HeaderOK cfg st b l) : ownerList st b = some l := by
  obtain ⟨mb, r, hmb, hd, hraw, h0, _⟩ := h
  simp [ownerList, hmb, load, hd, hraw, h0]

theorem HeaderOK.recover {cfg : Config} {st : State} {b l : Nat} (hc : cfg.TwoSlotHeader)
    (h : HeaderOK cfg st b l) (mb : MemoryBlock) (hb : st.blocks b = some mb) :
    recoverBlock cfg (mb.payload cfg) st = some b := by
  obtain ⟨mb', r, hmb, hd, hraw, _, h1⟩ := h
  rw [hb] at hmb
  cases hmb
  obtain ⟨_, hs⟩ := hc
  have e : 2 * cfg.g_pointer_size - cfg.g_pointer_size = cfg.g_pointer_size := by omega
  have le : cfg.g_pointer_size ≤ 2 * cfg.g_pointer_size := by omega
  simp [recoverBlock, MemoryBlock.payload, hd, hs, load, hraw, e, le, h1]

theorem Inv.live_lt {cfg : Config} {st : State} {stk : Nat → List Nat} (h : Inv cfg st stk)
    {b : Nat} {mb : MemoryBlock} (hb : st.blocks b = some mb) : b < st.nblock := by
  by_contra hlt
  rw [h.fresh_block b (by omega)] at hb
  cases hb

theorem Inv.list_lt {cfg : Config} {st : State} {stk : Nat → List Nat} (h : Inv cfg st stk)
    {l : Nat} {fl : FreeList} (hl : st.lists l = some fl) : l < st.nlist := by
  by_contra hlt
  rw [h.fresh_list l (by omega)] at hl
  cases hl

theorem Inv.mem_lt {cfg : Config} {st : State} {stk : Nat → List Nat} (h : Inv cfg st stk)
    {l b : Nat} (hb : b ∈ stk l) : b < st.nblock := by
  obtain ⟨mb, hmb, _⟩ := h.stack_mem l b hb
  exact h.live_lt hmb

theorem Inv.mem_owner {cfg : Config} {st : State} {stk : Nat → List Nat} (h : Inv cfg st stk)
    {l l' b : Nat} (hb : b ∈ stk l) (hh : HeaderOK cfg st b l') : l = l' := by
  obtain ⟨_, _, _, hh'⟩ := h.stack_mem l b hb
  exact hh'.owner_unique hh

theorem Inv.not_mem_of_ref {cfg : Config} {st : State} {stk : Nat → List Nat}
    (h : Inv cfg st stk) {l b : Nat} {mb : MemoryBlock} (hb : st.blocks b = some mb)
    (hr : mb.ref_ ≠ 0) : b ∉ stk l := by
  intro hmem
  obtain ⟨mb', hmb', h0, _⟩ := h.stack_mem l b hmem
  rw [hb] at hmb'
  cases hmb'
  exact hr h0

theorem inv_empty (cfg : Config) : Inv cfg State.empty (fun _ => []) where
  counts := rfl
  fresh_raw := fun _ _ => rfl
  fresh_block := fun _ _ => rfl
  fresh_list := fun _ _ => rfl
  pool_list := by intro c l h; simp [State.empty] at h
  list_pool := by intro l fl h; simp [State.empty] at h
  block := by intro b mb h; simp [State.empty] at h
  stack := by intro l fl h; simp [State.empty] at h
  stack_mem := by intro l b h; simp at h

theorem inv_ref {cfg : Config} {st : State} {stk : Nat → List Nat} (h : Inv cfg st stk)
    {b : Nat} {mb : MemoryBlock} (hb : st.blocks b = some mb) (hr : 1 ≤ mb.ref_)
    (r : Int) (hr' : 1 ≤ r) : Inv cfg (refState st b mb r) stk := by
  have hnot : ∀ l, b ∉ stk l := fun l => h.not_mem_of_ref hb (by omega)
  have htr : ∀ x l, HeaderOK cfg st x l → HeaderOK cfg (refState st b mb r) x l := by
    intro x l hx
    refine hx.transfer ?_ rfl
    intro mx hmx
    by_cases e : x = b
    · subst e
      rw [hb] at hmx
      cases hmx
      exact ⟨{ mb with ref_ := r }, by simp [refState, upd_same], rfl⟩
    · exact ⟨mx, by simp [refState, upd_ne _ _ e, hmx], rfl⟩
  refine ⟨h.counts, h.fresh_raw, ?_, h.fresh_list, h.pool_list, h.list_pool, ?_, ?_, ?_⟩
  · intro x hx
    have hx : st.nblock ≤ x := hx
    have : x ≠ b := by
      intro e
      subst e
      have := h.live_lt hb
      omega
    simp [refState, upd_ne _ _ this, h.fresh_block x hx]
  · intro x mx hmx
    by_cases e : x = b
    · subst e
      simp [refState, upd_same] at hmx
      subst hmx
      obtain ⟨_, l, fl, hh, hl, _⟩ := h.block x mb hb
      refine ⟨by simp; omega, l, fl, htr _ _ hh, hl, ?_⟩
      intro h0
      simp at h0
      omega
    · simp [refState, upd_ne _ _ e] at hmx
      obtain ⟨h0, l, fl, hh, hl, hm⟩ := h.block x mx hmx
      exact ⟨h0, l, fl, htr _ _ hh, hl, hm⟩
  · intro l fl hl
    exact IsStack.frame b _ (hnot l) (h.stack l fl hl)
  · intro l x hx
    obtain ⟨mx, hmx, h0, hh⟩ := h.stack_mem l x hx
    have e : x ≠ b := fun e => hnot l (e ▸ hx)
    exact ⟨mx, by simp [refState, upd_ne _ _ e, hmx], h0, htr _ _ hh⟩
theorem Inv.stack_head {cfg : Config} {st : State} {stk : Nat → List Nat} (h : Inv cfg st stk)
    {l b : Nat} {fl : FreeList} {mb : MemoryBlock} (hl : st.lists l = some fl)
    (hf : fl.free_ = some b) (hb : st.blocks b = some mb) :
    ∃ rest, stk l = b :: rest ∧ b ∉ rest ∧ IsStack st.blocks mb.next rest := by
  have hs := h.stack l fl hl
  have hn := hs.nodup
  rw [hf] at hs
  cases hstk : stk l with
  | nil =>
    rw [hstk] at hs
    cases hs
  | cons x rest =>
    rw [hstk] at hs hn
    obtain ⟨hx, mx, hmx, hrest⟩ := hs
    cases hx
    rw [hb] at hmx
    cases hmx
    exact ⟨rest, rfl, (List.nodup_cons.mp hn).1, hrest⟩

theorem Inv.stack_nil {cfg : Config} {st : State} {stk : Nat → List Nat} (h : Inv cfg st stk)
    {l : Nat} {fl : FreeList} (hl : st.lists l = some fl) (hf : fl.free_ = none) :
    stk l = [] := by
  have hs := h.stack l fl hl
  rw [hf] at hs
  cases hstk : stk l with
  | nil => rfl
  | cons x rest =>
    rw [hstk] at hs
    cases hs.1

theorem inv_pop {cfg : Config} {st : State} {stk : Nat → List Nat} (h : Inv cfg st stk)
    {l b : Nat} {fl : FreeList} {mb : MemoryBlock} (hl : st.lists l = some fl)
    (hf : fl.free_ = some b) (hb : st.blocks b = some mb) :
    Inv cfg (popState st l fl b mb) (upd stk l (stk l).tail) := by
  obtain ⟨rest, hstk, hnin, hrest⟩ := h.stack_head hl hf hb
  have hbl : HeaderOK cfg st b l := by
    have : b ∈ stk l := by rw [hstk]; exact List.mem_cons_self _ _
    obtain ⟨_, _, _, hh⟩ := h.stack_mem l b this
    exact hh
  have hb0 : mb.ref_ = 0 := by
    have : b ∈ stk l := by rw [hstk]; exact List.mem_cons_self _ _
    obtain ⟨mb', hmb', h0, _⟩ := h.stack_mem l b this
    rw [hb] at hmb'
    cases hmb'
    exact h0
  have htail : (stk l).tail = rest := by rw [hstk]; rfl
  rw [htail]
  have htr : ∀ x l', HeaderOK cfg st x l' → HeaderOK cfg (popState st l fl b mb) x l' := by
    intro x l' hx
    refine hx.transfer ?_ rfl
    intro mx hmx
    by_cases e : x = b
    · subst e
      rw [hb] at hmx
      cases hmx
      exact ⟨{ mb with ref_ := mb.ref_ + 1 }, by simp [popState, upd_same], rfl⟩
    · exact ⟨mx, by simp [popState, upd_ne _ _ e, hmx], rfl⟩
  have hlive : ∀ l' fl', st.lists l' = some fl' →
      ∃ fl'', (popState st l fl b mb).lists l' = some fl'' := by
    intro l' fl' hl'
    by_cases e : l' = l
    · subst e
      exact ⟨{ fl with free_ := mb.next }, by simp [popState, upd_same]⟩
    · exact ⟨fl', by simp [popState, upd_ne _ _ e, hl']⟩
  have hmem : ∀ x l', x ≠ b → x ∈ stk l' → x ∈ upd stk l rest l' := by
    intro x l' hxb hx
    by_cases e : l' = l
    · subst e
      rw [upd_same]
      rw [hstk] at hx
      rcases List.mem_cons.mp hx with hx | hx
      · exact absurd hx hxb
      · exact hx
    · rw [upd_ne _ _ e]
      exact hx
  have hmem' : ∀ x l', x ∈ upd stk l rest l' → x ≠ b ∧ x ∈ stk l' := by
    intro x l' hx
    by_cases e : l' = l
    · subst e
      rw [upd_same] at hx
      refine ⟨fun e => hnin (e ▸ hx), ?_⟩
      rw [hstk]
      exact List.mem_cons_of_mem _ hx
    · rw [upd_ne _ _ e] at hx
      refine ⟨?_, hx⟩
      intro exb
      subst exb
      exact e (h.mem_owner hx hbl)
  refine ⟨h.counts, h.fresh_raw, ?_, ?_, ?_, ?_, ?_, ?_, ?_⟩
  · intro x hx
    have hx : st.nblock ≤ x := hx
    have : x ≠ b := by
      intro e
      subst e
      have := h.live_lt hb
      omega
    simp [popState, upd_ne _ _ this, h.fresh_block x hx]
  · intro x hx
    have hx : st.nlist ≤ x := hx
    have : x ≠ l := by
      intro e
      subst e
      have := h.list_lt hl
      omega
    simp [popState, upd_ne _ _ this, h.fresh_list x hx]
  · intro c l' hp
    have hp : st.pools_ c = some l' := hp
    obtain ⟨fl', hl', hsz⟩ := h.pool_list c l' hp
    by_cases e : l' = l
    · subst e
      rw [hl] at hl'
      cases hl'
      exact ⟨{ fl with free_ := mb.next }, by simp [popState, upd_same], hsz⟩
    · exact ⟨fl', by simp [popState, upd_ne _ _ e, hl'], hsz⟩
  · intro l' fl' hl'
    show st.pools_ fl'.size_ = some l'
    by_cases e : l' = l
    · subst e
      simp [popState, upd_same] at hl'
      subst hl'
      exact h.list_pool l' fl hl
    · simp [popState, upd_ne _ _ e] at hl'
      exact h.list_pool l' fl' hl'
  · intro x mx hmx
    by_cases e : x = b
    · subst e
      simp [popState, upd_same] at hmx
      subst hmx
      obtain ⟨_, l', fl', hh, hl', _⟩ := h.block x mb hb
      obtain ⟨fl'', hl''⟩ := hlive l' fl' hl'
      refine ⟨by simp; omega, l', fl'', htr _ _ hh, hl'', ?_⟩
      intro h0
      simp at h0
      omega
    · simp [popState, upd_ne _ _ e] at hmx
      obtain ⟨h0, l', fl', hh, hl', hm⟩ := h.block x mx hmx
      obtain ⟨fl'', hl''⟩ := hlive l' fl' hl'
      exact ⟨h0, l', fl'', htr _ _ hh, hl'', fun hz => hmem x l' e (hm hz)⟩
  · intro l' fl' hl'
    by_cases e : l' = l
    · subst e
      simp [popState, upd_same] at hl'
      subst hl'
      rw [upd_same]
      exact IsStack.frame b _ hnin hrest
    · simp [popState, upd_ne _ _ e] at hl'
      rw [upd_ne _ _ e]
      refine IsStack.frame b _ ?_ (h.stack l' fl' hl')
      intro hbm
      exact e (h.mem_owner hbm hbl)
  · intro l' x hx
    obtain ⟨hxb, hx'⟩ := hmem' x l' hx
    obtain ⟨mx, hmx, h0, hh⟩ := h.stack_mem l' x hx'
    exact ⟨mx, by simp [popState, upd_ne _ _ hxb, hmx], h0, htr _ _ hh⟩

theorem inv_push {cfg : Config} {st : State} {stk : Nat → List Nat} (h : Inv cfg st stk)
    {l b : Nat} {fl : FreeList} {mb : MemoryBlock} (hl : st.lists l = some fl)
    (hb : st.blocks b = some mb) (hr : mb.ref_ - 1 = 0) (hbl : HeaderOK cfg st b l) :
    Inv cfg (pushState st l fl b mb) (upd stk l (b :: stk l)) := by
  have hnot : ∀ l', b ∉ stk l' := fun l' => h.not_mem_of_ref hb (by omega)
  have htr : ∀ x l', HeaderOK cfg st x l' → HeaderOK cfg (pushState st l fl b mb) x l' := by
    intro x l' hx
    refine hx.transfer ?_ rfl
    intro mx hmx
    by_cases e : x = b
    · subst e
      rw [hb] at hmx
      cases hmx
      exact ⟨{ mb with ref_ := mb.ref_ - 1, next := fl.free_ },
        by simp [pushState, upd_same], rfl⟩
    · exact ⟨mx, by simp [pushState, upd_ne _ _ e, hmx], rfl⟩
  have hlive : ∀ l' fl', st.lists l' = some fl' →
      ∃ fl'', (pushState st l fl b mb).lists l' = some fl'' := by
    intro l' fl' hl'
    by_cases e : l' = l
    · subst e
      exact ⟨{ fl with free_ := some b }, by simp [pushState, upd_same]⟩
    · exact ⟨fl', by simp [pushState, upd_ne _ _ e, hl']⟩
  have hmem : ∀ x l', x ∈ stk l' → x ∈ upd stk l (b :: stk l) l' := by
    intro x l' hx
    by_cases e : l' = l
    · subst e
      rw [upd_same]
      exact List.mem_cons_of_mem _ hx
    · rw [upd_ne _ _ e]
      exact hx
  refine ⟨h.counts, h.fresh_raw, ?_, ?_, ?_, ?_, ?_, ?_, ?_⟩
  · intro x hx
    have hx : st.nblock ≤ x := hx
    have : x ≠ b := by
      intro e
      subst e
      have := h.live_lt hb
      omega
    simp [pushState, upd_ne _ _ this, h.fresh_block x hx]
  · intro x hx
    have hx : st.nlist ≤ x := hx
    have : x ≠ l := by
      intro e
      subst e
      have := h.list_lt hl
      omega
    simp [pushState, upd_ne _ _ this, h.fresh_list x hx]
  · intro c l' hp
    have hp : st.pools_ c = some l' := hp
    obtain ⟨fl', hl', hsz⟩ := h.pool_list c l' hp
    by_cases e : l' = l
    · subst e
      rw [hl] at hl'
      cases hl'
      exact ⟨{ fl with free_ := some b }, by simp [pushState, upd_same], hsz⟩
    · exact ⟨fl', by simp [pushState, upd_ne _ _ e, hl'], hsz⟩
  · intro l' fl' hl'
    show st.pools_ fl'.size_ = some l'
    by_cases e : l' = l
    · subst e
      simp [pushState, upd_same] at hl'
      subst hl'
      exact h.list_pool l' fl hl
    · simp [pushState, upd_ne _ _ e] at hl'
      exact h.list_pool l' fl' hl'
  · intro x mx hmx
    by_cases e : x = b
    · subst e
      simp [pushState, upd_same] at hmx
      subst hmx
      obtain ⟨fl'', hl''⟩ := hlive l fl hl
      refine ⟨by simp; omega, l, fl'', htr _ _ hbl, hl'', ?_⟩
      intro _
      rw [upd_same]
      exact List.mem_cons_self _ _
    · simp [pushState, upd_ne _ _ e] at hmx
      obtain ⟨h0, l', fl', hh, hl', hm⟩ := h.block x mx hmx
      obtain ⟨fl'', hl''⟩ := hlive l' fl' hl'
      exact ⟨h0, l', fl'', htr _ _ hh, hl'', fun hz => hmem x l' (hm hz)⟩
  · intro l' fl' hl'
    by_cases e : l' = l
    · subst e
      simp [pushState, upd_same] at hl'
      subst hl'
      rw [upd_same]
      refine ⟨rfl, { mb with ref_ := mb.ref_ - 1, next := fl.free_ },
        by simp [pushState, upd_same], ?_⟩
      exact IsStack.frame b _ (hnot l') (h.stack l' fl hl)
    · simp [pushState, upd_ne _ _ e] at hl'
      rw [upd_ne _ _ e]
      exact IsStack.frame b _ (hnot l') (h.stack l' fl' hl')
  · intro l' x hx
    by_cases e : x = b
    · subst e
      have el : l' = l := by
        by_contra hne
        rw [upd_ne _ _ hne] at hx
        exact hnot l' hx
      subst el
      exact ⟨{ mb with ref_ := mb.ref_ - 1, next := fl.free_ },
        by simp [pushState, upd_same], hr, htr _ _ hbl⟩
    · have hx' : x ∈ stk l' := by
        by_cases el : l' = l
        · subst el
          rw [upd_same] at hx
          rcases List.mem_cons.mp hx with hx | hx
          · exact absurd hx e
          · exact hx
        · rw [upd_ne _ _ el] at hx
          exact hx
      obtain ⟨mx, hmx, h0, hh⟩ := h.stack_mem l' x hx'
      exact ⟨mx, by simp [pushState, upd_ne _ _ e, hmx], h0, htr _ _ hh⟩
theorem register_lists (cfg : Config) (st : State) (c : Nat) :
    (registerState cfg st c).lists = upd st.lists st.nlist (some ⟨some st.nblock, c⟩) := by
  simp [registerState, FreeList.ctor, MemoryBlock.ctor, upd_upd]

theorem register_blocks (cfg : Config) (st : State) (c : Nat) :
    (registerState cfg st c).blocks = upd st.blocks st.nblock (some ⟨none, ⟨st.nraw, 0⟩, 0⟩) :=
  rfl

theorem register_raws (cfg : Config) (st : State) (c : Nat) :
    (registerState cfg st c).raws = upd st.raws st.nraw
      (some ⟨(c + cfg.header_size_) % 2 ^ cfg.size_bits,
        upd (upd (fun _ => none) 0 (some (Word.listPtr st.nlist)))
          cfg.g_pointer_size (some (Word.blockPtr st.nblock))⟩) :=
  rfl

theorem register_pools (cfg : Config) (st : State) (c : Nat) :
    (registerState cfg st c).pools_ = upd st.pools_ c (some st.nlist) :=
  rfl

theorem header_new {cfg : Config} (hc : cfg.TwoSlotHeader) {st' : State} {b l : Nat}
    {r : Int} (size : Nat)
    (hb : st'.blocks b = some ⟨none, ⟨b, 0⟩, r⟩)
    (hr : st'.raws b = some ⟨size,
        upd (upd (fun _ => none) 0 (some (Word.listPtr l)))
          cfg.g_pointer_size (some (Word.blockPtr b))⟩) :
    HeaderOK cfg st' b l := by
  have hne : (0 : Nat) ≠ cfg.g_pointer_size := by
    have := hc.1
    omega
  exact ⟨_, _, hb, rfl, hr, by simp [upd, hne], by simp [upd]⟩

theorem inv_grow {cfg : Config} (hc : cfg.TwoSlotHeader) {st : State} {stk : Nat → List Nat}
    (h : Inv cfg st stk) {l : Nat} {fl : FreeList} (hl : st.lists l = some fl) (size : Nat) :
    Inv cfg (growState cfg st size l) stk := by
  have hcnt := h.counts
  have hold : ∀ x, x < st.nblock → (growState cfg st size l).blocks x = st.blocks x := by
    intro x hx
    have : x ≠ st.nblock := by omega
    simp [growState, upd_ne _ _ this]
  have holdr : ∀ x, x < st.nblock → (growState cfg st size l).raws x = st.raws x := by
    intro x hx
    have : x ≠ st.nraw := by omega
    simp [growState, upd_ne _ _ this]
  have htr : ∀ x l', HeaderOK cfg st x l' → HeaderOK cfg (growState cfg st size l) x l' := by
    intro x l' hx
    have ⟨mx, _, hmx, _⟩ := hx
    have hlt := h.live_lt hmx
    refine hx.transfer ?_ (holdr x hlt)
    intro mx' hmx'
    exact ⟨mx', by rw [hold x hlt]; exact hmx', rfl⟩
  have hnew : (growState cfg st size l).blocks st.nblock
      = some ⟨none, ⟨st.nblock, 0⟩, 0 + 1⟩ := by
    simp [growState, upd_same, hcnt]
  refine ⟨by simp [growState, hcnt], ?_, ?_, h.fresh_list, h.pool_list, h.list_pool,
    ?_, ?_, ?_⟩
  · intro x hx
    have hx : st.nraw + 1 ≤ x := hx
    have : x ≠ st.nraw := by omega
    simp [growState, upd_ne _ _ this, h.fresh_raw x (by omega)]
  · intro x hx
    have hx : st.nblock + 1 ≤ x := hx
    have : x ≠ st.nblock := by omega
    simp [growState, upd_ne _ _ this, h.fresh_block x (by omega)]
  · intro x mx hmx
    by_cases e : x = st.nblock
    · subst e
      rw [hnew] at hmx
      cases hmx
      refine ⟨by simp, l, fl, ?_, hl, by simp⟩
      refine header_new hc ((size + cfg.header_size_) % 2 ^ cfg.size_bits) hnew ?_
      simp only [growState, ← hcnt, upd_same]
    · have hlt : x < st.nblock := by
        by_contra hge
        have hx : st.nblock + 1 ≤ x := by omega
        have : x ≠ st.nblock := e
        simp [growState, upd_ne _ _ this, h.fresh_block x (by omega)] at hmx
      rw [hold x hlt] at hmx
      obtain ⟨h0, l', fl', hh, hl', hm⟩ := h.block x mx hmx
      exact ⟨h0, l', fl', htr _ _ hh, hl', hm⟩
  · intro l' fl' hl'
    refine IsStack.frame _ _ ?_ (h.stack l' fl' hl')
    intro hm
    have := h.mem_lt hm
    omega
  · intro l' x hx
    obtain ⟨mx, hmx, h0, hh⟩ := h.stack_mem l' x hx
    exact ⟨mx, by rw [hold x (h.live_lt hmx)]; exact hmx, h0, htr _ _ hh⟩

theorem inv_register {cfg : Config} (hc : cfg.TwoSlotHeader) {st : State}
    {stk : Nat → List Nat} (h : Inv cfg st stk) {c : Nat} (hp : st.pools_ c = none) :
    Inv cfg (registerState cfg st c) (upd stk st.nlist [st.nblock]) := by
  have hcnt := h.counts
  have hold : ∀ x, x < st.nblock → (registerState cfg st c).blocks x = st.blocks x := by
    intro x hx
    have : x ≠ st.nblock := by omega
    rw [register_blocks, upd_ne _ _ this]
  have holdr : ∀ x, x < st.nblock → (registerState cfg st c).raws x = st.raws x := by
    intro x hx
    have : x ≠ st.nraw := by omega
    rw [register_raws, upd_ne _ _ this]
  have holdl : ∀ x, x < st.nlist → (registerState cfg st c).lists x = st.lists x := by
    intro x hx
    have : x ≠ st.nlist := by omega
    rw [register_lists, upd_ne _ _ this]
  have holds : ∀ x, x < st.nlist → upd stk st.nlist [st.nblock] x = stk x := by
    intro x hx
    have : x ≠ st.nlist := by omega
    rw [upd_ne _ _ this]
  have hdead : stk st.nlist = [] := by
    cases hs : stk st.nlist with
    | nil => rfl
    | cons x rest =>
      have hx : x ∈ stk st.nlist := by rw [hs]; exact List.mem_cons_self _ _
      obtain ⟨mx, hmx, _, hh⟩ := h.stack_mem _ x hx
      obtain ⟨_, l', fl', hh', hl', _⟩ := h.block x mx hmx
      have := hh.owner_unique hh'
      subst this
      have := h.list_lt hl'
      omega
  have htr : ∀ x l', HeaderOK cfg st x l' → HeaderOK cfg (registerState cfg st c) x l' := by
    intro x l' hx
    have ⟨mx, _, hmx, _⟩ := hx
    have hlt := h.live_lt hmx
    refine hx.transfer ?_ (holdr x hlt)
    intro mx' hmx'
    exact ⟨mx', by rw [hold x hlt]; exact hmx', rfl⟩
  have hnew : (registerState cfg st c).blocks st.nblock
      = some ⟨none, ⟨st.nblock, 0⟩, 0⟩ := by
    rw [register_blocks, upd_same, hcnt]
  have hnewl : (registerState cfg st c).lists st.nlist = some ⟨some st.nblock, c⟩ := by
    rw [register_lists, upd_same]
  have hhdr : HeaderOK cfg (registerState cfg st c) st.nblock st.nlist := by
    refine header_new hc ((c + cfg.header_size_) % 2 ^ cfg.size_bits) hnew ?_
    rw [register_raws, ← hcnt, upd_same]
  refine ⟨?_, ?_, ?_, ?_, ?_, ?_, ?_, ?_, ?_⟩
  · show st.nraw + 1 = st.nblock + 1
    omega
  · intro x hx
    have hx : st.nraw + 1 ≤ x := hx
    have : x ≠ st.nraw := by omega
    rw [register_raws, upd_ne _ _ this]
    exact h.fresh_raw x (by omega)
  · intro x hx
    have hx : st.nblock + 1 ≤ x := hx
    have : x ≠ st.nblock := by omega
    rw [register_blocks, upd_ne _ _ this]
    exact h.fresh_block x (by omega)
  · intro x hx
    have hx : st.nlist + 1 ≤ x := hx
    have : x ≠ st.nlist := by omega
    rw [register_lists, upd_ne _ _ this]
    exact h.fresh_list x (by omega)
  · intro c' l' hp'
    rw [register_pools] at hp'
    by_cases e : c' = c
    · subst e
      rw [upd_same] at hp'
      cases hp'
      exact ⟨_, hnewl, rfl⟩
    · rw [upd_ne _ _ e] at hp'
      obtain ⟨fl', hl', hsz⟩ := h.pool_list c' l' hp'
      exact ⟨fl', by rw [holdl l' (h.list_lt hl')]; exact hl', hsz⟩
  · intro l' fl' hl'
    rw [register_pools]
    by_cases e : l' = st.nlist
    · subst e
      rw [hnewl] at hl'
      cases hl'
      exact upd_same _ _ _
    · rw [register_lists, upd_ne _ _ e] at hl'
      have hne : fl'.size_ ≠ c := by
        intro e'
        have := h.list_pool l' fl' hl'
        rw [e', hp] at this
        cases this
      rw [upd_ne _ _ hne]
      exact h.list_pool l' fl' hl'
  · intro x mx hmx
    by_cases e : x = st.nblock
    · subst e
      rw [hnew] at hmx
      cases hmx
      refine ⟨le_refl _, st.nlist, _, hhdr, hnewl, ?_⟩
      intro _
      rw [upd_same]
      exact List.mem_cons_self _ _
    · rw [register_blocks, upd_ne _ _ e] at hmx
      obtain ⟨h0, l', fl', hh, hl', hm⟩ := h.block x mx hmx
      have hlt := h.list_lt hl'
      refine ⟨h0, l', fl', htr _ _ hh, by rw [holdl l' hlt]; exact hl', ?_⟩
      intro hz
      rw [holds l' hlt]
      exact hm hz
  · intro l' fl' hl'
    by_cases e : l' = st.nlist
    · subst e
      rw [hnewl] at hl'
      cases hl'
      rw [upd_same]
      exact ⟨rfl, _, hnew, rfl⟩
    · rw [register_lists, upd_ne _ _ e] at hl'
      rw [upd_ne _ _ e, register_blocks]
      refine IsStack.frame _ _ ?_ (h.stack l' fl' hl')
      intro hm
      have := h.mem_lt hm
      omega
  · intro l' x hx
    by_cases e : l' = st.nlist
    · subst e
      rw [upd_same] at hx
      have : x = st.nblock := by simpa using hx
      subst this
      exact ⟨_, hnew, rfl, hhdr⟩
    · rw [upd_ne _ _ e] at hx
      obtain ⟨mx, hmx, h0, hh⟩ := h.stack_mem l' x hx
      exact ⟨mx, by rw [hold x (h.live_lt hmx)]; exact hmx, h0, htr _ _ hh⟩
/-! ## The three operations on a state that satisfies the invariant -/

theorem InCirculation.elim {cfg : Config} {st : State} {p : Ptr} (h : InCirculation cfg st p) :
    ∃ b mb, recoverBlock cfg p st = some b ∧ st.blocks b = some mb ∧
      mb.payload cfg = p ∧ 1 ≤ mb.ref_ := by
  unfold InCirculation at h
  split at h
  · exact h.elim
  · rename_i b hb
    split at h
    · exact h.elim
    · rename_i mb hmb
      exact ⟨b, mb, hb, hmb, h.1, h.2⟩

theorem InCirculation.intro {cfg : Config} {st : State} {p : Ptr} {b : Nat} {mb : MemoryBlock}
    (hb : recoverBlock cfg p st = some b) (hmb : st.blocks b = some mb)
    (hp : mb.payload cfg = p) (hr : 1 ≤ mb.ref_) : InCirculation cfg st p := by
  unfold InCirculation
  simp [hb, hmb, hp, hr]

theorem Inv.header {cfg : Config} {st : State} {stk : Nat → List Nat} (h : Inv cfg st stk)
    {b : Nat} {mb : MemoryBlock} (hb : st.blocks b = some mb) :
    ∃ l fl, HeaderOK cfg st b l ∧ st.lists l = some fl ∧ st.pools_ fl.size_ = some l := by
  obtain ⟨_, l, fl, hh, hl, _⟩ := h.block b mb hb
  exact ⟨l, fl, hh, hl, h.list_pool l fl hl⟩

theorem Inv.payload {cfg : Config} {st : State} {stk : Nat → List Nat} (h : Inv cfg st stk)
    {b : Nat} {mb : MemoryBlock} (hb : st.blocks b = some mb) :
    mb.payload cfg = ⟨b, 0 + cfg.header_size_⟩ := by
  obtain ⟨l, _, ⟨mb', _, hmb', hd, _⟩, _⟩ := h.header hb
  rw [hb] at hmb'
  cases hmb'
  simp [MemoryBlock.payload, hd]

theorem Inv.payload_inj {cfg : Config} {st : State} {stk : Nat → List Nat}
    (h : Inv cfg st stk) {b b' : Nat} {mb mb' : MemoryBlock} (hb : st.blocks b = some mb)
    (hb' : st.blocks b' = some mb') (he : mb.payload cfg = mb'.payload cfg) : b = b' := by
  rw [h.payload hb, h.payload hb'] at he
  cases he
  rfl

/-- What `Refer` does to a pointer in circulation. -/
theorem Refer_spec {cfg : Config} {st : State} {stk : Nat → List Nat} (h : Inv cfg st stk)
    {p : Ptr} (hp : InCirculation cfg st p) :
    ∃ b mb, recoverBlock cfg p st = some b ∧ st.blocks b = some mb ∧ mb.payload cfg = p ∧
      1 ≤ mb.ref_ ∧
      SmartAllocator.Refer cfg p st = some (refState st b mb (mb.ref_ + 1)) ∧
      Inv cfg (refState st b mb (mb.ref_ + 1)) stk := by
  obtain ⟨b, mb, hb, hmb, hpay, hr⟩ := hp.elim
  refine ⟨b, mb, hb, hmb, hpay, hr, ?_, inv_ref h hmb hr _ (by omega)⟩
  simp [SmartAllocator.Refer, hb, Link_eq st b mb hmb]

/-- What `Free` does to a pointer in circulation: with more than one
reference the count drops, with exactly one the block is pushed onto the
stack of the list named in its header. -/
theorem Free_spec {cfg : Config} {st : State} {stk : Nat → List Nat} (h : Inv cfg st stk)
    {p : Ptr} (hp : InCirculation cfg st p) :
    ∃ b mb l fl, recoverBlock cfg p st = some b ∧ st.blocks b = some mb ∧
      mb.payload cfg = p ∧ 1 ≤ mb.ref_ ∧ HeaderOK cfg st b l ∧ st.lists l = some fl ∧
      ((2 ≤ mb.ref_ ∧
          SmartAllocator.Free cfg p st = some (refState st b mb (mb.ref_ - 1)) ∧
          Inv cfg (refState st b mb (mb.ref_ - 1)) stk) ∨
       (mb.ref_ = 1 ∧
          SmartAllocator.Free cfg p st = some (pushState st l fl b mb) ∧
          Inv cfg (pushState st l fl b mb) (upd stk l (b :: stk l)))) := by
  obtain ⟨b, mb, hb, hmb, hpay, hr⟩ := hp.elim
  obtain ⟨l, fl, hh, hl, _⟩ := h.header hmb
  refine ⟨b, mb, l, fl, hb, hmb, hpay, hr, hh, hl, ?_⟩
  by_cases h1 : mb.ref_ = 1
  · right
    have hz : mb.ref_ - 1 = 0 := by omega
    refine ⟨h1, ?_, inv_push h hl hmb hz hh⟩
    simp [SmartAllocator.Free, hb, Unlink_push cfg st b l mb fl hmb hz hh hl]
  · left
    have hz : mb.ref_ - 1 ≠ 0 := by omega
    refine ⟨by omega, ?_, inv_ref h hmb hr _ (by omega)⟩
    simp [SmartAllocator.Free, hb, Unlink_keep st b mb hmb hz]

/-- What `Malloc` does: it always returns, and it is one of three cases: the
head of the stack of an existing list, a new block of an existing list whose
stack is empty, or the first block of a new list. -/
theorem Malloc_spec {cfg : Config} (hc : cfg.TwoSlotHeader) {st : State}
    {stk : Nat → List Nat} (h : Inv cfg st stk) (size : Nat) :
    (∃ l fl b mb, st.pools_ (roundSize cfg.size_bits size) = some l ∧
        st.lists l = some fl ∧ fl.free_ = some b ∧ st.blocks b = some mb ∧
        SmartAllocator.Malloc cfg size st = some (mb.payload cfg, popState st l fl b mb) ∧
        Inv cfg (popState st l fl b mb) (upd stk l (stk l).tail)) ∨
    (∃ l fl, st.pools_ (roundSize cfg.size_bits size) = some l ∧
        st.lists l = some fl ∧ fl.free_ = none ∧
        SmartAllocator.Malloc cfg size st
          = some (⟨st.nraw, 0 + cfg.header_size_⟩, growState cfg st fl.size_ l) ∧
        Inv cfg (growState cfg st fl.size_ l) stk) ∨
    (st.pools_ (roundSize cfg.size_bits size) = none ∧
        SmartAllocator.Malloc cfg size st
          = some (⟨st.nraw, 0 + cfg.header_size_⟩,
              popState (registerState cfg st (roundSize cfg.size_bits size)) st.nlist
                ⟨some st.nblock, roundSize cfg.size_bits size⟩ st.nblock
                ⟨none, ⟨st.nraw, 0⟩, 0⟩) ∧
        Inv cfg
          (popState (registerState cfg st (roundSize cfg.size_bits size)) st.nlist
            ⟨some st.nblock, roundSize cfg.size_bits size⟩ st.nblock ⟨none, ⟨st.nraw, 0⟩, 0⟩)
          (upd stk st.nlist [])) := by
  cases hp : st.pools_ (roundSize cfg.size_bits size) with
  | some l =>
    obtain ⟨fl, hl, _⟩ := h.pool_list _ l hp
    cases hf : fl.free_ with
    | some b =>
      left
      have hs := h.stack l fl hl
      rw [hf] at hs
      have hmb : ∃ mb, st.blocks b = some mb := by
        cases hstk : stk l with
        | nil => rw [hstk] at hs; cases hs
        | cons x rest =>
          rw [hstk] at hs
          obtain ⟨hx, mx, hmx, _⟩ := hs
          cases hx
          exact ⟨mx, hmx⟩
      obtain ⟨mb, hmb⟩ := hmb
      exact ⟨l, fl, b, mb, rfl, hl, hf, hmb,
        by rw [Malloc_old cfg st size l hp, Pop_nonempty cfg st l fl b mb hl hf hmb],
        inv_pop h hl hf hmb⟩
    | none =>
      right; left
      exact ⟨l, fl, rfl, hl, hf,
        by rw [Malloc_old cfg st size l hp, Pop_empty cfg st l fl hl hf],
        inv_grow hc h hl _⟩
  | none =>
    right; right
    have hreg := inv_register hc h hp
    have hl : (registerState cfg st (roundSize cfg.size_bits size)).lists st.nlist
        = some ⟨some st.nblock, roundSize cfg.size_bits size⟩ := by
      rw [register_lists, upd_same]
    have hb : (registerState cfg st (roundSize cfg.size_bits size)).blocks st.nblock
        = some ⟨none, ⟨st.nraw, 0⟩, 0⟩ := by
      rw [register_blocks, upd_same]
    have hpop := inv_pop hreg hl rfl hb
    rw [upd_same, upd_upd] at hpop
    refine ⟨rfl, ?_, hpop⟩
    rw [Malloc_new cfg st size hp, Pop_nonempty cfg _ st.nlist _ st.nblock _ hl rfl hb]
    rfl

theorem step_inv {cfg : Config} (hc : cfg.TwoSlotHeader) {s s' : State}
    {stk : Nat → List Nat} (h : Inv cfg s stk) (hs : Step cfg s s') :
    ∃ stk', Inv cfg s' stk' := by
  cases hs with
  | malloc size p _ hm =>
    rcases Malloc_spec hc h size with ⟨l, fl, b, mb, _, _, _, _, he, hi⟩ |
      ⟨l, fl, _, _, _, he, hi⟩ | ⟨_, he, hi⟩
    all_goals
      rw [he] at hm
      cases hm
      exact ⟨_, hi⟩
  | free p hp hf =>
    obtain ⟨b, mb, l, fl, _, _, _, _, _, _, hcase⟩ := Free_spec h hp
    rcases hcase with ⟨_, he, hi⟩ | ⟨_, he, hi⟩
    all_goals
      rw [he] at hf
      cases hf
      exact ⟨_, hi⟩
  | refer p hp hr =>
    obtain ⟨b, mb, _, _, _, _, he, hi⟩ := Refer_spec h hp
    rw [he] at hr
    cases hr
    exact ⟨_, hi⟩

theorem steps_inv {cfg : Config} (hc : cfg.TwoSlotHeader) {s s' : State}
    (hs : Steps cfg s s') : (∃ stk, Inv cfg s stk) → ∃ stk', Inv cfg s' stk' := by
  induction hs with
  | refl => exact id
  | tail _ hstep ih =>
    intro h0
    obtain ⟨stk, hi⟩ := ih h0
    exact step_inv hc hi hstep

theorem reachable_inv {cfg : Config} (hc : cfg.TwoSlotHeader) {s : State}
    (hs : Reachable cfg s) : ∃ stk, Inv cfg s stk :=
  steps_inv hc hs ⟨_, inv_empty cfg⟩
theorem popState_blocks_same (st : State) (l : Nat) (fl : FreeList) (b : Nat)
    (mb : MemoryBlock) :
    (popState st l fl b mb).blocks b = some { mb with ref_ := mb.ref_ + 1 } := by
  simp [popState, upd_same]

theorem popState_blocks_ne (st : State) (l : Nat) (fl : FreeList) (b : Nat)
    (mb : MemoryBlock) {x : Nat} (hx : x ≠ b) :
    (popState st l fl b mb).blocks x = st.blocks x := by
  simp [popState, upd_ne _ _ hx]

theorem popState_lists_same (st : State) (l : Nat) (fl : FreeList) (b : Nat)
    (mb : MemoryBlock) :
    (popState st l fl b mb).lists l = some { fl with free_ := mb.next } := by
  simp [popState, upd_same]

theorem popState_lists_ne (st : State) (l : Nat) (fl : FreeList) (b : Nat)
    (mb : MemoryBlock) {x : Nat} (hx : x ≠ l) :
    (popState st l fl b mb).lists x = st.lists x := by
  simp [popState, upd_ne _ _ hx]

theorem HeaderOK.pop {cfg : Config} {st : State} {x lx : Nat} (hx : HeaderOK cfg st x lx)
    (l : Nat) (fl : FreeList) {b : Nat} {mb : MemoryBlock} (hmb : st.blocks b = some mb) :
    HeaderOK cfg (popState st l fl b mb) x lx := by
  refine hx.transfer ?_ rfl
  intro mx hmx
  by_cases e : x = b
  · subst e
    rw [hmb] at hmx
    cases hmx
    exact ⟨_, popState_blocks_same st l fl x mb, rfl⟩
  · exact ⟨mx, by rw [popState_blocks_ne st l fl b mb e]; exact hmx, rfl⟩

theorem HeaderOK.grow {cfg : Config} {st : State} {stk : Nat → List Nat} (h : Inv cfg st stk)
    {x lx : Nat} (hx : HeaderOK cfg st x lx) (size l : Nat) :
    HeaderOK cfg (growState cfg st size l) x lx := by
  have ⟨mx, _, hmx, _⟩ := hx
  have hlt := h.live_lt hmx
  have hcnt := h.counts
  have h1 : x ≠ st.nblock := by omega
  have h2 : x ≠ st.nraw := by omega
  refine hx.transfer ?_ (by simp [growState, upd_ne _ _ h2])
  intro mx' hmx'
  exact ⟨mx', by simp [growState, upd_ne _ _ h1, hmx'], rfl⟩

theorem HeaderOK.register {cfg : Config} {st : State} {stk : Nat → List Nat}
    (h : Inv cfg st stk) {x lx : Nat} (hx : HeaderOK cfg st x lx) (c : Nat) :
    HeaderOK cfg (registerState cfg st c) x lx := by
  have ⟨mx, _, hmx, _⟩ := hx
  have hlt := h.live_lt hmx
  have hcnt := h.counts
  have h1 : x ≠ st.nblock := by omega
  have h2 : x ≠ st.nraw := by omega
  refine hx.transfer ?_ (by rw [register_raws, upd_ne _ _ h2])
  intro mx' hmx'
  exact ⟨mx', by rw [register_blocks, upd_ne _ _ h1]; exact hmx', rfl⟩

/-- The outcome of `Malloc` on a state satisfying the invariant, without the
case distinction: block `b` of list `l` is handed out with one reference; it
was either free or did not exist, and nothing else changes for the other
blocks, the map or the existing lists. -/
theorem Malloc_post {cfg : Config} (hc : cfg.TwoSlotHeader) {st : State}
    {stk : Nat → List Nat} (h : Inv cfg st stk) (size : Nat) :
    ∃ p st' stk' b mb l fl,
      SmartAllocator.Malloc cfg size st = some (p, st') ∧ Inv cfg st' stk' ∧
      st'.blocks b = some mb ∧ mb.payload cfg = p ∧ mb.ref_ = 1 ∧
      HeaderOK cfg st' b l ∧ st'.pools_ (roundSize cfg.size_bits size) = some l ∧
      st'.lists l = some fl ∧ fl.size_ = roundSize cfg.size_bits size ∧
      (∀ mb0, st.blocks b = some mb0 → mb0.ref_ = 0 ∧ HeaderOK cfg st b l) ∧
      (∀ x, x ≠ b → st'.blocks x = st.blocks x) ∧
      (∀ x lx, HeaderOK cfg st x lx → HeaderOK cfg st' x lx) ∧
      (∀ c x, st.pools_ c = some x → st'.pools_ c = some x) ∧
      (∀ x flx, st.lists x = some flx →
        ∃ flx', st'.lists x = some flx' ∧ flx'.size_ = flx.size_) := by
  rcases Malloc_spec hc h size with ⟨l, fl, b, mb, hp, hl, hf, hmb, he, hi⟩ |
    ⟨l, fl, hp, hl, hf, he, hi⟩ | ⟨hp, he, hi⟩
  · -- the head of an existing stack
    obtain ⟨rest, hstk, _, _⟩ := h.stack_head hl hf hmb
    have hmem : b ∈ stk l := by rw [hstk]; exact List.mem_cons_self _ _
    obtain ⟨mb', hmb', h0, hh⟩ := h.stack_mem l b hmem
    rw [hmb] at hmb'
    cases hmb'
    obtain ⟨_, l', fl', hh', hl', _⟩ := hi.block b _ (popState_blocks_same st l fl b mb)
    have hh2 : HeaderOK cfg (popState st l fl b mb) b l :=
      hh.transfer (fun mx hmx => by
        rw [hmb] at hmx
        cases hmx
        exact ⟨_, popState_blocks_same st l fl b mb, rfl⟩) rfl
    refine ⟨_, _, _, b, _, l, _, he, hi, popState_blocks_same st l fl b mb, rfl,
      by simp [h0], hh2, hp, popState_lists_same st l fl b mb, ?_, ?_, ?_, ?_, ?_, ?_⟩
    · obtain ⟨fl2, hl2, hsz⟩ := h.pool_list _ l hp
      rw [hl] at hl2
      cases hl2
      exact hsz
    · intro mb0 hmb0
      rw [hmb] at hmb0
      cases hmb0
      exact ⟨h0, hh⟩
    · intro x hx
      exact popState_blocks_ne st l fl b mb hx
    · intro x lx hx
      exact hx.pop l fl hmb
    · intro c x hx
      exact hx
    · intro x flx hx
      by_cases e : x = l
      · subst e
        rw [hl] at hx
        cases hx
        exact ⟨_, popState_lists_same st x fl b mb, rfl⟩
      · exact ⟨flx, by rw [popState_lists_ne st l fl b mb e]; exact hx, rfl⟩
  · -- a new block of an existing list
    have hnew : (growState cfg st fl.size_ l).blocks st.nblock
        = some ⟨none, ⟨st.nraw, 0⟩, 0 + 1⟩ := by
      simp [growState, upd_same]
    have hnew' : (growState cfg st fl.size_ l).blocks st.nblock
        = some ⟨none, ⟨st.nblock, 0⟩, 0 + 1⟩ := by
      rw [hnew, h.counts]
    have hh : HeaderOK cfg (growState cfg st fl.size_ l) st.nblock l := by
      refine header_new hc ((fl.size_ + cfg.header_size_) % 2 ^ cfg.size_bits) hnew' ?_
      simp only [growState, ← h.counts, upd_same]
    refine ⟨_, _, _, st.nblock, _, l, fl, he, hi, hnew, rfl, by simp, hh, hp, hl, ?_, ?_,
      ?_, ?_, ?_, ?_⟩
    · obtain ⟨fl2, hl2, hsz⟩ := h.pool_list _ l hp
      rw [hl] at hl2
      cases hl2
      exact hsz
    · intro mb0 hmb0
      rw [h.fresh_block _ (le_refl _)] at hmb0
      cases hmb0
    · intro x hx
      simp [growState, upd_ne _ _ hx]
    · intro x lx hx
      exact hx.grow h _ _
    · intro c x hx
      exact hx
    · intro x flx hx
      exact ⟨flx, hx, rfl⟩
  · -- the first block of a new list
    have hb := popState_blocks_same (registerState cfg st (roundSize cfg.size_bits size))
      st.nlist ⟨some st.nblock, roundSize cfg.size_bits size⟩ st.nblock
      ⟨none, ⟨st.nraw, 0⟩, 0⟩
    have hl := popState_lists_same (registerState cfg st (roundSize cfg.size_bits size))
      st.nlist ⟨some st.nblock, roundSize cfg.size_bits size⟩ st.nblock
      ⟨none, ⟨st.nraw, 0⟩, 0⟩
    have hb' : (popState (registerState cfg st (roundSize cfg.size_bits size)) st.nlist
        ⟨some st.nblock, roundSize cfg.size_bits size⟩ st.nblock
        ⟨none, ⟨st.nraw, 0⟩, 0⟩).blocks st.nblock
          = some ⟨none, ⟨st.nblock, 0⟩, 0 + 1⟩ := by
      rw [hb, h.counts]
    have hh : HeaderOK cfg (popState (registerState cfg st (roundSize cfg.size_bits size))
        st.nlist ⟨some st.nblock, roundSize cfg.size_bits size⟩ st.nblock
        ⟨none, ⟨st.nraw, 0⟩, 0⟩) st.nblock st.nlist := by
      refine header_new hc
        ((roundSize cfg.size_bits size + cfg.header_size_) % 2 ^ cfg.size_bits) hb' ?_
      show (registerState cfg st (roundSize cfg.size_bits size)).raws st.nblock = _
      rw [register_raws, ← h.counts, upd_same]
    refine ⟨_, _, _, st.nblock, _, st.nlist, _, he, hi, hb, rfl, by simp, hh, ?_, hl, rfl,
      ?_, ?_, ?_, ?_, ?_⟩
    · show (registerState cfg st (roundSize cfg.size_bits size)).pools_ _ = _
      rw [register_pools, upd_same]
    · intro mb0 hmb0
      rw [h.fresh_block _ (le_refl _)] at hmb0
      cases hmb0
    · intro x hx
      rw [popState_blocks_ne _ _ _ _ _ hx, register_blocks, upd_ne _ _ hx]
    · intro x lx hx
      refine (hx.register h _).pop _ _ ?_
      rw [register_blocks, upd_same]
    · intro c x hx
      show (registerState cfg st (roundSize cfg.size_bits size)).pools_ _ = _
      have hne : c ≠ roundSize cfg.size_bits size := by
        intro e
        rw [e, hp] at hx
        cases hx
      rw [register_pools, upd_ne _ _ hne]
      exact hx
    · intro x flx hx
      have hne : x ≠ st.nlist := by
        have := h.list_lt hx
        omega
      refine ⟨flx, ?_, rfl⟩
      rw [popState_lists_ne _ _ _ _ _ hne, register_lists, upd_ne _ _ hne]
      exact hx
theorem exState_malloc : SmartAllocator.Malloc cfg64 10 State.empty = some (exPtr, exState) := by
  rfl

theorem exState_reachable : Reachable cfg64 exState :=
  Steps.tail (Steps.refl _) (Step.malloc 10 exPtr (by decide) exState_malloc)

theorem exPtr_inCirculation : InCirculation cfg64 exState exPtr := by
  decide

theorem Inv.stack_length {cfg : Config} {st : State} {stk : Nat → List Nat}
    (h : Inv cfg st stk) {l : Nat} {fl : FreeList} (hl : st.lists l = some fl) :
    (stk l).length ≤ st.nblock := by
  have hn := (h.stack l fl hl).nodup
  have hsub : stk l ⊆ List.range st.nblock := by
    intro x hx
    exact List.mem_range.mpr (h.mem_lt hx)
  have := (List.subperm_of_subset hn hsub).length_le
  simpa using this

theorem Inv.freeStack_eq {cfg : Config} {st : State} {stk : Nat → List Nat}
    (h : Inv cfg st stk) {l : Nat} {fl : FreeList} (hl : st.lists l = some fl) :
    freeStack st l = some (stk l) := by
  simp only [freeStack, hl]
  exact (h.stack l fl hl).walk_eq _ (h.stack_length hl)

theorem Inv.freeStack_some {cfg : Config} {st : State} {stk : Nat → List Nat}
    (h : Inv cfg st stk) {l : Nat} {stack : List Nat} (hs : freeStack st l = some stack) :
    ∃ fl, st.lists l = some fl ∧ stack = stk l := by
  cases hl : st.lists l with
  | none => simp [freeStack, hl] at hs
  | some fl =>
    rw [h.freeStack_eq hl] at hs
    cases hs
    exact ⟨fl, rfl, rfl⟩

theorem Inv.inCirculation {cfg : Config} (hc : cfg.TwoSlotHeader) {st : State}
    {stk : Nat → List Nat} (h : Inv cfg st stk) {b : Nat} {mb : MemoryBlock}
    (hb : st.blocks b = some mb) (hr : 1 ≤ mb.ref_) :
    InCirculation cfg st (mb.payload cfg) := by
  obtain ⟨l, _, hh, _⟩ := h.header hb
  exact InCirculation.intro (hh.recover hc mb hb) hb rfl hr

theorem Inv.recover_payload {cfg : Config} (hc : cfg.TwoSlotHeader) {st : State}
    {stk : Nat → List Nat} (h : Inv cfg st stk) {b : Nat} {mb : MemoryBlock}
    (hb : st.blocks b = some mb) : recoverBlock cfg (mb.payload cfg) st = some b := by
  obtain ⟨l, _, hh, _⟩ := h.header hb
  exact hh.recover hc mb hb

theorem refState_blocks_same (st : State) (b : Nat) (mb : MemoryBlock) (r : Int) :
    (refState st b mb r).blocks b = some { mb with ref_ := r } := by
  simp [refState, upd_same]

theorem refState_blocks_ne (st : State) (b : Nat) (mb : MemoryBlock) (r : Int) {x : Nat}
    (hx : x ≠ b) : (refState st b mb r).blocks x = st.blocks x := by
  simp [refState, upd_ne _ _ hx]

theorem pushState_blocks_same (st : State) (l : Nat) (fl : FreeList) (b : Nat)
    (mb : MemoryBlock) :
    (pushState st l fl b mb).blocks b
      = some { mb with ref_ := mb.ref_ - 1, next := fl.free_ } := by
  simp [pushState, upd_same]

theorem pushState_blocks_ne (st : State) (l : Nat) (fl : FreeList) (b : Nat)
    (mb : MemoryBlock) {x : Nat} (hx : x ≠ b) :
    (pushState st l fl b mb).blocks x = st.blocks x := by
  simp [pushState, upd_ne _ _ hx]

theorem pushState_lists_same (st : State) (l : Nat) (fl : FreeList) (b : Nat)
    (mb : MemoryBlock) :
    (pushState st l fl b mb).lists l = some { fl with free_ := some b } := by
  simp [pushState, upd_same]

theorem pushState_lists_ne (st : State) (l : Nat) (fl : FreeList) (b : Nat)
    (mb : MemoryBlock) {x : Nat} (hx : x ≠ l) :
    (pushState st l fl b mb).lists x = st.lists x := by
  simp [pushState, upd_ne _ _ hx]

theorem refCount_of {cfg : Config} {st : State} {p : Ptr} {b : Nat} {mb : MemoryBlock}
    (hb : recoverBlock cfg p st = some b) (hmb : st.blocks b = some mb) :
    refCount cfg st p = some mb.ref_ := by
  simp [refCount, hb, hmb]

/-- After `k` calls of `Refer` on the payload pointer of a block in
circulation, the block has `k` more references and nothing else changed. -/
theorem held_refer {cfg : Config} (hc : cfg.TwoSlotHeader) {st : State}
    {stk : Nat → List Nat} (h : Inv cfg st stk) {b : Nat} {mb : MemoryBlock}
    (hb : st.blocks b = some mb) (hr : 1 ≤ mb.ref_) (k : Nat) :
    ∃ st' mb', repeatOp (SmartAllocator.Refer cfg (mb.payload cfg)) k st = some st' ∧
      Inv cfg st' stk ∧ st'.blocks b = some mb' ∧ mb'.payload cfg = mb.payload cfg ∧
      mb'.ref_ = mb.ref_ + k ∧ st'.lists = st.lists ∧ st'.raws = st.raws := by
  induction k generalizing st mb with
  | zero => exact ⟨st, mb, rfl, h, hb, rfl, by simp, rfl, rfl⟩
  | succ n ih =>
    have hp := h.inCirculation hc hb hr
    obtain ⟨b', mb1, hrec, hmb1, _, _, he, hi⟩ := Refer_spec h hp
    rw [h.recover_payload hc hb] at hrec
    cases hrec
    rw [hb] at hmb1
    cases hmb1
    have hb1 := refState_blocks_same st b mb (mb.ref_ + 1)
    obtain ⟨st', mb', hrep, hi', hb', hpay, hr', hl', hraw'⟩ :=
      ih hi hb1 (by simp; omega)
    refine ⟨st', mb', ?_, hi', hb', hpay, ?_, hl', hraw'⟩
    · simp only [repeatOp, he]
      exact hrep
    · rw [hr']
      push_cast
      omega

/-- The first `j` calls of `Free` on the payload pointer of a block with more
than `j` references take `j` references away and change nothing else. -/
theorem held_free {cfg : Config} (hc : cfg.TwoSlotHeader) {st : State}
    {stk : Nat → List Nat} (h : Inv cfg st stk) {b : Nat} {mb : MemoryBlock}
    (hb : st.blocks b = some mb) (j : Nat) (hr : (j : Int) + 1 ≤ mb.ref_) :
    ∃ st' mb', repeatOp (SmartAllocator.Free cfg (mb.payload cfg)) j st = some st' ∧
      Inv cfg st' stk ∧ st'.blocks b = some mb' ∧ mb'.payload cfg = mb.payload cfg ∧
      mb'.ref_ = mb.ref_ - j ∧ st'.lists = st.lists ∧ st'.raws = st.raws := by
  induction j generalizing st mb with
  | zero => exact ⟨st, mb, rfl, h, hb, rfl, by simp, rfl, rfl⟩
  | succ n ih =>
    have hr1 : 1 ≤ mb.ref_ := by omega
    have hp := h.inCirculation hc hb hr1
    obtain ⟨b', mb1, l, fl, hrec, hmb1, _, _, _, _, hcase⟩ := Free_spec h hp
    rw [h.recover_payload hc hb] at hrec
    cases hrec
    rw [hb] at hmb1
    cases hmb1
    rcases hcase with ⟨_, he, hi⟩ | ⟨h1, _, _⟩
    · have hb1 := refState_blocks_same st b mb (mb.ref_ - 1)
      obtain ⟨st', mb', hrep, hi', hb', hpay, hr', hl', hraw'⟩ :=
        ih hi hb1 (by push_cast at hr; show (n : Int) + 1 ≤ mb.ref_ - 1; omega)
      refine ⟨st', mb', ?_, hi', hb', hpay, ?_, hl', hraw'⟩
      · simp only [repeatOp, he]
        exact hrep
      · rw [hr']
        push_cast
        omega
    · push_cast at hr
      omega

theorem HeaderOK.ref {cfg : Config} {st : State} {x lx : Nat} (hx : HeaderOK cfg st x lx)
    {b : Nat} {mb : MemoryBlock} (hmb : st.blocks b = some mb) (r : Int) :
    HeaderOK cfg (refState st b mb r) x lx := by
  refine hx.transfer ?_ rfl
  intro mx hmx
  by_cases e : x = b
  · subst e
    rw [hmb] at hmx
    cases hmx
    exact ⟨_, refState_blocks_same st x mb r, rfl⟩
  · exact ⟨mx, by rw [refState_blocks_ne st b mb r e]; exact hmx, rfl⟩

theorem HeaderOK.push {cfg : Config} {st : State} {x lx : Nat} (hx : HeaderOK cfg st x lx)
    (l : Nat) (fl : FreeList) {b : Nat} {mb : MemoryBlock} (hmb : st.blocks b = some mb) :
    HeaderOK cfg (pushState st l fl b mb) x lx := by
  refine hx.transfer ?_ rfl
  intro mx hmx
  by_cases e : x = b
  · subst e
    rw [hmb] at hmx
    cases hmx
    exact ⟨_, pushState_blocks_same st l fl x mb, rfl⟩
  · exact ⟨mx, by rw [pushState_blocks_ne st l fl b mb e]; exact hmx, rfl⟩

theorem Inv.header_of_owner {cfg : Config} {st : State} {stk : Nat → List Nat}
    (h : Inv cfg st stk) {b l : Nat} (ho : ownerList st b = some l) : HeaderOK cfg st b l := by
  cases hb : st.blocks b with
  | none => simp [ownerList, hb] at ho
  | some mb =>
    obtain ⟨l', _, hh, _⟩ := h.header hb
    rw [hh.ownerList_eq] at ho
    cases ho
    exact hh

/-- What one call leaves alone: the entries of the map, the headers of the
blocks, and the existence and size of the lists. -/
theorem step_frame {cfg : Config} (hc : cfg.TwoSlotHeader) {s s' : State}
    {stk : Nat → List Nat} (h : Inv cfg s stk) (hs : Step cfg s s') :
    (∀ c l, s.pools_ c = some l → s'.pools_ c = some l) ∧
    (∀ x lx, HeaderOK cfg s x lx → HeaderOK cfg s' x lx) ∧
    (∀ x fl, s.lists x = some fl → ∃ fl', s'.lists x = some fl' ∧ fl'.size_ = fl.size_) := by
  cases hs with
  | malloc size p _ hm =>
    obtain ⟨p', s'', _, _, _, _, _, he, _, _, _, _, _, _, _, _, _, _, hhd, hpl, hls⟩ :=
      Malloc_post hc h size
    rw [he] at hm
    cases hm
    exact ⟨hpl, hhd, hls⟩
  | free p hp hf =>
    obtain ⟨b, mb, l, fl, _, hmb, _, _, _, hl, hcase⟩ := Free_spec h hp
    rcases hcase with ⟨_, he, _⟩ | ⟨_, he, _⟩
    · rw [he] at hf
      cases hf
      exact ⟨fun _ _ hx => hx, fun _ _ hx => hx.ref hmb _, fun x flx hx => ⟨flx, hx, rfl⟩⟩
    · rw [he] at hf
      cases hf
      refine ⟨fun _ _ hx => hx, fun _ _ hx => hx.push l fl hmb, ?_⟩
      intro x flx hx
      by_cases e : x = l
      · subst e
        rw [hl] at hx
        cases hx
        exact ⟨_, pushState_lists_same s x fl b mb, rfl⟩
      · exact ⟨flx, by rw [pushState_lists_ne s l fl b mb e]; exact hx, rfl⟩
  | refer p hp hr =>
    obtain ⟨b, mb, _, hmb, _, _, he, _⟩ := Refer_spec h hp
    rw [he] at hr
    cases hr
    exact ⟨fun _ _ hx => hx, fun _ _ hx => hx.ref hmb _, fun x flx hx => ⟨flx, hx, rfl⟩⟩

theorem steps_frame {cfg : Config} (hc : cfg.TwoSlotHeader) {s s' : State}
    (hs : Steps cfg s s') : ∀ stk, Inv cfg s stk →
    (∀ c l, s.pools_ c = some l → s'.pools_ c = some l) ∧
    (∀ x lx, HeaderOK cfg s x lx → HeaderOK cfg s' x lx) ∧
    (∀ x fl, s.lists x = some fl → ∃ fl', s'.lists x = some fl' ∧ fl'.size_ = fl.size_) := by
  induction hs with
  | refl => exact fun _ _ => ⟨fun _ _ hx => hx, fun _ _ hx => hx, fun x fl hx => ⟨fl, hx, rfl⟩⟩
  | tail hst hstep ih =>
    intro stk h
    obtain ⟨h1, h2, h3⟩ := ih stk h
    obtain ⟨stk', hi⟩ := steps_inv hc hst ⟨stk, h⟩
    obtain ⟨g1, g2, g3⟩ := step_frame hc hi hstep
    refine ⟨fun c l hx => g1 c l (h1 c l hx), fun x lx hx => g2 x lx (h2 x lx hx), ?_⟩
    intro x fl hx
    obtain ⟨fl', hx', hsz⟩ := h3 x fl hx
    obtain ⟨fl'', hx'', hsz'⟩ := g3 x fl' hx'
    exact ⟨fl'', hx'', hsz'.trans hsz⟩

theorem steps_trans {cfg : Config} {s t u : State} (h1 : Steps cfg s t) (h2 : Steps cfg t u) :
    Steps cfg s u := by
  induction h2 with
  | refl => exact h1
  | tail _ hstep ih => exact Steps.tail ih hstep

theorem HeaderOK.serving {cfg : Config} (hc : cfg.TwoSlotHeader) {st : State} {b l : Nat}
    (hh : HeaderOK cfg st b l) :
    recoverBlock cfg ⟨b, 0 + cfg.header_size_⟩ st = some b ∧
      servingList cfg st ⟨b, 0 + cfg.header_size_⟩ = some l := by
  have ⟨mb, _, hmb, hd, _⟩ := hh
  have hrec := hh.recover hc mb hmb
  have hp : mb.payload cfg = ⟨b, 0 + cfg.header_size_⟩ := by
    simp [MemoryBlock.payload, hd]
  rw [hp] at hrec
  exact ⟨hrec, by simp only [servingList, hrec, hh.ownerList_eq]⟩

theorem Inv.list_unique {cfg : Config} {st : State} {stk : Nat → List Nat}
    (h : Inv cfg st stk) {l1 l2 : Nat} {fl1 fl2 : FreeList} (h1 : st.lists l1 = some fl1)
    (h2 : st.lists l2 = some fl2) (he : fl1.size_ = fl2.size_) : l1 = l2 := by
  have e1 := h.list_pool l1 fl1 h1
  have e2 := h.list_pool l2 fl2 h2
  rw [he, e2] at e1
  cases e1
  rfl
/-! ## Rounding -/

theorem land_31 (s : Nat) : s &&& 31 = s % 32 := by
  have := Nat.and_pow_two_sub_one_eq_mod s 5
  simpa using this

theorem land_mask (w s : Nat) (hs : s < 2 ^ w) :
    s &&& (((2 ^ w - 1) <<< 5) % 2 ^ w) = s / 32 * 32 := by
  apply Nat.eq_of_testBit_eq
  intro i
  have h32 : s / 32 * 32 = (s >>> 5) <<< 5 := by
    simp [Nat.shiftRight_eq_div_pow, Nat.shiftLeft_eq]
  rw [h32]
  simp only [Nat.testBit_land, Nat.testBit_mod_two_pow, Nat.testBit_shiftLeft,
    Nat.testBit_shiftRight, Nat.testBit_two_pow_sub_one]
  by_cases h5 : 5 ≤ i
  · have e : 5 + (i - 5) = i := by omega
    by_cases hi : i < w
    · have : i - 5 < w := by omega
      simp [h5, hi, this, e]
    · have : s.testBit i = false := by
        apply Nat.testBit_lt_two_pow
        calc s < 2 ^ w := hs
          _ ≤ 2 ^ i := Nat.pow_le_pow_right (by decide) (by omega)
      simp [h5, hi, this, e]
  · simp [h5]

theorem roundSize_of_multiple (w s : Nat) (h : s % 32 = 0) : roundSize w s = s := by
  simp [roundSize, land_31, h]

theorem roundSize_of_not_multiple (w s : Nat) (hs : s < 2 ^ w) (h : s % 32 ≠ 0) :
    roundSize w s = (s / 32 * 32 + 32) % 2 ^ w := by
  simp [roundSize, land_31, h, land_mask w s hs]

theorem roundSize_in_range (w s : Nat) (hs : s + 32 ≤ 2 ^ w) (h : s % 32 ≠ 0) :
    roundSize w s = s / 32 * 32 + 32 := by
  rw [roundSize_of_not_multiple w s (by omega) h]
  apply Nat.mod_eq_of_lt
  have := Nat.div_add_mod s 32
  have : 0 < s % 32 := Nat.pos_of_ne_zero h
  omega

theorem roundSize_small (w s : Nat) (hw : 6 ≤ w) (h1 : 1 ≤ s) (h2 : s ≤ 32) :
    roundSize w s = 32 := by
  have h64 : 2 ^ 6 ≤ 2 ^ w := Nat.pow_le_pow_right (by decide) hw
  by_cases h : s % 32 = 0
  · rw [roundSize_of_multiple w s h]
    omega
  · rw [roundSize_in_range w s (by omega) h]
    omega
/-! ## The simple allocator -/

theorem wrapInt_modEq (cfg : Config) (x : Int) :
    wrapInt cfg x % ((2 ^ cfg.int_bits : Nat) : Int) = x % ((2 ^ cfg.int_bits : Nat) : Int) := by
  unfold wrapInt
  exact Int.bmod_emod

theorem wrapInt_eq_zero_iff (cfg : Config) (x : Int) :
    wrapInt cfg x = 0 ↔ x % ((2 ^ cfg.int_bits : Nat) : Int) = 0 := by
  constructor
  · intro h
    rw [← wrapInt_modEq, h]
    simp
  · intro h
    unfold wrapInt
    rw [← Int.emod_bmod, h]
    simp

theorem Refer_holds (cfg : Config) {h : SimpleHeap} {a c : Nat} {raw : RawAlloc} {v : Int}
    (hh : h.Holds a c raw v) :
    Allocator.Refer cfg ⟨a, 0 + cfg.alloc_header_size_⟩ h
      = some { h with counters := upd h.counters c (some (wrapInt cfg (v + 1))) } := by
  obtain ⟨hr, hs, hc⟩ := hh
  simp [Allocator.Refer, SimpleHeap.load, hr, hs, hc]

theorem Free_holds_keep (cfg : Config) {h : SimpleHeap} {a c : Nat} {raw : RawAlloc} {v : Int}
    (hh : h.Holds a c raw v) (hz : wrapInt cfg (v - 1) ≠ 0) :
    Allocator.Free cfg ⟨a, 0 + cfg.alloc_header_size_⟩ h
      = some { h with counters := upd h.counters c (some (wrapInt cfg (v - 1))) } := by
  obtain ⟨hr, hs, hc⟩ := hh
  simp [Allocator.Free, SimpleHeap.load, hr, hs, hc, hz]

theorem Free_holds_release (cfg : Config) {h : SimpleHeap} {a c : Nat} {raw : RawAlloc}
    {v : Int} (hh : h.Holds a c raw v) (hz : wrapInt cfg (v - 1) = 0) :
    Allocator.Free cfg ⟨a, 0 + cfg.alloc_header_size_⟩ h
      = some { h with counters := upd h.counters c none, raws := upd h.raws a none } := by
  obtain ⟨hr, hs, hc⟩ := hh
  simp [Allocator.Free, SimpleHeap.load, hr, hs, hc, hz]

theorem Holds.set {h : SimpleHeap} {a c : Nat} {raw : RawAlloc} {v : Int}
    (hh : h.Holds a c raw v) (v' : Int) :
    SimpleHeap.Holds { h with counters := upd h.counters c (some v') } a c raw v' :=
  ⟨hh.1, hh.2.1, upd_same _ _ _⟩

/-- After `k` calls of `Refer` the buffer is still live and its counter is
the old value plus `k`, wrapped around. -/
theorem refer_repeat (cfg : Config) (a c : Nat) (raw : RawAlloc) (k : Nat) :
    ∀ (h : SimpleHeap) (v : Int), h.Holds a c raw v →
      ∃ h' v', repeatOp (Allocator.Refer cfg ⟨a, 0 + cfg.alloc_header_size_⟩) k h = some h' ∧
        h'.Holds a c raw v' ∧
        v' = (if k = 0 then v else wrapInt cfg (v + k)) ∧
        v' % ((2 ^ cfg.int_bits : Nat) : Int) = (v + k) % ((2 ^ cfg.int_bits : Nat) : Int) := by
  induction k with
  | zero =>
    intro h v hh
    exact ⟨h, v, rfl, hh, by simp, by simp⟩
  | succ n ih =>
    intro h v hh
    obtain ⟨h', v', hrep, hh', hval, _⟩ := ih _ _ (Holds.set hh (wrapInt cfg (v + 1)))
    have hval' : v' = wrapInt cfg (v + ((n + 1 : Nat) : Int)) := by
      rw [hval]
      by_cases hn : n = 0
      · subst hn
        simp
      · simp only [hn, if_false]
        unfold wrapInt
        rw [Int.bmod_add_bmod_congr]
        congr 1
        push_cast
        ring
    refine ⟨h', v', ?_, hh', ?_, ?_⟩
    · simp only [repeatOp, Refer_holds cfg hh]
      exact hrep
    · rw [hval']
      simp
    · rw [hval']
      exact wrapInt_modEq cfg _

/-- With `n` references outstanding (`1 ≤ n ≤ 2 ^ int_bits`) and a counter
congruent to `n`, the first `j < n` calls of `Free` keep the buffer live. -/
theorem free_repeat (cfg : Config) (a c : Nat) (raw : RawAlloc) (j : Nat) :
    ∀ (h : SimpleHeap) (v : Int) (n : Nat), h.Holds a c raw v →
      v % ((2 ^ cfg.int_bits : Nat) : Int) = (n : Int) % ((2 ^ cfg.int_bits : Nat) : Int) →
      n ≤ 2 ^ cfg.int_bits → j < n →
      ∃ h' v', repeatOp (Allocator.Free cfg ⟨a, 0 + cfg.alloc_header_size_⟩) j h = some h' ∧
        h'.Holds a c raw v' ∧
        v' % ((2 ^ cfg.int_bits : Nat) : Int)
          = ((n - j : Nat) : Int) % ((2 ^ cfg.int_bits : Nat) : Int) := by
  induction j with
  | zero =>
    intro h v n hh hv _ _
    exact ⟨h, v, rfl, hh, by simpa using hv⟩
  | succ i ih =>
    intro h v n hh hv hn hj
    have hcong : (v - 1) % ((2 ^ cfg.int_bits : Nat) : Int)
        = ((n - 1 : Nat) : Int) % ((2 ^ cfg.int_bits : Nat) : Int) := by
      have := Int.ModEq.sub_right (1 : Int) hv
      unfold Int.ModEq at this
      rw [this]
      congr 1
      omega
    have hnz : wrapInt cfg (v - 1) ≠ 0 := by
      rw [Ne, wrapInt_eq_zero_iff, hcong]
      have h1 : ((n - 1 : Nat) : Int) % ((2 ^ cfg.int_bits : Nat) : Int) = ((n - 1 : Nat) : Int) := by
        apply Int.emod_eq_of_lt
        · omega
        · have : n - 1 < 2 ^ cfg.int_bits := by omega
          exact_mod_cast this
      rw [h1]
      omega
    have hv1 : wrapInt cfg (v - 1) % ((2 ^ cfg.int_bits : Nat) : Int)
        = ((n - 1 : Nat) : Int) % ((2 ^ cfg.int_bits : Nat) : Int) := by
      rw [wrapInt_modEq, hcong]
    obtain ⟨h', v', hrep, hh', hv'⟩ :=
      ih _ _ (n - 1) (Holds.set hh (wrapInt cfg (v - 1))) hv1 (by omega) (by omega)
    refine ⟨h', v', ?_, hh', ?_⟩
    · simp only [repeatOp, Free_holds_keep cfg hh hnz]
      exact hrep
    · rw [hv']
      congr 2
      omega
/-! ## The pooled allocator: safety and the reference-counting laws -/

/-- C1: in every reachable state of the pooled allocator (with the two-slot
header), `Malloc` returns, and the payload pointer it returns is not in
circulation before the call; it is in circulation afterwards, every pointer
that was in circulation stays in circulation, differs from the new one and is
backed by a different block, and any two distinct pointers in circulation
after the call are backed by distinct blocks. -/
theorem malloc_returns_block_not_in_circulation (cfg : Config) (hc : cfg.TwoSlotHeader)
    (s : State) (hs : Reachable cfg s) (size : Nat) :
    ∃ p s', SmartAllocator.Malloc cfg size s = some (p, s') ∧
      ¬ InCirculation cfg s p ∧ InCirculation cfg s' p ∧
      (∀ q, InCirculation cfg s q →
        InCirculation cfg s' q ∧ q ≠ p ∧
          recoverBlock cfg q s' ≠ recoverBlock cfg p s') ∧
      (∀ q r, InCirculation cfg s' q → InCirculation cfg s' r → q ≠ r →
        recoverBlock cfg q s' ≠ recoverBlock cfg r s') := by
  obtain ⟨stk, h⟩ := reachable_inv hc hs
  obtain ⟨p, s', stk', b, mb, l, fl, he, hi, hmb, hpay, hr, hh, _, _, _, hold, hframe, _, _, _⟩ :=
    Malloc_post hc h size
  have hrec : recoverBlock cfg p s' = some b := by
    rw [← hpay]
    exact hh.recover hc mb hmb
  have hkeep : ∀ q, InCirculation cfg s q →
      ∃ bq mq, bq ≠ b ∧ s'.blocks bq = some mq ∧ mq.payload cfg = q ∧ 1 ≤ mq.ref_ ∧
        recoverBlock cfg q s' = some bq := by
    intro q hq
    obtain ⟨bq, mq, _, hmq, hqpay, hqr⟩ := hq.elim
    have hne : bq ≠ b := by
      intro e
      subst e
      have := (hold mq hmq).1
      omega
    have hmq' : s'.blocks bq = some mq := by rw [hframe bq hne]; exact hmq
    refine ⟨bq, mq, hne, hmq', hqpay, hqr, ?_⟩
    rw [← hqpay]
    exact hi.recover_payload hc hmq'
  refine ⟨p, s', he, ?_, ?_, ?_, ?_⟩
  · intro hp
    obtain ⟨bq, mq, hne, hmq', hqpay, _, _⟩ := hkeep p hp
    exact hne (hi.payload_inj hmq' hmb (hqpay.trans hpay.symm))
  · exact InCirculation.intro hrec hmb hpay (by omega)
  · intro q hq
    obtain ⟨bq, mq, hne, hmq', hqpay, hqr, hqrec⟩ := hkeep q hq
    refine ⟨InCirculation.intro hqrec hmq' hqpay hqr, ?_, ?_⟩
    · intro e
      exact hne (hi.payload_inj hmq' hmb (by rw [hqpay, hpay, e]))
    · rw [hqrec, hrec]
      intro e
      cases e
      exact hne rfl
  · intro q r hq hr' hne e
    obtain ⟨bq, mq, hbq, hmq, hqpay, _⟩ := hq.elim
    obtain ⟨br, mr, hbr, hmr, hrpay, _⟩ := hr'.elim
    rw [hbq, hbr] at e
    cases e
    rw [hmq] at hmr
    cases hmr
    exact hne (hqpay.symm.trans hrpay)

/-- Witness of C1: the second `Malloc` on the 64-bit platform. -/
theorem malloc_returns_block_not_in_circulation_witness :
    cfg64.TwoSlotHeader ∧ Reachable cfg64 exState ∧
    ∃ p s', SmartAllocator.Malloc cfg64 20 exState = some (p, s') ∧
      ¬ InCirculation cfg64 exState p ∧ InCirculation cfg64 s' p ∧
      (∀ q, InCirculation cfg64 exState q →
        InCirculation cfg64 s' q ∧ q ≠ p ∧
          recoverBlock cfg64 q s' ≠ recoverBlock cfg64 p s') ∧
      (∀ q r, InCirculation cfg64 s' q → InCirculation cfg64 s' r → q ≠ r →
        recoverBlock cfg64 q s' ≠ recoverBlock cfg64 r s') :=
  ⟨by decide, exState_reachable,
    malloc_returns_block_not_in_circulation cfg64 (by decide) exState exState_reachable 20⟩

/-- C2: for a buffer returned by `Malloc` in a reachable state, after `k`
calls of `Refer` each of the first `k` calls of `Free` leaves the buffer in
circulation, with the reference count one lower each time (down to 1) and the
block in no free stack; the `(k+1)`-th `Free` brings the count to 0 and puts
the block on top of the free stack of its own list. -/
theorem refer_free_law (cfg : Config) (hc : cfg.TwoSlotHeader) (s : State)
    (hs : Reachable cfg s) (size k : Nat) :
    ∃ p s1 s2 b l, SmartAllocator.Malloc cfg size s = some (p, s1) ∧
      recoverBlock cfg p s1 = some b ∧ ownerList s1 b = some l ∧
      repeatOp (SmartAllocator.Refer cfg p) k s1 = some s2 ∧
      (∀ j, j ≤ k → ∃ s3, repeatOp (SmartAllocator.Free cfg p) j s2 = some s3 ∧
        refCount cfg s3 p = some ((k : Int) + 1 - j) ∧ InCirculation cfg s3 p ∧
        ∀ l' stack, freeStack s3 l' = some stack → b ∉ stack) ∧
      (∃ s4 stack, repeatOp (SmartAllocator.Free cfg p) (k + 1) s2 = some s4 ∧
        refCount cfg s4 p = some 0 ∧ ¬ InCirculation cfg s4 p ∧
        freeStack s4 l = some (b :: stack)) := by
  obtain ⟨stk, h⟩ := reachable_inv hc hs
  obtain ⟨p, s1, stk1, b, mb, l, fl, he, hi, hmb, hpay, hr, hh, _, hl, _, _, _, _, _, _⟩ :=
    Malloc_post hc h size
  have hrec1 : recoverBlock cfg p s1 = some b := by
    rw [← hpay]
    exact hh.recover hc mb hmb
  obtain ⟨s2, mb2, hrep2, hi2, hmb2, hpay2, hr2, hl2, hraw2⟩ :=
    held_refer hc hi hmb (by omega) k
  rw [hpay] at hrep2 hpay2
  refine ⟨p, s1, s2, b, l, he, hrec1, hh.ownerList_eq, hrep2, ?_, ?_⟩
  · intro j hj
    obtain ⟨s3, mb3, hrep3, hi3, hmb3, hpay3, hr3, _, _⟩ :=
      held_free hc hi2 hmb2 j (by rw [hr2, hr]; omega)
    rw [hpay2] at hrep3 hpay3
    have hrec3 : recoverBlock cfg p s3 = some b := by
      rw [← hpay3]
      exact hi3.recover_payload hc hmb3
    have hge : 1 ≤ mb3.ref_ := by rw [hr3, hr2, hr]; omega
    refine ⟨s3, hrep3, ?_, InCirculation.intro hrec3 hmb3 hpay3 hge, ?_⟩
    · rw [refCount_of hrec3 hmb3, hr3, hr2, hr]
      congr 1
      omega
    · intro l' stack hst
      obtain ⟨_, _, hstk⟩ := hi3.freeStack_some hst
      rw [hstk]
      exact hi3.not_mem_of_ref hmb3 (by omega)
  · obtain ⟨s3, mb3, hrep3, hi3, hmb3, hpay3, hr3, hl3, hraw3⟩ :=
      held_free hc hi2 hmb2 k (by rw [hr2, hr]; omega)
    rw [hpay2] at hrep3 hpay3
    have h1 : mb3.ref_ = 1 := by rw [hr3, hr2, hr]; omega
    have hp3 : InCirculation cfg s3 p := by
      rw [← hpay3]
      exact hi3.inCirculation hc hmb3 (by omega)
    obtain ⟨b', mb', l', fl', hrec', hmb', _, _, hh', hl', hcase⟩ := Free_spec hi3 hp3
    have hrec3 : recoverBlock cfg p s3 = some b := by
      rw [← hpay3]
      exact hi3.recover_payload hc hmb3
    rw [hrec3] at hrec'
    cases hrec'
    rw [hmb3] at hmb'
    cases hmb'
    have hll : l' = l := by
      have e1 := hh'.ownerList_eq
      have e2 : ownerList s3 b = some l := by
        have := hh.ownerList_eq
        simp only [ownerList, hmb, load] at this
        simp only [ownerList, hmb3, load]
        have hd : mb3.data_ = mb.data_ := by
          have := hi3.payload hmb3
          have h2 := hi.payload hmb
          obtain ⟨_, _, ⟨m1, _, hm1, hd1, _⟩, _⟩ := hi3.header hmb3
          obtain ⟨_, _, ⟨m2, _, hm2, hd2, _⟩, _⟩ := hi.header hmb
          rw [hmb3] at hm1
          cases hm1
          rw [hmb] at hm2
          cases hm2
          rw [hd1, hd2]
        rw [hd, hraw3, hraw2]
        exact this
      rw [e1] at e2
      cases e2
      rfl
    subst hll
    rcases hcase with ⟨h2, _, _⟩ | ⟨_, hfree, hi4⟩
    · omega
    · have hrep4 : repeatOp (SmartAllocator.Free cfg p) (k + 1) s2
          = some (pushState s3 l' fl' b mb3) := by
        exact repeatOp_succ_last _ k s2 s3 _ hrep3 hfree
      have hmb4 := pushState_blocks_same s3 l' fl' b mb3
      have hrec4 : recoverBlock cfg p (pushState s3 l' fl' b mb3) = some b := by
        have := hi4.recover_payload hc hmb4
        rw [← hpay3]
        exact this
      have hst4 := hi4.freeStack_eq (pushState_lists_same s3 l' fl' b mb3)
      rw [upd_same] at hst4
      refine ⟨_, stk1 l', hrep4, ?_, ?_, hst4⟩
      · rw [refCount_of hrec4 hmb4]
        simp [h1]
      · intro hin
        obtain ⟨bq, mq, hbq, hmq, _, hqr⟩ := hin.elim
        rw [hrec4] at hbq
        cases hbq
        rw [hmb4] at hmq
        cases hmq
        simp [h1] at hqr

/-- Witness of C2: one `Refer` and two `Free`s after the first `Malloc` of a
new allocator on the 64-bit platform. -/
theorem refer_free_law_witness :
    cfg64.TwoSlotHeader ∧ Reachable cfg64 State.empty ∧
    ∃ p s1 s2 b l, SmartAllocator.Malloc cfg64 10 State.empty = some (p, s1) ∧
      recoverBlock cfg64 p s1 = some b ∧ ownerList s1 b = some l ∧
      repeatOp (SmartAllocator.Refer cfg64 p) 1 s1 = some s2 ∧
      (∀ j, j ≤ 1 → ∃ s3, repeatOp (SmartAllocator.Free cfg64 p) j s2 = some s3 ∧
        refCount cfg64 s3 p = some (((1 : Nat) : Int) + 1 - j) ∧ InCirculation cfg64 s3 p ∧
        ∀ l' stack, freeStack s3 l' = some stack → b ∉ stack) ∧
      (∃ s4 stack, repeatOp (SmartAllocator.Free cfg64 p) (1 + 1) s2 = some s4 ∧
        refCount cfg64 s4 p = some 0 ∧ ¬ InCirculation cfg64 s4 p ∧
        freeStack s4 l = some (b :: stack)) :=
  ⟨by decide, Steps.refl _,
    refer_free_law cfg64 (by decide) State.empty (Steps.refl _) 10 1⟩

/-- C3: in a reachable state, for a payload pointer in circulation with
reference count 1, `Free` followed at once by `Malloc` of any size whose
rounded size is the size class of the pointer returns that same pointer. -/
theorem free_then_malloc_reuses (cfg : Config) (hc : cfg.TwoSlotHeader) (s : State)
    (hs : Reachable cfg s) (p : Ptr) (size : Nat) (hp : InCirculation cfg s p)
    (hr : refCount cfg s p = some 1)
    (hsz : sizeClass cfg s p = some (roundSize cfg.size_bits size)) :
    ∃ s1 s2, SmartAllocator.Free cfg p s = some s1 ∧
      SmartAllocator.Malloc cfg size s1 = some (p, s2) := by
  obtain ⟨stk, h⟩ := reachable_inv hc hs
  obtain ⟨b, mb, l, fl, hrec, hmb, hpay, _, hh, hl, hcase⟩ := Free_spec h hp
  rw [refCount_of hrec hmb] at hr
  have hr1 : mb.ref_ = 1 := by simpa using hr
  have hcls : fl.size_ = roundSize cfg.size_bits size := by
    simp only [sizeClass, servingList, hrec, hh.ownerList_eq, hl] at hsz
    simpa using hsz
  rcases hcase with ⟨h2, _, _⟩ | ⟨_, hfree, _⟩
  · omega
  · refine ⟨_, popState (pushState s l fl b mb) l { fl with free_ := some b } b
      { mb with ref_ := mb.ref_ - 1, next := fl.free_ }, hfree, ?_⟩
    have hpool : (pushState s l fl b mb).pools_ (roundSize cfg.size_bits size) = some l := by
      show s.pools_ _ = _
      rw [← hcls]
      exact h.list_pool l fl hl
    rw [Malloc_old cfg _ size l hpool,
      Pop_nonempty cfg _ l _ b _ (pushState_lists_same s l fl b mb) rfl
        (pushState_blocks_same s l fl b mb)]
    rw [← hpay]
    rfl

/-- Witness of C3: freeing the first buffer of a new allocator and asking for
20 bytes, on the 64-bit platform. -/
theorem free_then_malloc_reuses_witness :
    cfg64.TwoSlotHeader ∧ Reachable cfg64 exState ∧ InCirculation cfg64 exState exPtr ∧
    refCount cfg64 exState exPtr = some 1 ∧
    sizeClass cfg64 exState exPtr = some (roundSize cfg64.size_bits 20) ∧
    ∃ s1 s2, SmartAllocator.Free cfg64 exPtr exState = some s1 ∧
      SmartAllocator.Malloc cfg64 20 s1 = some (exPtr, s2) :=
  ⟨by decide, exState_reachable, exPtr_inCirculation, by decide, by decide,
    free_then_malloc_reuses cfg64 (by decide) exState exState_reachable exPtr 20
      exPtr_inCirculation (by decide) (by decide)⟩
/-! ## Rounding and size classes -/

/-- C4, counterexample: on the 64-bit platform the request size `2^64 - 1`
is a `size_t`, the rounding of `Malloc` maps it to 0, which is not greater
than or equal to the request, and `Malloc` serves it from size class 0. -/
theorem malloc_max_size_rounds_to_zero :
    2 ^ 64 - 1 < 2 ^ cfg64.size_bits ∧
    roundSize cfg64.size_bits (2 ^ 64 - 1) = 0 ∧
    ¬ (2 ^ 64 - 1 ≤ roundSize cfg64.size_bits (2 ^ 64 - 1)) ∧
    ∃ p s', SmartAllocator.Malloc cfg64 (2 ^ 64 - 1) State.empty = some (p, s') ∧
      sizeClass cfg64 s' p = some 0 := by
  refine ⟨by decide, by decide, by decide, ?_⟩
  exact ⟨_, _, rfl, by decide⟩

/-- C4, amended: for every request size `s` with `s + 32 ≤ 2^w` (`w` the
width of `size_t`), the size class that `Malloc` computes in a reachable
state is the smallest multiple of 32 that is at least `s`; a multiple
of 32 is left unchanged and any other such size is rounded up. -/
theorem malloc_rounds_to_least_multiple (cfg : Config) (hc : cfg.TwoSlotHeader) (s : State)
    (hs : Reachable cfg s) (size : Nat) (hsize : size + 32 ≤ 2 ^ cfg.size_bits) :
    ∃ p s', SmartAllocator.Malloc cfg size s = some (p, s') ∧
      sizeClass cfg s' p = some (roundSize cfg.size_bits size) ∧
      32 ∣ roundSize cfg.size_bits size ∧ size ≤ roundSize cfg.size_bits size ∧
      (∀ m, 32 ∣ m → size ≤ m → roundSize cfg.size_bits size ≤ m) ∧
      (size % 32 = 0 → roundSize cfg.size_bits size = size) ∧
      (size % 32 ≠ 0 → size < roundSize cfg.size_bits size) := by
  obtain ⟨stk, h⟩ := reachable_inv hc hs
  obtain ⟨p, s', stk', b, mb, l, fl, he, hi, hmb, hpay, _, hh, _, hl, hsz, _⟩ :=
    Malloc_post hc h size
  have hrec : recoverBlock cfg p s' = some b := by
    rw [← hpay]
    exact hh.recover hc mb hmb
  refine ⟨p, s', he, ?_, ?_⟩
  · simp [sizeClass, servingList, hrec, hh.ownerList_eq, hl, hsz]
  · by_cases hm : size % 32 = 0
    · rw [roundSize_of_multiple _ size hm]
      refine ⟨Nat.dvd_of_mod_eq_zero hm, le_refl _, fun m _ hle => hle, fun _ => rfl, ?_⟩
      intro hne
      exact absurd hm hne
    · rw [roundSize_in_range _ size hsize hm]
      have hdm := Nat.div_add_mod size 32
      have hlt := Nat.mod_lt size (show 0 < 32 by decide)
      have hpos : 0 < size % 32 := Nat.pos_of_ne_zero hm
      refine ⟨⟨size / 32 + 1, by ring⟩, by omega, ?_, fun h0 => absurd h0 hm, fun _ => by omega⟩
      intro m hdvd hle
      obtain ⟨q, rfl⟩ := hdvd
      omega

/-- Witness of C4 (amended): a request of 10 bytes on a new allocator of the
64-bit platform. -/
theorem malloc_rounds_to_least_multiple_witness :
    cfg64.TwoSlotHeader ∧ Reachable cfg64 State.empty ∧ 10 + 32 ≤ 2 ^ cfg64.size_bits ∧
    ∃ p s', SmartAllocator.Malloc cfg64 10 State.empty = some (p, s') ∧
      sizeClass cfg64 s' p = some (roundSize cfg64.size_bits 10) ∧
      32 ∣ roundSize cfg64.size_bits 10 ∧ 10 ≤ roundSize cfg64.size_bits 10 ∧
      (∀ m, 32 ∣ m → 10 ≤ m → roundSize cfg64.size_bits 10 ≤ m) ∧
      (10 % 32 = 0 → roundSize cfg64.size_bits 10 = 10) ∧
      (10 % 32 ≠ 0 → 10 < roundSize cfg64.size_bits 10) :=
  ⟨by decide, Steps.refl _, by decide,
    malloc_rounds_to_least_multiple cfg64 (by decide) State.empty (Steps.refl _) 10
      (by decide)⟩
/-- C5: in every reachable state the live free lists have pairwise different
sizes; an entry of the map is never replaced or removed by later calls and
its list keeps its size; a `Malloc` of `size1` and any later `Malloc` of
`size2` with the same rounded size are served by the same free list, the one
registered for that rounded size; and every request of 1 to 32 bytes is
served by the list registered for size class 32. -/
theorem same_rounded_size_same_list (cfg : Config) (hc : cfg.TwoSlotHeader)
    (hw : 6 ≤ cfg.size_bits) (s : State) (hs : Reachable cfg s) :
    (∀ l1 l2 fl1 fl2, s.lists l1 = some fl1 → s.lists l2 = some fl2 →
      fl1.size_ = fl2.size_ → l1 = l2) ∧
    (∀ s', Steps cfg s s' → ∀ c l, s.pools_ c = some l →
      s'.pools_ c = some l ∧ ∃ fl, s'.lists l = some fl ∧ fl.size_ = c) ∧
    (∀ size1 size2, roundSize cfg.size_bits size1 = roundSize cfg.size_bits size2 →
      ∃ p1 s1 l, SmartAllocator.Malloc cfg size1 s = some (p1, s1) ∧
        s1.pools_ (roundSize cfg.size_bits size1) = some l ∧
        servingList cfg s1 p1 = some l ∧
        ∀ s2, Steps cfg s1 s2 →
          ∃ p2 s3, SmartAllocator.Malloc cfg size2 s2 = some (p2, s3) ∧
            s3.pools_ (roundSize cfg.size_bits size2) = some l ∧
            servingList cfg s3 p2 = some l ∧ servingList cfg s3 p1 = some l) ∧
    (∀ size, 1 ≤ size → size ≤ 32 →
      ∃ p s' l, SmartAllocator.Malloc cfg size s = some (p, s') ∧
        s'.pools_ 32 = some l ∧ servingList cfg s' p = some l ∧
        sizeClass cfg s' p = some 32) := by
  obtain ⟨stk, h⟩ := reachable_inv hc hs
  have hmalloc : ∀ (t : State) (stkt : Nat → List Nat), Inv cfg t stkt → ∀ size,
      ∃ p t' stk' b l fl, SmartAllocator.Malloc cfg size t = some (p, t') ∧ Inv cfg t' stk' ∧
        p = ⟨b, 0 + cfg.header_size_⟩ ∧ HeaderOK cfg t' b l ∧
        t'.pools_ (roundSize cfg.size_bits size) = some l ∧ t'.lists l = some fl ∧
        fl.size_ = roundSize cfg.size_bits size ∧
        (∀ c x, t.pools_ c = some x → t'.pools_ c = some x) ∧
        (∀ x lx, HeaderOK cfg t x lx → HeaderOK cfg t' x lx) := by
    intro t stkt ht size
    obtain ⟨p, t', stk', b, mb, l, fl, he, hi, hmb, hpay, _, hh, hp, hl, hsz, _, _, hhd, hpl, _⟩ :=
      Malloc_post hc ht size
    exact ⟨p, t', stk', b, l, fl, he, hi, by rw [← hpay]; exact hi.payload hmb, hh, hp, hl,
      hsz, hpl, hhd⟩
  refine ⟨fun l1 l2 fl1 fl2 h1 h2 he => h.list_unique h1 h2 he, ?_, ?_, ?_⟩
  · intro s' hst c l hp
    obtain ⟨g1, _, g3⟩ := steps_frame hc hst stk h
    obtain ⟨fl, hl, hsz⟩ := h.pool_list c l hp
    obtain ⟨fl', hl', hsz'⟩ := g3 l fl hl
    exact ⟨g1 c l hp, fl', hl', hsz'.trans hsz⟩
  · intro size1 size2 heq
    obtain ⟨p1, s1, stk1, b1, l, fl, he, hi, hp1, hh, hp, _, _, _, _⟩ := hmalloc s stk h size1
    refine ⟨p1, s1, l, he, hp, by rw [hp1]; exact (hh.serving hc).2, ?_⟩
    intro s2 hst
    obtain ⟨g1, g2, _⟩ := steps_frame hc hst stk1 hi
    obtain ⟨stk2, hi2⟩ := steps_inv hc hst ⟨stk1, hi⟩
    obtain ⟨p2, s3, stk3, b2, l2, fl2, he2, hi3, hp2, hh2, hpool2, _, _, hpl, hhd⟩ :=
      hmalloc s2 stk2 hi2 size2
    have hl2 : l2 = l := by
      have := hpl _ _ (g1 _ _ hp)
      rw [heq, hpool2] at this
      cases this
      rfl
    subst hl2
    refine ⟨p2, s3, he2, hpool2, by rw [hp2]; exact (hh2.serving hc).2, ?_⟩
    rw [hp1]
    exact ((hhd _ _ (g2 _ _ hh)).serving hc).2
  · intro size h1 h2
    obtain ⟨p, s', stk', b, l, fl, he, hi, hp, hh, hpool, hl, hsz, _, _⟩ := hmalloc s stk h size
    rw [roundSize_small _ size hw h1 h2] at hpool hsz
    refine ⟨p, s', l, he, hpool, by rw [hp]; exact (hh.serving hc).2, ?_⟩
    rw [hp]
    simp only [sizeClass, (hh.serving hc).2, hl, hsz]

/-- Witness of C5: the state after the first `Malloc(10)` of a new allocator
on the 64-bit platform. -/
theorem same_rounded_size_same_list_witness :
    cfg64.TwoSlotHeader ∧ 6 ≤ cfg64.size_bits ∧ Reachable cfg64 exState ∧
    ((∀ l1 l2 fl1 fl2, exState.lists l1 = some fl1 → exState.lists l2 = some fl2 →
      fl1.size_ = fl2.size_ → l1 = l2) ∧
    (∀ s', Steps cfg64 exState s' → ∀ c l, exState.pools_ c = some l →
      s'.pools_ c = some l ∧ ∃ fl, s'.lists l = some fl ∧ fl.size_ = c) ∧
    (∀ size1 size2, roundSize cfg64.size_bits size1 = roundSize cfg64.size_bits size2 →
      ∃ p1 s1 l, SmartAllocator.Malloc cfg64 size1 exState = some (p1, s1) ∧
        s1.pools_ (roundSize cfg64.size_bits size1) = some l ∧
        servingList cfg64 s1 p1 = some l ∧
        ∀ s2, Steps cfg64 s1 s2 →
          ∃ p2 s3, SmartAllocator.Malloc cfg64 size2 s2 = some (p2, s3) ∧
            s3.pools_ (roundSize cfg64.size_bits size2) = some l ∧
            servingList cfg64 s3 p2 = some l ∧ servingList cfg64 s3 p1 = some l) ∧
    (∀ size, 1 ≤ size → size ≤ 32 →
      ∃ p s' l, SmartAllocator.Malloc cfg64 size exState = some (p, s') ∧
        s'.pools_ 32 = some l ∧ servingList cfg64 s' p = some l ∧
        sizeClass cfg64 s' p = some 32)) :=
  ⟨by decide, by decide, exState_reachable,
    same_rounded_size_same_list cfg64 (by decide) (by decide) exState exState_reachable⟩

/-- C6: in every reachable state each block in the free stack of a list
names that list in its header, and the header of a block never changes in
later calls; `Malloc` returns a block of the list registered for the rounded
size, whose size class is that rounded size; `Malloc(10)` followed by
`Malloc(40)` gives pointers of size classes 32 and 64, served by different
lists and backed by different blocks. -/
theorem no_block_crosses_lists (cfg : Config) (hc : cfg.TwoSlotHeader)
    (hw : 7 ≤ cfg.size_bits) (s : State) (hs : Reachable cfg s) :
    (∀ l stack, freeStack s l = some stack → ∀ b ∈ stack, ownerList s b = some l) ∧
    (∀ s', Steps cfg s s' → ∀ b l, ownerList s b = some l → ownerList s' b = some l) ∧
    (∀ size, ∃ p s' l, SmartAllocator.Malloc cfg size s = some (p, s') ∧
      s'.pools_ (roundSize cfg.size_bits size) = some l ∧
      servingList cfg s' p = some l ∧
      sizeClass cfg s' p = some (roundSize cfg.size_bits size)) ∧
    (∃ p1 s1 p2 s2 l1 l2, SmartAllocator.Malloc cfg 10 s = some (p1, s1) ∧
      SmartAllocator.Malloc cfg 40 s1 = some (p2, s2) ∧
      sizeClass cfg s2 p1 = some 32 ∧ sizeClass cfg s2 p2 = some 64 ∧
      servingList cfg s2 p1 = some l1 ∧ servingList cfg s2 p2 = some l2 ∧ l1 ≠ l2 ∧
      p1 ≠ p2 ∧ recoverBlock cfg p1 s2 ≠ recoverBlock cfg p2 s2) := by
  obtain ⟨stk, h⟩ := reachable_inv hc hs
  have hmalloc : ∀ (t : State) (stkt : Nat → List Nat), Inv cfg t stkt → ∀ size,
      ∃ p t' stk' b l fl, SmartAllocator.Malloc cfg size t = some (p, t') ∧ Inv cfg t' stk' ∧
        p = ⟨b, 0 + cfg.header_size_⟩ ∧ HeaderOK cfg t' b l ∧
        t'.pools_ (roundSize cfg.size_bits size) = some l ∧ t'.lists l = some fl ∧
        fl.size_ = roundSize cfg.size_bits size ∧
        (∀ x lx, HeaderOK cfg t x lx → HeaderOK cfg t' x lx) ∧
        (∀ x flx, t.lists x = some flx →
          ∃ flx', t'.lists x = some flx' ∧ flx'.size_ = flx.size_) := by
    intro t stkt ht size
    obtain ⟨p, t', stk', b, mb, l, fl, he, hi, hmb, hpay, _, hh, hp, hl, hsz, _, _, hhd, _, hls⟩ :=
      Malloc_post hc ht size
    exact ⟨p, t', stk', b, l, fl, he, hi, by rw [← hpay]; exact hi.payload hmb, hh, hp, hl,
      hsz, hhd, hls⟩
  have hcls : ∀ (t : State) (b l c : Nat) (fl : FreeList), HeaderOK cfg t b l →
      t.lists l = some fl → fl.size_ = c →
      sizeClass cfg t ⟨b, 0 + cfg.header_size_⟩ = some c := by
    intro t b l c fl hh hl hsz
    simp only [sizeClass, (hh.serving hc).2, hl, hsz]
  refine ⟨?_, ?_, ?_, ?_⟩
  · intro l stack hst b hb
    obtain ⟨_, _, hstk⟩ := h.freeStack_some hst
    rw [hstk] at hb
    obtain ⟨_, _, _, hh⟩ := h.stack_mem l b hb
    exact hh.ownerList_eq
  · intro s' hst b l ho
    obtain ⟨_, g2, _⟩ := steps_frame hc hst stk h
    exact (g2 b l (h.header_of_owner ho)).ownerList_eq
  · intro size
    obtain ⟨p, s', stk', b, l, fl, he, hi, hp, hh, hpool, hl, hsz, _, _⟩ := hmalloc s stk h size
    refine ⟨p, s', l, he, hpool, by rw [hp]; exact (hh.serving hc).2, ?_⟩
    rw [hp]
    exact hcls s' b l _ fl hh hl hsz
  · have h128 : 2 ^ 7 ≤ 2 ^ cfg.size_bits := Nat.pow_le_pow_right (by decide) hw
    have r10 : roundSize cfg.size_bits 10 = 32 := by
      rw [roundSize_in_range _ 10 (by omega) (by decide)]
    have r40 : roundSize cfg.size_bits 40 = 64 := by
      rw [roundSize_in_range _ 40 (by omega) (by decide)]
    obtain ⟨p1, s1, stk1, b1, l1, fl1, he1, hi1, hp1, hh1, _, hl1, hsz1, _, _⟩ :=
      hmalloc s stk h 10
    obtain ⟨p2, s2, stk2, b2, l2, fl2, he2, hi2, hp2, hh2, _, hl2, hsz2, hhd, hls⟩ :=
      hmalloc s1 stk1 hi1 40
    rw [r10] at hsz1
    rw [r40] at hsz2
    obtain ⟨fl1', hl1', hsz1'⟩ := hls l1 fl1 hl1
    have hh1' := hhd _ _ hh1
    have hne : l1 ≠ l2 := by
      intro e
      subst e
      rw [hl1'] at hl2
      cases hl2
      omega
    have hbne : b1 ≠ b2 := by
      intro e
      subst e
      exact hne (hh1'.owner_unique hh2)
    refine ⟨p1, s1, p2, s2, l1, l2, he1, he2, ?_, ?_, ?_, ?_, hne, ?_, ?_⟩
    · rw [hp1]
      exact hcls s2 b1 l1 32 fl1' hh1' hl1' (hsz1'.trans hsz1)
    · rw [hp2]
      exact hcls s2 b2 l2 64 fl2 hh2 hl2 hsz2
    · rw [hp1]
      exact (hh1'.serving hc).2
    · rw [hp2]
      exact (hh2.serving hc).2
    · rw [hp1, hp2]
      intro e
      cases e
      exact hbne rfl
    · rw [hp1, hp2, (hh1'.serving hc).1, (hh2.serving hc).1]
      intro e
      cases e
      exact hbne rfl

/-- Witness of C6: the state after the first `Malloc(10)` of a new allocator
on the 64-bit platform. -/
theorem no_block_crosses_lists_witness :
    cfg64.TwoSlotHeader ∧ 7 ≤ cfg64.size_bits ∧ Reachable cfg64 exState ∧
    ((∀ l stack, freeStack exState l = some stack →
      ∀ b ∈ stack, ownerList exState b = some l) ∧
    (∀ s', Steps cfg64 exState s' → ∀ b l, ownerList exState b = some l →
      ownerList s' b = some l) ∧
    (∀ size, ∃ p s' l, SmartAllocator.Malloc cfg64 size exState = some (p, s') ∧
      s'.pools_ (roundSize cfg64.size_bits size) = some l ∧
      servingList cfg64 s' p = some l ∧
      sizeClass cfg64 s' p = some (roundSize cfg64.size_bits size)) ∧
    (∃ p1 s1 p2 s2 l1 l2, SmartAllocator.Malloc cfg64 10 exState = some (p1, s1) ∧
      SmartAllocator.Malloc cfg64 40 s1 = some (p2, s2) ∧
      sizeClass cfg64 s2 p1 = some 32 ∧ sizeClass cfg64 s2 p2 = some 64 ∧
      servingList cfg64 s2 p1 = some l1 ∧ servingList cfg64 s2 p2 = some l2 ∧ l1 ≠ l2 ∧
      p1 ≠ p2 ∧ recoverBlock cfg64 p1 s2 ≠ recoverBlock cfg64 p2 s2)) :=
  ⟨by decide, by decide, exState_reachable,
    no_block_crosses_lists cfg64 (by decide) (by decide) exState exState_reachable⟩

/-- C7: in every reachable state each memory block either is in circulation,
with a reference count of at least 1 and in no free stack, or has reference
count 0 and is in the free stack of the list named in its header, and not
both; the free stack of every list is a finite list ending at `nullptr` in
which no block occurs twice and all blocks have reference count 0. -/
theorem block_in_circulation_or_stacked (cfg : Config) (hc : cfg.TwoSlotHeader) (s : State)
    (hs : Reachable cfg s) :
    (∀ b mb, s.blocks b = some mb →
      ∃ l stack, ownerList s b = some l ∧ freeStack s l = some stack ∧
        ((InCirculation cfg s (mb.payload cfg) ∧ 1 ≤ mb.ref_ ∧
            ∀ l' stack', freeStack s l' = some stack' → b ∉ stack') ∨
         (¬ InCirculation cfg s (mb.payload cfg) ∧ mb.ref_ = 0 ∧ b ∈ stack)) ∧
        ¬ (1 ≤ mb.ref_ ∧ b ∈ stack)) ∧
    (∀ l fl, s.lists l = some fl →
      ∃ stack, freeStack s l = some stack ∧ IsStack s.blocks fl.free_ stack ∧
        stack.Nodup ∧ ∀ b ∈ stack, ∃ mb, s.blocks b = some mb ∧ mb.ref_ = 0) := by
  obtain ⟨stk, h⟩ := reachable_inv hc hs
  refine ⟨?_, ?_⟩
  · intro b mb hmb
    obtain ⟨h0, l, fl, hh, hl, hm⟩ := h.block b mb hmb
    refine ⟨l, stk l, hh.ownerList_eq, h.freeStack_eq hl, ?_, ?_⟩
    · by_cases hz : mb.ref_ = 0
      · right
        refine ⟨?_, hz, hm hz⟩
        intro hin
        obtain ⟨b', mb', hb', hmb', _, hr'⟩ := hin.elim
        rw [h.recover_payload hc hmb] at hb'
        cases hb'
        rw [hmb] at hmb'
        cases hmb'
        omega
      · left
        refine ⟨h.inCirculation hc hmb (by omega), by omega, ?_⟩
        intro l' stack' hst
        obtain ⟨_, _, hstk⟩ := h.freeStack_some hst
        rw [hstk]
        exact h.not_mem_of_ref hmb hz
    · rintro ⟨h1, hmem⟩
      exact h.not_mem_of_ref hmb (by omega) hmem
  · intro l fl hl
    refine ⟨stk l, h.freeStack_eq hl, h.stack l fl hl, (h.stack l fl hl).nodup, ?_⟩
    intro b hb
    obtain ⟨mb, hmb, h0, _⟩ := h.stack_mem l b hb
    exact ⟨mb, hmb, h0⟩

/-- Witness of C7: the state after the first `Malloc(10)` of a new allocator
on the 64-bit platform. -/
theorem block_in_circulation_or_stacked_witness :
    cfg64.TwoSlotHeader ∧ Reachable cfg64 exState ∧
    ((∀ b mb, exState.blocks b = some mb →
      ∃ l stack, ownerList exState b = some l ∧ freeStack exState l = some stack ∧
        ((InCirculation cfg64 exState (mb.payload cfg64) ∧ 1 ≤ mb.ref_ ∧
            ∀ l' stack', freeStack exState l' = some stack' → b ∉ stack') ∨
         (¬ InCirculation cfg64 exState (mb.payload cfg64) ∧ mb.ref_ = 0 ∧ b ∈ stack)) ∧
        ¬ (1 ≤ mb.ref_ ∧ b ∈ stack)) ∧
    (∀ l fl, exState.lists l = some fl →
      ∃ stack, freeStack exState l = some stack ∧ IsStack exState.blocks fl.free_ stack ∧
        stack.Nodup ∧ ∀ b ∈ stack, ∃ mb, exState.blocks b = some mb ∧ mb.ref_ = 0)) :=
  ⟨by decide, exState_reachable,
    block_in_circulation_or_stacked cfg64 (by decide) exState exState_reachable⟩
/-! ## Header recovery and `Pop` -/

/-- C8: with a header of two pointer-sized slots, a block constructed for
list `L` (in any state) has `L` in slot 0 and itself in slot 1 of its raw
allocation; the block that `Free` and `Refer` recover from the payload
pointer returned by `data()` is that block, so they are its `Unlink` and
`Link`; the list `Unlink` pushes to is `L`, and when `L` exists the last
`Free` makes the block the head of `L`.  In every reachable state the same
recovery holds for every block. -/
theorem header_round_trip (cfg : Config) (hc : cfg.TwoSlotHeader) (st : State)
    (size L : Nat) :
    (∃ mb p st2,
      (MemoryBlock.ctor cfg size L st).2.blocks (MemoryBlock.ctor cfg size L st).1 = some mb ∧
      load (MemoryBlock.ctor cfg size L st).2 mb.data_ = some (Word.listPtr L) ∧
      load (MemoryBlock.ctor cfg size L st).2
          ⟨mb.data_.base, mb.data_.off + cfg.g_pointer_size⟩
        = some (Word.blockPtr (MemoryBlock.ctor cfg size L st).1) ∧
      MemoryBlock.data cfg (MemoryBlock.ctor cfg size L st).1 (MemoryBlock.ctor cfg size L st).2
        = some (p, st2) ∧
      p = mb.payload cfg ∧
      recoverBlock cfg p st2 = some (MemoryBlock.ctor cfg size L st).1 ∧
      ownerList st2 (MemoryBlock.ctor cfg size L st).1 = some L ∧
      SmartAllocator.Free cfg p st2
        = MemoryBlock.Unlink (MemoryBlock.ctor cfg size L st).1 st2 ∧
      SmartAllocator.Refer cfg p st2
        = MemoryBlock.Link (MemoryBlock.ctor cfg size L st).1 st2 ∧
      (∀ fl, st.lists L = some fl →
        ∃ st3 fl3, SmartAllocator.Free cfg p st2 = some st3 ∧ st3.lists L = some fl3 ∧
          fl3.free_ = some (MemoryBlock.ctor cfg size L st).1)) ∧
    (∀ s, Reachable cfg s → ∀ b mb, s.blocks b = some mb →
      recoverBlock cfg (mb.payload cfg) s = some b ∧
      SmartAllocator.Free cfg (mb.payload cfg) s = MemoryBlock.Unlink b s ∧
      SmartAllocator.Refer cfg (mb.payload cfg) s = MemoryBlock.Link b s ∧
      ∃ l, load s mb.data_ = some (Word.listPtr l) ∧
        load s ⟨mb.data_.base, mb.data_.off + cfg.g_pointer_size⟩ = some (Word.blockPtr b) ∧
        ownerList s b = some l ∧ servingList cfg s (mb.payload cfg) = some l) := by
  have hne : (0 : Nat) ≠ cfg.g_pointer_size := by
    have := hc.1
    omega
  have hle : cfg.g_pointer_size ≤ 2 * cfg.g_pointer_size := by omega
  have hsub : 2 * cfg.g_pointer_size - cfg.g_pointer_size = cfg.g_pointer_size := by omega
  have hs := hc.2
  refine ⟨?_, ?_⟩
  · have hrec : recoverBlock cfg
        (MemoryBlock.payload cfg ⟨none, ⟨st.nraw, 0⟩, 0⟩)
        { (MemoryBlock.ctor cfg size L st).2 with
          blocks := upd (MemoryBlock.ctor cfg size L st).2.blocks st.nblock
            (some ⟨none, ⟨st.nraw, 0⟩, 0 + 1⟩) } = some st.nblock := by
      simp [recoverBlock, MemoryBlock.payload, MemoryBlock.ctor, load, upd, hs, hle, hsub]
    refine ⟨⟨none, ⟨st.nraw, 0⟩, 0⟩, _, _, ?_, ?_, ?_, ?_, rfl, hrec, ?_, ?_, ?_, ?_⟩
    · simp [MemoryBlock.ctor, upd]
    · simp [MemoryBlock.ctor, load, upd, hne]
    · simp [MemoryBlock.ctor, load, upd]
    · simp [MemoryBlock.data, MemoryBlock.ctor, upd]
    · simp [ownerList, MemoryBlock.ctor, load, upd, hne]
    · simp only [SmartAllocator.Free, hrec]
      rfl
    · simp only [SmartAllocator.Refer, hrec]
      rfl
    · intro fl hfl
      refine ⟨pushState
          (refState (MemoryBlock.ctor cfg size L st).2 st.nblock ⟨none, ⟨st.nraw, 0⟩, 0⟩ (0 + 1))
          L fl st.nblock ⟨none, ⟨st.nraw, 0⟩, 0 + 1⟩,
        { fl with free_ := some st.nblock }, ?_, pushState_lists_same _ _ _ _ _, rfl⟩
      have hslot : upd (upd (fun _ => (none : Option Word)) 0 (some (Word.listPtr L)))
          cfg.g_pointer_size (some (Word.blockPtr st.nblock)) 0 = some (Word.listPtr L) := by
        simp [upd, hne]
      simp only [SmartAllocator.Free, hrec]
      simp [MemoryBlock.Unlink, MemoryBlock.ctor, upd_same, upd_upd, ownerList, load, hslot,
        FreeList.Push, hfl, pushState, refState]
  · intro s hsr b mb hmb
    obtain ⟨stk, h⟩ := reachable_inv hc hsr
    obtain ⟨l, _, hh, _⟩ := h.header hmb
    have hrec := hh.recover hc mb hmb
    have ⟨mb', r, hmb', hd, hraw, h0, h1⟩ := hh
    rw [hmb] at hmb'
    cases hmb'
    refine ⟨hrec, ?_, ?_, l, ?_, ?_, hh.ownerList_eq, ?_⟩
    · simp only [SmartAllocator.Free, hrec]
    · simp only [SmartAllocator.Refer, hrec]
    · simp [load, hd, hraw, h0]
    · simp [load, hd, hraw, h1]
    · simp only [servingList, hrec, hh.ownerList_eq]

/-- Witness of C8: the first block of a new allocator on the 64-bit
platform, constructed for list 0 with 32 bytes. -/
theorem header_round_trip_witness :
    cfg64.TwoSlotHeader ∧
    ((∃ mb p st2,
      (MemoryBlock.ctor cfg64 32 0 State.empty).2.blocks
        (MemoryBlock.ctor cfg64 32 0 State.empty).1 = some mb ∧
      load (MemoryBlock.ctor cfg64 32 0 State.empty).2 mb.data_ = some (Word.listPtr 0) ∧
      load (MemoryBlock.ctor cfg64 32 0 State.empty).2
          ⟨mb.data_.base, mb.data_.off + cfg64.g_pointer_size⟩
        = some (Word.blockPtr (MemoryBlock.ctor cfg64 32 0 State.empty).1) ∧
      MemoryBlock.data cfg64 (MemoryBlock.ctor cfg64 32 0 State.empty).1
          (MemoryBlock.ctor cfg64 32 0 State.empty).2
        = some (p, st2) ∧
      p = mb.payload cfg64 ∧
      recoverBlock cfg64 p st2 = some (MemoryBlock.ctor cfg64 32 0 State.empty).1 ∧
      ownerList st2 (MemoryBlock.ctor cfg64 32 0 State.empty).1 = some 0 ∧
      SmartAllocator.Free cfg64 p st2
        = MemoryBlock.Unlink (MemoryBlock.ctor cfg64 32 0 State.empty).1 st2 ∧
      SmartAllocator.Refer cfg64 p st2
        = MemoryBlock.Link (MemoryBlock.ctor cfg64 32 0 State.empty).1 st2 ∧
      (∀ fl, State.empty.lists 0 = some fl →
        ∃ st3 fl3, SmartAllocator.Free cfg64 p st2 = some st3 ∧ st3.lists 0 = some fl3 ∧
          fl3.free_ = some (MemoryBlock.ctor cfg64 32 0 State.empty).1)) ∧
    (∀ s, Reachable cfg64 s → ∀ b mb, s.blocks b = some mb →
      recoverBlock cfg64 (mb.payload cfg64) s = some b ∧
      SmartAllocator.Free cfg64 (mb.payload cfg64) s = MemoryBlock.Unlink b s ∧
      SmartAllocator.Refer cfg64 (mb.payload cfg64) s = MemoryBlock.Link b s ∧
      ∃ l, load s mb.data_ = some (Word.listPtr l) ∧
        load s ⟨mb.data_.base, mb.data_.off + cfg64.g_pointer_size⟩
          = some (Word.blockPtr b) ∧
        ownerList s b = some l ∧ servingList cfg64 s (mb.payload cfg64) = some l)) :=
  ⟨by decide, header_round_trip cfg64 (by decide) State.empty 32 0⟩
/-- C9: `FreeList::Pop` on a list whose stack holds the blocks `stack`, all
with reference count 0 (in any state).  If the stack is empty, exactly one
block is constructed, with the list's `size_` and for this list, its payload
pointer is returned and the stack is empty afterwards.  Otherwise the payload
pointer of the head is returned, no block is constructed and the stack
afterwards is the previous one without its head.  In both cases the returned
block has reference count 1 afterwards.  A block has reference count 0 when
its constructor returns. -/
theorem Pop_behaviour (cfg : Config) (st : State) (l : Nat) (fl : FreeList)
    (stack : List Nat) (hl : st.lists l = some fl)
    (hs : IsStack st.blocks fl.free_ stack)
    (h0 : ∀ b ∈ stack, ∀ mb, st.blocks b = some mb → mb.ref_ = 0) :
    (stack = [] →
      ∃ p st' mb raw fl', FreeList.Pop cfg l st = some (p, st') ∧
        st'.nblock = st.nblock + 1 ∧ st'.nraw = st.nraw + 1 ∧
        (∀ x, x ≠ st.nblock → st'.blocks x = st.blocks x) ∧
        (∀ a, a ≠ st.nraw → st'.raws a = st.raws a) ∧
        st'.blocks st.nblock = some mb ∧ p = mb.payload cfg ∧ mb.ref_ = 1 ∧
        st'.raws mb.data_.base = some raw ∧
        raw.size = (fl.size_ + cfg.header_size_) % 2 ^ cfg.size_bits ∧
        st'.raws = (MemoryBlock.ctor cfg fl.size_ l st).2.raws ∧
        st'.lists l = some fl' ∧ fl'.size_ = fl.size_ ∧ fl'.free_ = none ∧
        IsStack st'.blocks fl'.free_ []) ∧
    (∀ b rest, stack = b :: rest →
      ∃ p st' mb mb' fl', FreeList.Pop cfg l st = some (p, st') ∧
        st.blocks b = some mb ∧ p = mb.payload cfg ∧
        st'.blocks b = some mb' ∧ mb'.ref_ = 1 ∧ mb'.data_ = mb.data_ ∧
        st'.nblock = st.nblock ∧ st'.nraw = st.nraw ∧ st'.raws = st.raws ∧
        (∀ x, x ≠ b → st'.blocks x = st.blocks x) ∧
        st'.lists l = some fl' ∧ fl'.size_ = fl.size_ ∧
        IsStack st'.blocks fl'.free_ rest) ∧
    (∀ (size L : Nat) (st0 : State), ∃ mb,
      (MemoryBlock.ctor cfg size L st0).2.blocks (MemoryBlock.ctor cfg size L st0).1 = some mb ∧
      mb.ref_ = 0) := by
  refine ⟨?_, ?_, ?_⟩
  · intro hnil
    subst hnil
    have hf : fl.free_ = none := hs
    refine ⟨_, _, ⟨none, ⟨st.nraw, 0⟩, 0 + 1⟩,
      ⟨(fl.size_ + cfg.header_size_) % 2 ^ cfg.size_bits,
        upd (upd (fun _ => none) 0 (some (Word.listPtr l)))
          cfg.g_pointer_size (some (Word.blockPtr st.nblock))⟩,
      fl, Pop_empty cfg st l fl hl hf, rfl, rfl, ?_, ?_,
      ?_, rfl, by simp, ?_, rfl, rfl, hl, rfl, hf, hf⟩
    · intro x hx
      simp [growState, upd_ne _ _ hx]
    · intro a ha
      simp [growState, upd_ne _ _ ha]
    · simp [growState, upd_same]
    · simp only [growState, upd_same]
  · intro b rest hcons
    subst hcons
    obtain ⟨hf, mb, hmb, hrest⟩ := hs
    have hnin : b ∉ rest := by
      have hstack : IsStack st.blocks fl.free_ (b :: rest) := ⟨hf, mb, hmb, hrest⟩
      exact (List.nodup_cons.mp hstack.nodup).1
    have hz := h0 b (List.mem_cons_self _ _) mb hmb
    refine ⟨_, _, mb, { mb with ref_ := mb.ref_ + 1 }, { fl with free_ := mb.next },
      Pop_nonempty cfg st l fl b mb hl hf hmb, hmb, rfl, popState_blocks_same st l fl b mb,
      by simp [hz], rfl, rfl, rfl, rfl, ?_, popState_lists_same st l fl b mb, rfl, ?_⟩
    · intro x hx
      exact popState_blocks_ne st l fl b mb hx
    · exact IsStack.frame b _ hnin hrest
  · intro size L st0
    exact ⟨⟨none, ⟨st0.nraw, 0⟩, 0⟩, by simp [MemoryBlock.ctor, upd_same], rfl⟩

/-- Witness of C9: the list of size class 32 after its only block was handed
out and released again, on the 64-bit platform. -/
theorem Pop_behaviour_witness :
    exFreed.lists 0 = some ⟨some 0, 32⟩ ∧
    IsStack exFreed.blocks (FreeList.mk (some 0) 32).free_ [0] ∧
    (∀ b ∈ [0], ∀ mb, exFreed.blocks b = some mb → mb.ref_ = 0) ∧
    ((([0] : List Nat) = [] →
      ∃ p st' mb raw fl', FreeList.Pop cfg64 0 exFreed = some (p, st') ∧
        st'.nblock = exFreed.nblock + 1 ∧ st'.nraw = exFreed.nraw + 1 ∧
        (∀ x, x ≠ exFreed.nblock → st'.blocks x = exFreed.blocks x) ∧
        (∀ a, a ≠ exFreed.nraw → st'.raws a = exFreed.raws a) ∧
        st'.blocks exFreed.nblock = some mb ∧ p = mb.payload cfg64 ∧ mb.ref_ = 1 ∧
        st'.raws mb.data_.base = some raw ∧
        raw.size = ((FreeList.mk (some 0) 32).size_ + cfg64.header_size_) % 2 ^ cfg64.size_bits ∧
        st'.raws = (MemoryBlock.ctor cfg64 (FreeList.mk (some 0) 32).size_ 0 exFreed).2.raws ∧
        st'.lists 0 = some fl' ∧ fl'.size_ = (FreeList.mk (some 0) 32).size_ ∧
        fl'.free_ = none ∧ IsStack st'.blocks fl'.free_ []) ∧
    (∀ b rest, ([0] : List Nat) = b :: rest →
      ∃ p st' mb mb' fl', FreeList.Pop cfg64 0 exFreed = some (p, st') ∧
        exFreed.blocks b = some mb ∧ p = mb.payload cfg64 ∧
        st'.blocks b = some mb' ∧ mb'.ref_ = 1 ∧ mb'.data_ = mb.data_ ∧
        st'.nblock = exFreed.nblock ∧ st'.nraw = exFreed.nraw ∧ st'.raws = exFreed.raws ∧
        (∀ x, x ≠ b → st'.blocks x = exFreed.blocks x) ∧
        st'.lists 0 = some fl' ∧ fl'.size_ = (FreeList.mk (some 0) 32).size_ ∧
        IsStack st'.blocks fl'.free_ rest) ∧
    (∀ (size L : Nat) (st0 : State), ∃ mb,
      (MemoryBlock.ctor cfg64 size L st0).2.blocks (MemoryBlock.ctor cfg64 size L st0).1
        = some mb ∧
      mb.ref_ = 0)) :=
  have hl : exFreed.lists 0 = some ⟨some 0, 32⟩ := rfl
  have hb : exFreed.blocks 0 = some ⟨none, ⟨0, 0⟩, 0⟩ := rfl
  have hs : IsStack exFreed.blocks (FreeList.mk (some 0) 32).free_ [0] :=
    ⟨rfl, _, hb, rfl⟩
  have h0 : ∀ b ∈ [0], ∀ mb, exFreed.blocks b = some mb → mb.ref_ = 0 := by
    intro b hmem mb hmb
    have hb0 : b = 0 := by simpa using hmem
    subst hb0
    rw [hb] at hmb
    cases hmb
    rfl
  ⟨hl, hs, h0, Pop_behaviour cfg64 exFreed 0 ⟨some 0, 32⟩ [0] hl hs h0⟩
/-! ## The simple allocator: reference counting -/

/-- C10, counterexample: on the 64-bit platform (`int` of 32 bits), after
`Malloc` and `2^32` calls of `Refer` the counter has wrapped around to 1, and
the very first `Free` releases the raw allocation and destroys the counter,
not the `(2^32 + 1)`-th. -/
theorem simple_free_releases_early_after_wraparound :
    ∃ h2 h3,
      repeatOp (Allocator.Refer cfg64 (Allocator.Malloc cfg64 8 SimpleHeap.empty).1) (2 ^ 32)
        (Allocator.Malloc cfg64 8 SimpleHeap.empty).2 = some h2 ∧
      h2.counters 0 = some 1 ∧
      repeatOp (Allocator.Free cfg64 (Allocator.Malloc cfg64 8 SimpleHeap.empty).1) 1 h2
        = some h3 ∧
      1 ≤ 2 ^ 32 ∧
      h3.raws (Allocator.Malloc cfg64 8 SimpleHeap.empty).1.base = none ∧
      h3.counters 0 = none := by
  have hh : (Allocator.Malloc cfg64 8 SimpleHeap.empty).2.Holds 0 0
      ⟨(8 + cfg64.alloc_header_size_) % 2 ^ cfg64.size_bits,
        upd (fun _ => none) 0 (some (Word.counterPtr 0))⟩ 1 :=
    ⟨rfl, rfl, rfl⟩
  obtain ⟨h2, v, hrep, hh2, hval, _⟩ := refer_repeat cfg64 0 0 _ (2 ^ 32) _ _ hh
  have hv1 : v = 1 := by
    rw [hval]
    decide
  have hp : (Allocator.Malloc cfg64 8 SimpleHeap.empty).1
      = ⟨0, 0 + cfg64.alloc_header_size_⟩ := rfl
  have hz : wrapInt cfg64 (v - 1) = 0 := by
    rw [hv1]
    decide
  refine ⟨h2, { h2 with counters := upd h2.counters 0 none, raws := upd h2.raws 0 none },
    hrep, ?_, ?_, by decide, ?_, ?_⟩
  · rw [hh2.2.2, hv1]
  · rw [hp]
    simp only [repeatOp, Free_holds_release cfg64 hh2 hz]
  · simp [hp, upd_same]
  · simp [upd_same]

/-- C10, amended: `Allocator::Malloc` makes one raw allocation of
`size + header_size_` bytes and stores in its header a fresh counter of
value 1; `Refer` increments that counter; `Free` decrements it and destroys
the counter and releases the raw allocation exactly when the counter reaches
zero.  Hence, for `k < 2 ^ int_bits`, after `Malloc` and `k` calls of `Refer`
the buffer is still live after each of the first `k` calls of `Free`, and the
`(k+1)`-th `Free` releases the raw allocation and destroys the counter. -/
theorem simple_refcount_law (cfg : Config) (h : SimpleHeap) (size k : Nat)
    (hk : k < 2 ^ cfg.int_bits) :
    ∃ raw h2,
      (Allocator.Malloc cfg size h).1 = ⟨h.nraw, 0 + cfg.alloc_header_size_⟩ ∧
      (Allocator.Malloc cfg size h).2.raws h.nraw = some raw ∧
      raw.size = (size + cfg.alloc_header_size_) % 2 ^ cfg.size_bits ∧
      raw.slots 0 = some (Word.counterPtr h.ncounter) ∧
      (Allocator.Malloc cfg size h).2.counters h.ncounter = some 1 ∧
      (Allocator.Malloc cfg size h).2.nraw = h.nraw + 1 ∧
      (Allocator.Malloc cfg size h).2.ncounter = h.ncounter + 1 ∧
      (∀ a, a ≠ h.nraw → (Allocator.Malloc cfg size h).2.raws a = h.raws a) ∧
      (∀ (g : SimpleHeap) (v : Int), g.Holds h.nraw h.ncounter raw v →
        Allocator.Refer cfg (Allocator.Malloc cfg size h).1 g
          = some { g with counters := upd g.counters h.ncounter (some (wrapInt cfg (v + 1))) } ∧
        Allocator.Free cfg (Allocator.Malloc cfg size h).1 g
          = some (if wrapInt cfg (v - 1) = 0 then
              { g with counters := upd g.counters h.ncounter none,
                       raws := upd g.raws h.nraw none }
            else
              { g with counters := upd g.counters h.ncounter (some (wrapInt cfg (v - 1))) })) ∧
      repeatOp (Allocator.Refer cfg (Allocator.Malloc cfg size h).1) k
        (Allocator.Malloc cfg size h).2 = some h2 ∧
      (∀ j, j ≤ k → ∃ h3 v,
        repeatOp (Allocator.Free cfg (Allocator.Malloc cfg size h).1) j h2 = some h3 ∧
        h3.Holds h.nraw h.ncounter raw v) ∧
      (∃ h4, repeatOp (Allocator.Free cfg (Allocator.Malloc cfg size h).1) (k + 1) h2 = some h4 ∧
        h4.raws h.nraw = none ∧ h4.counters h.ncounter = none) := by
  have hp : (Allocator.Malloc cfg size h).1 = ⟨h.nraw, 0 + cfg.alloc_header_size_⟩ := rfl
  have hh : (Allocator.Malloc cfg size h).2.Holds h.nraw h.ncounter
      ⟨(size + cfg.alloc_header_size_) % 2 ^ cfg.size_bits,
        upd (fun _ => none) 0 (some (Word.counterPtr h.ncounter))⟩ 1 :=
    ⟨by simp [Allocator.Malloc, upd_same], by simp [upd_same],
      by simp [Allocator.Malloc, upd_same]⟩
  obtain ⟨h2, v2, hrep2, hh2, _, hv2⟩ := refer_repeat cfg h.nraw h.ncounter _ k _ _ hh
  have hv2' : v2 % ((2 ^ cfg.int_bits : Nat) : Int)
      = ((k + 1 : Nat) : Int) % ((2 ^ cfg.int_bits : Nat) : Int) := by
    rw [hv2]
    congr 1
    push_cast
    ring
  refine ⟨_, h2, hp, hh.1, rfl, hh.2.1, hh.2.2, rfl, rfl, ?_, ?_, ?_, ?_, ?_⟩
  · intro a ha
    simp [Allocator.Malloc, upd_ne _ _ ha]
  · intro g v hg
    rw [hp]
    refine ⟨Refer_holds cfg hg, ?_⟩
    by_cases hz : wrapInt cfg (v - 1) = 0
    · rw [Free_holds_release cfg hg hz, if_pos hz]
    · rw [Free_holds_keep cfg hg hz, if_neg hz]
  · rw [hp]
    exact hrep2
  · intro j hj
    rw [hp]
    obtain ⟨h3, v3, hrep3, hh3, _⟩ :=
      free_repeat cfg h.nraw h.ncounter _ j h2 v2 (k + 1) hh2 hv2' (by omega) (by omega)
    exact ⟨h3, v3, hrep3, hh3⟩
  · rw [hp]
    obtain ⟨h3, v3, hrep3, hh3, hv3⟩ :=
      free_repeat cfg h.nraw h.ncounter _ k h2 v2 (k + 1) hh2 hv2' (by omega) (by omega)
    have hz : wrapInt cfg (v3 - 1) = 0 := by
      rw [wrapInt_eq_zero_iff]
      have := Int.ModEq.sub_right (1 : Int) hv3
      unfold Int.ModEq at this
      rw [this]
      have e : ((k + 1 - k : Nat) : Int) - 1 = 0 := by
        have : k + 1 - k = 1 := by omega
        rw [this]
        rfl
      rw [e]
      simp
    refine ⟨_, repeatOp_succ_last _ k h2 h3 _ hrep3 (Free_holds_release cfg hh3 hz), ?_, ?_⟩
    · simp [upd_same]
    · simp [upd_same]

/-- Witness of C10 (amended): a buffer of 8 bytes on an empty heap of the
64-bit platform, referred to once more. -/
theorem simple_refcount_law_witness :
    1 < 2 ^ cfg64.int_bits ∧
    ∃ raw h2,
      (Allocator.Malloc cfg64 8 SimpleHeap.empty).1
        = ⟨SimpleHeap.empty.nraw, 0 + cfg64.alloc_header_size_⟩ ∧
      (Allocator.Malloc cfg64 8 SimpleHeap.empty).2.raws SimpleHeap.empty.nraw = some raw ∧
      raw.size = (8 + cfg64.alloc_header_size_) % 2 ^ cfg64.size_bits ∧
      raw.slots 0 = some (Word.counterPtr SimpleHeap.empty.ncounter) ∧
      (Allocator.Malloc cfg64 8 SimpleHeap.empty).2.counters SimpleHeap.empty.ncounter
        = some 1 ∧
      (Allocator.Malloc cfg64 8 SimpleHeap.empty).2.nraw = SimpleHeap.empty.nraw + 1 ∧
      (Allocator.Malloc cfg64 8 SimpleHeap.empty).2.ncounter = SimpleHeap.empty.ncounter + 1 ∧
      (∀ a, a ≠ SimpleHeap.empty.nraw →
        (Allocator.Malloc cfg64 8 SimpleHeap.empty).2.raws a = SimpleHeap.empty.raws a) ∧
      (∀ (g : SimpleHeap) (v : Int),
        g.Holds SimpleHeap.empty.nraw SimpleHeap.empty.ncounter raw v →
        Allocator.Refer cfg64 (Allocator.Malloc cfg64 8 SimpleHeap.empty).1 g
          = some { g with
              counters := upd g.counters SimpleHeap.empty.ncounter
                (some (wrapInt cfg64 (v + 1))) } ∧
        Allocator.Free cfg64 (Allocator.Malloc cfg64 8 SimpleHeap.empty).1 g
          = some (if wrapInt cfg64 (v - 1) = 0 then
              { g with counters := upd g.counters SimpleHeap.empty.ncounter none,
                       raws := upd g.raws SimpleHeap.empty.nraw none }
            else
              { g with
                counters := upd g.counters SimpleHeap.empty.ncounter
                  (some (wrapInt cfg64 (v - 1))) })) ∧
      repeatOp (Allocator.Refer cfg64 (Allocator.Malloc cfg64 8 SimpleHeap.empty).1) 1
        (Allocator.Malloc cfg64 8 SimpleHeap.empty).2 = some h2 ∧
      (∀ j, j ≤ 1 → ∃ h3 v,
        repeatOp (Allocator.Free cfg64 (Allocator.Malloc cfg64 8 SimpleHeap.empty).1) j h2
          = some h3 ∧
        h3.Holds SimpleHeap.empty.nraw SimpleHeap.empty.ncounter raw v) ∧
      (∃ h4,
        repeatOp (Allocator.Free cfg64 (Allocator.Malloc cfg64 8 SimpleHeap.empty).1) (1 + 1) h2
          = some h4 ∧
        h4.raws SimpleHeap.empty.nraw = none ∧
        h4.counters SimpleHeap.empty.ncounter = none) :=
  ⟨by decide, simple_refcount_law cfg64 SimpleHeap.empty 8 1 (by decide)⟩
/-! ## Selection of the allocator -/

theorem getCalls_eq_map (ts : List String) :
    ∀ s : Statics, getCalls ts s
      = ts.map (fun t => if t = "smart" then StaticAllocator.smart else StaticAllocator.simple) := by
  induction ts with
  | nil => intro s; rfl
  | cons t ts ih =>
    intro s
    simp only [getCalls, List.map_cons, ih]
    congr 1
    unfold Allocator.Get
    split <;> rfl

/-- C11: for every value of the allocator-type string, `Allocator::Get`
returns the pooled `SmartAllocator` instance if and only if the string equals
`"smart"`, and the simple `Allocator` instance for every other value; when
the value stays the same, any number of calls all return that same
instance. -/
theorem get_selects_by_string (t : String) (s : Statics) :
    ((Allocator.Get t s).1 = StaticAllocator.smart ↔ t = "smart") ∧
    ((Allocator.Get t s).1 = StaticAllocator.simple ↔ t ≠ "smart") ∧
    (∀ n : Nat, getCalls (List.replicate n t) s = List.replicate n (Allocator.Get t s).1) := by
  refine ⟨?_, ?_, ?_⟩
  · unfold Allocator.Get
    split <;> simp_all
  · unfold Allocator.Get
    split <;> simp_all
  · intro n
    rw [getCalls_eq_map, List.map_replicate]
    congr 1
    unfold Allocator.Get
    split <;> rfl

/-- C12, counterexample: a first call of `Get` made while the configuration
string is `"smart"` returns the pooled instance, and a second call made while
it is `"simple"` returns the simple instance, not the one of the first
call. -/
theorem get_follows_changed_string :
    getCalls ["smart", "simple"] ⟨false, false⟩
      = [StaticAllocator.smart, StaticAllocator.simple] ∧
    StaticAllocator.simple ≠ (Allocator.Get "smart" ⟨false, false⟩).1 := by
  decide

/-- C12, amended: for every sequence of calls of `Allocator::Get`, each call
returns the instance selected by the value the configuration string has at
the time of that call; when the string at every later call agrees with the
value at the first call on being `"smart"`, every call returns the instance
of the first call. -/
theorem get_instance_per_call (ts : List String) (s : Statics) :
    getCalls ts s
      = ts.map (fun t => if t = "smart" then StaticAllocator.smart else StaticAllocator.simple) ∧
    (∀ t : String, (∀ u ∈ ts, (u = "smart" ↔ t = "smart")) →
      ∀ r ∈ getCalls (t :: ts) s, r = (Allocator.Get t s).1) := by
  refine ⟨getCalls_eq_map ts s, ?_⟩
  intro t hall r hr
  rw [getCalls_eq_map, List.mem_map] at hr
  obtain ⟨u, hu, rfl⟩ := hr
  have hiff : u = "smart" ↔ t = "smart" := by
    rcases List.mem_cons.mp hu with h | h
    · rw [h]
    · exact hall u h
  unfold Allocator.Get
  by_cases h : t = "smart"
  · simp [h, hiff.mpr h]
  · have : u ≠ "smart" := fun hu' => h (hiff.mp hu')
    simp [h, this]
/-! ## Growth and recycling of the pools -/

/-- The raw allocations that exist stay as they are across one call. -/
theorem step_raws {cfg : Config} (hc : cfg.TwoSlotHeader) {s s' : State}
    {stk : Nat → List Nat} (h : Inv cfg s stk) (hs : Step cfg s s') :
    ∀ a r, s.raws a = some r → s'.raws a = some r := by
  have hlt : ∀ a r, s.raws a = some r → a ≠ s.nraw := by
    intro a r ha e
    rw [e, h.fresh_raw _ (le_refl _)] at ha
    cases ha
  cases hs with
  | malloc size p _ hm =>
    rcases Malloc_spec hc h size with ⟨l, fl, b, mb, _, _, _, _, he, _⟩ |
      ⟨l, fl, _, _, _, he, _⟩ | ⟨_, he, _⟩
    · rw [he] at hm
      cases hm
      exact fun a r ha => ha
    · rw [he] at hm
      cases hm
      intro a r ha
      simp only [growState, upd_ne _ _ (hlt a r ha)]
      exact ha
    · rw [he] at hm
      cases hm
      intro a r ha
      show (registerState cfg s (roundSize cfg.size_bits size)).raws a = some r
      rw [register_raws, upd_ne _ _ (hlt a r ha)]
      exact ha
  | free p hp hf =>
    obtain ⟨b, mb, l, fl, _, _, _, _, _, _, hcase⟩ := Free_spec h hp
    rcases hcase with ⟨_, he, _⟩ | ⟨_, he, _⟩
    all_goals
      rw [he] at hf
      cases hf
      exact fun a r ha => ha
  | refer p hp hr =>
    obtain ⟨b, mb, _, _, _, _, he, _⟩ := Refer_spec h hp
    rw [he] at hr
    cases hr
    exact fun a r ha => ha

/-- C14: in every reachable state, `Free` and `Refer` of a pointer in
circulation neither release nor create a raw allocation and leave the map
unchanged.  `Refer` changes nothing but the reference count of the addressed
block.  `Free` changes nothing but the reference count of the addressed
block and, when the count reaches zero, the `next` link of that block and the
head of the free stack of the list named in its header.  Across any call
(`Malloc`, `Free` or `Refer`) every raw allocation stays and every block
keeps the list named in its header, so the set of blocks of a list never
shrinks. -/
theorem free_refer_frame (cfg : Config) (hc : cfg.TwoSlotHeader) (s : State)
    (hs : Reachable cfg s) :
    (∀ p, InCirculation cfg s p →
      ∃ s' b mb mb', SmartAllocator.Free cfg p s = some s' ∧
        recoverBlock cfg p s = some b ∧ s.blocks b = some mb ∧ s'.blocks b = some mb' ∧
        s'.raws = s.raws ∧ s'.pools_ = s.pools_ ∧
        s'.nraw = s.nraw ∧ s'.nblock = s.nblock ∧ s'.nlist = s.nlist ∧
        (∀ x, x ≠ b → s'.blocks x = s.blocks x) ∧
        mb'.data_ = mb.data_ ∧ mb'.ref_ = mb.ref_ - 1 ∧
        (mb.ref_ - 1 ≠ 0 → mb'.next = mb.next ∧ s'.lists = s.lists) ∧
        (mb.ref_ - 1 = 0 → ∃ l fl fl', ownerList s b = some l ∧ s.lists l = some fl ∧
          s'.lists l = some fl' ∧ fl'.free_ = some b ∧ fl'.size_ = fl.size_ ∧
          mb'.next = fl.free_ ∧ ∀ x, x ≠ l → s'.lists x = s.lists x)) ∧
    (∀ p, InCirculation cfg s p →
      ∃ s' b mb, SmartAllocator.Refer cfg p s = some s' ∧
        recoverBlock cfg p s = some b ∧ s.blocks b = some mb ∧
        s'.blocks b = some { mb with ref_ := mb.ref_ + 1 } ∧
        s'.raws = s.raws ∧ s'.pools_ = s.pools_ ∧ s'.lists = s.lists ∧
        s'.nraw = s.nraw ∧ s'.nblock = s.nblock ∧ s'.nlist = s.nlist ∧
        (∀ x, x ≠ b → s'.blocks x = s.blocks x)) ∧
    (∀ s', Step cfg s s' →
      (∀ a r, s.raws a = some r → s'.raws a = some r) ∧
      (∀ b l, ownerList s b = some l → ownerList s' b = some l) ∧
      (∀ b, (s.blocks b).isSome → (s'.blocks b).isSome)) := by
  obtain ⟨stk, h⟩ := reachable_inv hc hs
  refine ⟨?_, ?_, ?_⟩
  · intro p hp
    obtain ⟨b, mb, l, fl, hrec, hmb, _, _, hh, hl, hcase⟩ := Free_spec h hp
    rcases hcase with ⟨h2, he, _⟩ | ⟨h1, he, _⟩
    · refine ⟨_, b, mb, { mb with ref_ := mb.ref_ - 1 }, he, hrec, hmb,
        refState_blocks_same s b mb _, rfl, rfl, rfl, rfl, rfl, ?_, rfl, rfl, ?_, ?_⟩
      · intro x hx
        exact refState_blocks_ne s b mb _ hx
      · intro _
        exact ⟨rfl, rfl⟩
      · intro hz
        omega
    · refine ⟨_, b, mb, { mb with ref_ := mb.ref_ - 1, next := fl.free_ }, he, hrec, hmb,
        pushState_blocks_same s l fl b mb, rfl, rfl, rfl, rfl, rfl, ?_, rfl, rfl, ?_, ?_⟩
      · intro x hx
        exact pushState_blocks_ne s l fl b mb hx
      · intro hnz
        omega
      · intro _
        refine ⟨l, fl, { fl with free_ := some b }, hh.ownerList_eq, hl,
          pushState_lists_same s l fl b mb, rfl, rfl, rfl, ?_⟩
        intro x hx
        exact pushState_lists_ne s l fl b mb hx
  · intro p hp
    obtain ⟨b, mb, hrec, hmb, _, _, he, _⟩ := Refer_spec h hp
    refine ⟨_, b, mb, he, hrec, hmb, refState_blocks_same s b mb _, rfl, rfl, rfl, rfl, rfl,
      rfl, ?_⟩
    intro x hx
    exact refState_blocks_ne s b mb _ hx
  · intro s' hstep
    obtain ⟨_, g2, _⟩ := step_frame hc h hstep
    refine ⟨step_raws hc h hstep, ?_, ?_⟩
    · intro b l ho
      exact (g2 b l (h.header_of_owner ho)).ownerList_eq
    · intro b hb
      cases hmb : s.blocks b with
      | none => simp [hmb] at hb
      | some mb =>
        obtain ⟨l, _, hh, _⟩ := h.header hmb
        obtain ⟨mb', _, hmb', _⟩ := g2 b l hh
        simp [hmb']

/-- Witness of C14: the state after the first `Malloc(10)` of a new allocator
on the 64-bit platform. -/
theorem free_refer_frame_witness :
    cfg64.TwoSlotHeader ∧ Reachable cfg64 exState ∧
    ((∀ p, InCirculation cfg64 exState p →
      ∃ s' b mb mb', SmartAllocator.Free cfg64 p exState = some s' ∧
        recoverBlock cfg64 p exState = some b ∧ exState.blocks b = some mb ∧
        s'.blocks b = some mb' ∧
        s'.raws = exState.raws ∧ s'.pools_ = exState.pools_ ∧
        s'.nraw = exState.nraw ∧ s'.nblock = exState.nblock ∧ s'.nlist = exState.nlist ∧
        (∀ x, x ≠ b → s'.blocks x = exState.blocks x) ∧
        mb'.data_ = mb.data_ ∧ mb'.ref_ = mb.ref_ - 1 ∧
        (mb.ref_ - 1 ≠ 0 → mb'.next = mb.next ∧ s'.lists = exState.lists) ∧
        (mb.ref_ - 1 = 0 → ∃ l fl fl', ownerList exState b = some l ∧
          exState.lists l = some fl ∧
          s'.lists l = some fl' ∧ fl'.free_ = some b ∧ fl'.size_ = fl.size_ ∧
          mb'.next = fl.free_ ∧ ∀ x, x ≠ l → s'.lists x = exState.lists x)) ∧
    (∀ p, InCirculation cfg64 exState p →
      ∃ s' b mb, SmartAllocator.Refer cfg64 p exState = some s' ∧
        recoverBlock cfg64 p exState = some b ∧ exState.blocks b = some mb ∧
        s'.blocks b = some { mb with ref_ := mb.ref_ + 1 } ∧
        s'.raws = exState.raws ∧ s'.pools_ = exState.pools_ ∧ s'.lists = exState.lists ∧
        s'.nraw = exState.nraw ∧ s'.nblock = exState.nblock ∧ s'.nlist = exState.nlist ∧
        (∀ x, x ≠ b → s'.blocks x = exState.blocks x)) ∧
    (∀ s', Step cfg64 exState s' →
      (∀ a r, exState.raws a = some r → s'.raws a = some r) ∧
      (∀ b l, ownerList exState b = some l → ownerList s' b = some l) ∧
      (∀ b, (exState.blocks b).isSome → (s'.blocks b).isSome))) :=
  ⟨by decide, exState_reachable,
    free_refer_frame cfg64 (by decide) exState exState_reachable⟩
/-! ## Rounding in `size_t` arithmetic -/

theorem hdr_slot_zero {cfg : Config} (hc : cfg.TwoSlotHeader) (l b : Nat) :
    upd (upd (fun _ => (none : Option Word)) 0 (some (Word.listPtr l)))
      cfg.g_pointer_size (some (Word.blockPtr b)) 0 = some (Word.listPtr l) := by
  have hne : (0 : Nat) ≠ cfg.g_pointer_size := by
    have := hc.1
    omega
  simp [upd, hne]

/-- A raw allocation of the state after a call was there before, or it is
the one the call made, for a list of the new state and with the size its
constructor computes. -/
theorem step_raws_rev {cfg : Config} (hc : cfg.TwoSlotHeader) {s s' : State}
    {stk : Nat → List Nat} (h : Inv cfg s stk) (hs : Step cfg s s') :
    ∀ a r, s'.raws a = some r → s.raws a = some r ∨
      ∃ l fl, r.slots 0 = some (Word.listPtr l) ∧ s'.lists l = some fl ∧
        r.size = (fl.size_ + cfg.header_size_) % 2 ^ cfg.size_bits := by
  cases hs with
  | malloc size p _ hm =>
    rcases Malloc_spec hc h size with ⟨l, fl, b, mb, _, _, _, _, he, _⟩ |
      ⟨l, fl, _, hl, _, he, _⟩ | ⟨_, he, _⟩
    · rw [he] at hm
      cases hm
      exact fun a r ha => Or.inl ha
    · rw [he] at hm
      cases hm
      intro a r ha
      by_cases e : a = s.nraw
      · subst e
        simp only [growState, upd_same] at ha
        cases ha
        exact Or.inr ⟨l, fl, hdr_slot_zero hc _ _, hl, rfl⟩
      · simp only [growState, upd_ne _ _ e] at ha
        exact Or.inl ha
    · rw [he] at hm
      cases hm
      intro a r ha
      have ha : (registerState cfg s (roundSize cfg.size_bits size)).raws a = some r := ha
      rw [register_raws] at ha
      by_cases e : a = s.nraw
      · subst e
        rw [upd_same] at ha
        cases ha
        exact Or.inr ⟨s.nlist, _, hdr_slot_zero hc _ _,
          popState_lists_same _ _ _ _ _, rfl⟩
      · rw [upd_ne _ _ e] at ha
        exact Or.inl ha
  | free p hp hf =>
    obtain ⟨b, mb, l, fl, _, _, _, _, _, _, hcase⟩ := Free_spec h hp
    rcases hcase with ⟨_, he, _⟩ | ⟨_, he, _⟩
    all_goals
      rw [he] at hf
      cases hf
      exact fun a r ha => Or.inl ha
  | refer p hp hr =>
    obtain ⟨b, mb, _, _, _, _, he, _⟩ := Refer_spec h hp
    rw [he] at hr
    cases hr
    exact fun a r ha => Or.inl ha

theorem steps_rawSized {cfg : Config} (hc : cfg.TwoSlotHeader) {s s' : State}
    (hs : Steps cfg s s') :
    ∀ stk, Inv cfg s stk → RawSized cfg s → RawSized cfg s' := by
  induction hs with
  | refl => exact fun _ _ h => h
  | tail hst hstep ih =>
    intro stk h hr
    have hr' := ih stk h hr
    obtain ⟨stk', hi⟩ := steps_inv hc hst ⟨stk, h⟩
    obtain ⟨_, _, g3⟩ := step_frame hc hi hstep
    intro a r l ha hslot
    rcases step_raws_rev hc hi hstep a r ha with hold | ⟨l', fl', hslot', hl', hsz⟩
    · obtain ⟨fl, hl, hsz⟩ := hr' a r l hold hslot
      obtain ⟨fl2, hl2, hsz2⟩ := g3 l fl hl
      exact ⟨fl2, hl2, by rw [hsz, hsz2]⟩
    · rw [hslot] at hslot'
      cases hslot'
      exact ⟨fl', hl', hsz⟩

theorem reachable_rawSized {cfg : Config} (hc : cfg.TwoSlotHeader) {s : State}
    (hs : Reachable cfg s) : RawSized cfg s := by
  refine steps_rawSized hc hs _ (inv_empty cfg) ?_
  intro a r l ha
  simp [State.empty] at ha

theorem roundSize_wraps (w s : Nat) (hw : 5 ≤ w) (hs : s < 2 ^ w) (hbig : 2 ^ w < s + 32) :
    s % 32 ≠ 0 ∧ (s &&& (((2 ^ w - 1) <<< 5) % 2 ^ w)) + 32 = 2 ^ w ∧ roundSize w s = 0 := by
  have hpow : 2 ^ w = 2 ^ (w - 5) * 32 := by
    have : w = (w - 5) + 5 := by omega
    conv_lhs => rw [this, pow_add]
    norm_num
  have hdm := Nat.div_add_mod s 32
  have hlt := Nat.mod_lt s (show 0 < 32 by decide)
  have hne : s % 32 ≠ 0 := by
    intro h0
    rw [h0] at hdm
    have h1 : s / 32 < 2 ^ (w - 5) := by
      by_contra hge
      have : 2 ^ (w - 5) * 32 ≤ s / 32 * 32 := Nat.mul_le_mul_right 32 (by omega)
      omega
    have : (s / 32 + 1) * 32 ≤ 2 ^ (w - 5) * 32 := Nat.mul_le_mul_right 32 h1
    omega
  have hq : s / 32 + 1 = 2 ^ (w - 5) := by
    have h1 : s / 32 < 2 ^ (w - 5) := by
      by_contra hge
      have : 2 ^ (w - 5) * 32 ≤ s / 32 * 32 := Nat.mul_le_mul_right 32 (by omega)
      omega
    have h2 : 2 ^ (w - 5) ≤ s / 32 + 1 := by
      by_contra hlt'
      have : (s / 32 + 2) * 32 ≤ 2 ^ (w - 5) * 32 := Nat.mul_le_mul_right 32 (by omega)
      omega
    omega
  have hsum : s / 32 * 32 + 32 = 2 ^ w := by
    rw [hpow, ← hq]
    ring
  refine ⟨hne, ?_, ?_⟩
  · rw [land_mask w s hs]
    exact hsum
  · rw [roundSize_of_not_multiple w s hs hne, hsum]
    exact Nat.mod_self _

theorem roundSize_dvd (w s : Nat) (hw : 5 ≤ w) (hs : s < 2 ^ w) : 32 ∣ roundSize w s := by
  by_cases hm : s % 32 = 0
  · rw [roundSize_of_multiple w s hm]
    exact Nat.dvd_of_mod_eq_zero hm
  · by_cases hbig : s + 32 ≤ 2 ^ w
    · rw [roundSize_in_range w s hbig hm]
      exact ⟨s / 32 + 1, by ring⟩
    · rw [(roundSize_wraps w s hw hs (by omega)).2.2]
      exact dvd_zero _

/-- C17: the rounding expression of `Malloc` in `w`-bit `size_t` arithmetic
(`w ≥ 5`).  For `s ≤ 2^w - 32` the result is `32 * ceil(s / 32)`, between `s`
and `s + 31`.  For `s > 2^w - 32` the size is not a multiple of 32, the
addition `(size & t) + 32` gives `2^w` and wraps, the result is 0, and in a
reachable state `Malloc` serves the request from the list of size class 0,
with a block whose raw allocation has just the size of the header (payload
capacity 0).  For every `s` the result is a multiple of 32 and rounding it
again changes nothing. -/
theorem rounding_exact (cfg : Config) (hc : cfg.TwoSlotHeader) (hw : 5 ≤ cfg.size_bits)
    (st : State) (hst : Reachable cfg st) :
    (∀ s, s + 32 ≤ 2 ^ cfg.size_bits →
      roundSize cfg.size_bits s = 32 * ((s + 31) / 32) ∧
      s ≤ roundSize cfg.size_bits s ∧ roundSize cfg.size_bits s < s + 32) ∧
    (∀ s, s < 2 ^ cfg.size_bits → 2 ^ cfg.size_bits < s + 32 →
      s % 32 ≠ 0 ∧
      (s &&& (((2 ^ cfg.size_bits - 1) <<< 5) % 2 ^ cfg.size_bits)) + 32 = 2 ^ cfg.size_bits ∧
      roundSize cfg.size_bits s = 0 ∧
      ∃ p st' b mb raw l fl, SmartAllocator.Malloc cfg s st = some (p, st') ∧
        sizeClass cfg st' p = some 0 ∧ st'.pools_ 0 = some l ∧
        servingList cfg st' p = some l ∧ st'.lists l = some fl ∧ fl.size_ = 0 ∧
        recoverBlock cfg p st' = some b ∧ st'.blocks b = some mb ∧
        st'.raws mb.data_.base = some raw ∧
        raw.size = (0 + cfg.header_size_) % 2 ^ cfg.size_bits ∧
        raw.size ≤ cfg.header_size_) ∧
    (∀ s, s < 2 ^ cfg.size_bits →
      32 ∣ roundSize cfg.size_bits s ∧
      roundSize cfg.size_bits (roundSize cfg.size_bits s) = roundSize cfg.size_bits s) := by
  refine ⟨?_, ?_, ?_⟩
  · intro s hs
    have hdm := Nat.div_add_mod s 32
    have hlt := Nat.mod_lt s (show 0 < 32 by decide)
    by_cases hm : s % 32 = 0
    · rw [roundSize_of_multiple _ s hm]
      have : (s + 31) / 32 = s / 32 := by omega
      rw [this]
      omega
    · rw [roundSize_in_range _ s hs hm]
      have : (s + 31) / 32 = s / 32 + 1 := by omega
      rw [this]
      omega
  · intro s hs hbig
    obtain ⟨hne, hsum, hzero⟩ := roundSize_wraps cfg.size_bits s hw hs hbig
    refine ⟨hne, hsum, hzero, ?_⟩
    obtain ⟨stk, h⟩ := reachable_inv hc hst
    obtain ⟨p, st', stk', b, mb, l, fl, he, hi, hmb, hpay, _, hh, hp, hl, hsz, _⟩ :=
      Malloc_post hc h s
    rw [hzero] at hp hsz
    have hreach : Reachable cfg st' := Steps.tail hst (Step.malloc s p hs he)
    have hrs := reachable_rawSized hc hreach
    have ⟨mb', r, hmb', hd, hraw, h0, _⟩ := hh
    rw [hmb] at hmb'
    cases hmb'
    obtain ⟨fl2, hl2, hsize⟩ := hrs b r l hraw h0
    rw [hl] at hl2
    cases hl2
    rw [hsz] at hsize
    have hrec : recoverBlock cfg p st' = some b := by
      rw [← hpay]
      exact hh.recover hc mb hmb
    have hserv : servingList cfg st' p = some l := by
      simp only [servingList, hrec, hh.ownerList_eq]
    refine ⟨p, st', b, mb, r, l, fl, he, ?_, hp, hserv, hl, hsz, hrec, hmb, ?_, hsize, ?_⟩
    · simp only [sizeClass, hserv, hl, hsz]
    · rw [hd]
      exact hraw
    · rw [hsize]
      simp only [Nat.zero_add]
      exact Nat.mod_le _ _
  · intro s hs
    have hd := roundSize_dvd cfg.size_bits s hw hs
    exact ⟨hd, roundSize_of_multiple _ _ (Nat.mod_eq_zero_of_dvd hd)⟩

/-- Witness of C17: a new allocator on the 64-bit platform. -/
theorem rounding_exact_witness :
    cfg64.TwoSlotHeader ∧ 5 ≤ cfg64.size_bits ∧ Reachable cfg64 State.empty ∧
    ((∀ s, s + 32 ≤ 2 ^ cfg64.size_bits →
      roundSize cfg64.size_bits s = 32 * ((s + 31) / 32) ∧
      s ≤ roundSize cfg64.size_bits s ∧ roundSize cfg64.size_bits s < s + 32) ∧
    (∀ s, s < 2 ^ cfg64.size_bits → 2 ^ cfg64.size_bits < s + 32 →
      s % 32 ≠ 0 ∧
      (s &&& (((2 ^ cfg64.size_bits - 1) <<< 5) % 2 ^ cfg64.size_bits)) + 32
        = 2 ^ cfg64.size_bits ∧
      roundSize cfg64.size_bits s = 0 ∧
      ∃ p st' b mb raw l fl, SmartAllocator.Malloc cfg64 s State.empty = some (p, st') ∧
        sizeClass cfg64 st' p = some 0 ∧ st'.pools_ 0 = some l ∧
        servingList cfg64 st' p = some l ∧ st'.lists l = some fl ∧ fl.size_ = 0 ∧
        recoverBlock cfg64 p st' = some b ∧ st'.blocks b = some mb ∧
        st'.raws mb.data_.base = some raw ∧
        raw.size = (0 + cfg64.header_size_) % 2 ^ cfg64.size_bits ∧
        raw.size ≤ cfg64.header_size_) ∧
    (∀ s, s < 2 ^ cfg64.size_bits →
      32 ∣ roundSize cfg64.size_bits s ∧
      roundSize cfg64.size_bits (roundSize cfg64.size_bits s)
        = roundSize cfg64.size_bits s)) :=
  ⟨by decide, by decide, Steps.refl _,
    rounding_exact cfg64 (by decide) (by decide) State.empty (Steps.refl _)⟩
/-! ## Teardown -/

/-- The loop of `~FreeList` releases exactly the blocks of the stack it
walks, given enough fuel. -/
theorem dtorLoop_stack :
    ∀ (stack : List Nat) (fuel : Nat) (head : Option Nat) (st : State),
      IsStack st.blocks head stack → stack.length ≤ fuel →
      (∀ b ∈ stack, ∃ mb r, st.blocks b = some mb ∧ mb.data_ = ⟨b, 0⟩ ∧ st.raws b = some r) →
      ∃ st', FreeList.dtorLoop fuel head st = some st' ∧
        (∀ x ∈ stack, st'.blocks x = none ∧ st'.raws x = none) ∧
        (∀ x, x ∉ stack → st'.blocks x = st.blocks x ∧ st'.raws x = st.raws x) ∧
        st'.lists = st.lists ∧ st'.pools_ = st.pools_ := by
  intro stack
  induction stack with
  | nil =>
    intro fuel head st hs _ _
    have : head = none := hs
    subst this
    refine ⟨st, ?_, ?_, fun _ _ => ⟨rfl, rfl⟩, rfl, rfl⟩
    · cases fuel <;> rfl
    · intro x hx
      cases hx
  | cons b rest ih =>
    intro fuel head st hs hlen hmem
    have hnd := hs.nodup
    obtain ⟨hh, mb, hmb, hrest⟩ := hs
    subst hh
    have hnin : b ∉ rest := (List.nodup_cons.mp hnd).1
    obtain ⟨mb', r, hmb', hd, hraw⟩ := hmem b (List.mem_cons_self _ _)
    rw [hmb] at hmb'
    cases hmb'
    cases fuel with
    | zero => simp at hlen
    | succ n =>
      have hdt : MemoryBlock.dtor b st
          = some { st with raws := upd st.raws b none, blocks := upd st.blocks b none } := by
        simp [MemoryBlock.dtor, hmb, hd, hraw]
      have hrest' : IsStack (upd st.blocks b none) mb.next rest := IsStack.frame b _ hnin hrest
      obtain ⟨st', hloop, hgone, hkept, hl, hp⟩ :=
        ih n mb.next { st with raws := upd st.raws b none, blocks := upd st.blocks b none }
          hrest' (by simpa using hlen)
          (by
            intro x hx
            have hxb : x ≠ b := fun e => hnin (e ▸ hx)
            obtain ⟨mx, rx, h1, h2, h3⟩ := hmem x (List.mem_cons_of_mem _ hx)
            exact ⟨mx, rx, by simp [upd_ne _ _ hxb, h1], h2, by simp [upd_ne _ _ hxb, h3]⟩)
      refine ⟨st', ?_, ?_, ?_, hl, hp⟩
      · simp only [FreeList.dtorLoop, hmb, hdt]
        exact hloop
      · intro x hx
        rcases List.mem_cons.mp hx with e | hx'
        · subst e
          have := hkept x hnin
          simp only [upd_same] at this
          exact this
        · exact hgone x hx'
      · intro x hx
        have hxb : x ≠ b := fun e => hx (e ▸ List.mem_cons_self _ _)
        have hxr : x ∉ rest := fun h => hx (List.mem_cons_of_mem _ h)
        have := hkept x hxr
        simp only [upd_ne _ _ hxb] at this
        exact this

theorem tornDown_start (s : State) (stk : Nat → List Nat) :
    TornDown s stk (fun _ => False) s where
  pools := rfl
  lists_gone := by intro l h; exact h.elim
  lists_kept := fun _ _ => rfl
  gone := by
    rintro x ⟨l, h, _⟩
    exact h.elim
  kept := fun _ _ => ⟨rfl, rfl⟩

/-- Destroying one more list, one that still exists. -/
theorem tornDown_list {cfg : Config} {s : State} {stk : Nat → List Nat} (h : Inv cfg s stk)
    {D : Nat → Prop} {st : State} (ht : TornDown s stk D st) {l : Nat} {fl : FreeList}
    (hl : s.lists l = some fl) (hD : ¬ D l) (fuel : Nat) (hfuel : s.nblock ≤ fuel) :
    ∃ st', FreeList.dtor fuel l st = some st' ∧
      TornDown s stk (fun x => D x ∨ x = l) st' := by
  have hdisj : ∀ x ∈ stk l, ¬ ∃ l', D l' ∧ x ∈ stk l' := by
    rintro x hx ⟨l', hD', hx'⟩
    obtain ⟨_, _, _, hh⟩ := h.stack_mem l x hx
    have := h.mem_owner hx' hh
    subst this
    exact hD hD'
  have hl' : st.lists l = some fl := by rw [ht.lists_kept l hD]; exact hl
  have hstack : IsStack st.blocks fl.free_ (stk l) := by
    refine IsStack.congr ?_ (h.stack l fl hl)
    intro x hx mb hmb
    exact ⟨mb, by rw [(ht.kept x (hdisj x hx)).1]; exact hmb, rfl⟩
  have hmem : ∀ b ∈ stk l, ∃ mb r, st.blocks b = some mb ∧ mb.data_ = ⟨b, 0⟩ ∧
      st.raws b = some r := by
    intro b hb
    obtain ⟨mb, hmb, _, ⟨mb', r, hmb', hd, hraw, _⟩⟩ := h.stack_mem l b hb
    rw [hmb] at hmb'
    cases hmb'
    have hk := ht.kept b (hdisj b hb)
    exact ⟨mb, r, by rw [hk.1]; exact hmb, hd, by rw [hk.2]; exact hraw⟩
  obtain ⟨st1, hloop, hgone, hkept, hlists, hpools⟩ :=
    dtorLoop_stack (stk l) fuel fl.free_ st hstack
      (le_trans (h.stack_length hl) hfuel) hmem
  refine ⟨{ st1 with lists := upd st1.lists l none }, ?_, ?_⟩
  · simp [FreeList.dtor, hl', hloop]
  · refine ⟨?_, ?_, ?_, ?_, ?_⟩
    · show st1.pools_ = s.pools_
      rw [hpools]
      exact ht.pools
    · intro x hx
      show upd st1.lists l none x = none
      by_cases e : x = l
      · subst e
        exact upd_same _ _ _
      · rw [upd_ne _ _ e, hlists]
        rcases hx with hx | hx
        · exact ht.lists_gone x hx
        · exact absurd hx e
    · intro x hx
      show upd st1.lists l none x = s.lists x
      have e : x ≠ l := fun e => hx (Or.inr e)
      rw [upd_ne _ _ e, hlists]
      exact ht.lists_kept x (fun hd => hx (Or.inl hd))
    · rintro x ⟨l', hl'D, hx⟩
      show st1.blocks x = none ∧ st1.raws x = none
      rcases hl'D with hd | e
      · have hnot : x ∉ stk l := by
          intro hxl
          exact hdisj x hxl ⟨l', hd, hx⟩
        have := hkept x hnot
        rw [this.1, this.2]
        exact ht.gone x ⟨l', hd, hx⟩
      · subst e
        exact hgone x hx
    · intro x hx
      show st1.blocks x = s.blocks x ∧ st1.raws x = s.raws x
      have hnot : x ∉ stk l := fun hxl => hx ⟨l, Or.inr rfl, hxl⟩
      have hk := hkept x hnot
      rw [hk.1, hk.2]
      exact ht.kept x (by
        rintro ⟨l', hd, hx'⟩
        exact hx ⟨l', Or.inl hd, hx'⟩)

theorem TornDown.of_iff {s : State} {stk : Nat → List Nat} {D D' : Nat → Prop} {st : State}
    (ht : TornDown s stk D st) (hiff : ∀ l, D l ↔ D' l) : TornDown s stk D' st := by
  have : D = D' := funext fun l => propext (hiff l)
  subst this
  exact ht

/-- The loop of `~SmartAllocator` over keys of the map, each visited once. -/
theorem tornDown_keys {cfg : Config} {s : State} {stk : Nat → List Nat} (h : Inv cfg s stk)
    (fuel : Nat) (hfuel : s.nblock ≤ fuel) :
    ∀ (cs : List Nat) (D : Nat → Prop) (st : State), TornDown s stk D st → cs.Nodup →
      (∀ c ∈ cs, ∀ l, s.pools_ c = some l → ¬ D l) →
      ∃ st', SmartAllocator.dtor fuel cs st = some st' ∧
        TornDown s stk (fun l => D l ∨ ∃ c ∈ cs, s.pools_ c = some l) st' := by
  intro cs
  induction cs with
  | nil =>
    intro D st ht _ _
    exact ⟨st, rfl, ht.of_iff (fun l => by simp)⟩
  | cons c cs ih =>
    intro D st ht hnd hfree
    obtain ⟨hc, hnd'⟩ := List.nodup_cons.mp hnd
    cases hp : s.pools_ c with
    | none =>
      obtain ⟨st', hrun, ht'⟩ := ih D st ht hnd'
        (fun c' hc' l hl => hfree c' (List.mem_cons_of_mem _ hc') l hl)
      refine ⟨st', ?_, ht'.of_iff ?_⟩
      · simp only [SmartAllocator.dtor, ht.pools, hp]
        exact hrun
      · intro l
        constructor
        · rintro (hd | ⟨c', hc', hl⟩)
          · exact Or.inl hd
          · exact Or.inr ⟨c', List.mem_cons_of_mem _ hc', hl⟩
        · rintro (hd | ⟨c', hc', hl⟩)
          · exact Or.inl hd
          · rcases List.mem_cons.mp hc' with e | hc''
            · subst e
              rw [hp] at hl
              cases hl
            · exact Or.inr ⟨c', hc'', hl⟩
    | some l =>
      obtain ⟨fl, hl, hsz⟩ := h.pool_list c l hp
      have hD : ¬ D l := hfree c (List.mem_cons_self _ _) l hp
      obtain ⟨st1, hd1, ht1⟩ := tornDown_list h ht hl hD fuel hfuel
      obtain ⟨st', hrun, ht'⟩ := ih (fun x => D x ∨ x = l) st1 ht1 hnd' (by
        intro c' hc' l' hl' hbad
        rcases hbad with hd | e
        · exact hfree c' (List.mem_cons_of_mem _ hc') l' hl' hd
        · subst e
          obtain ⟨fl', hfl', hsz'⟩ := h.pool_list c' l' hl'
          rw [hl] at hfl'
          cases hfl'
          have : c' = c := by rw [← hsz, ← hsz']
          subst this
          exact hc hc')
      refine ⟨st', ?_, ht'.of_iff ?_⟩
      · simp only [SmartAllocator.dtor, ht.pools, hp, hd1]
        exact hrun
      · intro l'
        constructor
        · rintro ((hd | e) | ⟨c', hc', hl'⟩)
          · exact Or.inl hd
          · exact Or.inr ⟨c, List.mem_cons_self _ _, by rw [e]; exact hp⟩
          · exact Or.inr ⟨c', List.mem_cons_of_mem _ hc', hl'⟩
        · rintro (hd | ⟨c', hc', hl'⟩)
          · exact Or.inl (Or.inl hd)
          · rcases List.mem_cons.mp hc' with e | hc''
            · subst e
              rw [hp] at hl'
              cases hl'
              exact Or.inl (Or.inr rfl)
            · exact Or.inr ⟨c', hc'', hl'⟩

/-- C15, counterexample: after `Malloc(10)` on a new allocator of the 64-bit
platform the block of the list of size class 32 is in circulation; the
destructor of the allocator (the map has the one key 32) destroys the list
but leaves that block and its raw allocation live. -/
theorem teardown_leaves_block_in_circulation :
    exState.pools_ 32 = some 0 ∧ ownerList exState 0 = some 0 ∧
    recoverBlock cfg64 exPtr exState = some 0 ∧ InCirculation cfg64 exState exPtr ∧
    ∃ s', SmartAllocator.dtor exState.nblock [32] exState = some s' ∧
      (s'.lists 0).isSome = false ∧ (s'.blocks 0).isSome = true ∧
      (s'.raws 0).isSome = true := by
  refine ⟨by decide, by decide, by decide, by decide, _, rfl, ?_, ?_, ?_⟩ <;> decide

/-- C15, amended: in a reachable state, destroying a free list (with fuel for
as many rounds as there are blocks) releases the blocks of its free stack and
their raw allocations, each once, removes the list and leaves every other
block and raw allocation alone.  The destructor of the allocator, visiting
each key of the map once, returns; afterwards no list exists, every block
that was in a free stack is released together with its raw allocation, and
every block that was in circulation is still there with its raw allocation
live. -/
theorem teardown_releases_free_stacks (cfg : Config) (hc : cfg.TwoSlotHeader) (s : State)
    (hs : Reachable cfg s) (keys : List Nat) (fuel : Nat) (hfuel : s.nblock ≤ fuel)
    (hnd : keys.Nodup) (hkeys : ∀ c, c ∈ keys ↔ (s.pools_ c).isSome = true) :
    (∀ l fl, s.lists l = some fl →
      ∃ s1 stack, FreeList.dtor fuel l s = some s1 ∧ freeStack s l = some stack ∧
        s1.lists l = none ∧
        (∀ b ∈ stack, s1.blocks b = none ∧ s1.raws b = none) ∧
        (∀ b, b ∉ stack → s1.blocks b = s.blocks b ∧ s1.raws b = s.raws b)) ∧
    (∃ s', SmartAllocator.dtor fuel keys s = some s' ∧
      (∀ l, s'.lists l = none) ∧
      (∀ b mb, s.blocks b = some mb → mb.ref_ = 0 →
        s'.blocks b = none ∧ s'.raws mb.data_.base = none) ∧
      (∀ b mb, s.blocks b = some mb → 1 ≤ mb.ref_ →
        s'.blocks b = some mb ∧ (s'.raws mb.data_.base).isSome = true ∧
        s'.raws mb.data_.base = s.raws mb.data_.base)) := by
  obtain ⟨stk, h⟩ := reachable_inv hc hs
  have hbase : ∀ b mb, s.blocks b = some mb → mb.data_.base = b ∧ (s.raws b).isSome = true := by
    intro b mb hmb
    obtain ⟨l, _, ⟨mb', r, hmb', hd, hraw, _⟩, _⟩ := h.header hmb
    rw [hmb] at hmb'
    cases hmb'
    exact ⟨by rw [hd], by rw [hraw]; rfl⟩
  refine ⟨?_, ?_⟩
  · intro l fl hl
    obtain ⟨s1, hd, ht⟩ := tornDown_list h (tornDown_start s stk) hl (fun hf => hf) fuel hfuel
    refine ⟨s1, stk l, hd, h.freeStack_eq hl, ht.lists_gone l (Or.inr rfl), ?_, ?_⟩
    · intro b hb
      exact ht.gone b ⟨l, Or.inr rfl, hb⟩
    · intro b hb
      refine ht.kept b ?_
      rintro ⟨l', hl', hb'⟩
      rcases hl' with hf | e
      · exact hf
      · subst e
        exact hb hb'
  · obtain ⟨s', hrun, ht⟩ := tornDown_keys h fuel hfuel keys (fun _ => False) s
      (tornDown_start s stk) hnd (fun _ _ _ _ hf => hf)
    have hall : ∀ l fl, s.lists l = some fl → ∃ c ∈ keys, s.pools_ c = some l := by
      intro l fl hl
      have hp := h.list_pool l fl hl
      exact ⟨fl.size_, (hkeys _).mpr (by rw [hp]; rfl), hp⟩
    refine ⟨s', hrun, ?_, ?_, ?_⟩
    · intro l
      cases hl : s.lists l with
      | none =>
        by_cases hD : (False ∨ ∃ c ∈ keys, s.pools_ c = some l)
        · exact ht.lists_gone l hD
        · rw [ht.lists_kept l hD]
          exact hl
      | some fl => exact ht.lists_gone l (Or.inr (hall l fl hl))
    · intro b mb hmb h0
      obtain ⟨_, l, fl, _, hl, hm⟩ := h.block b mb hmb
      have := ht.gone b ⟨l, Or.inr (hall l fl hl), hm h0⟩
      rw [(hbase b mb hmb).1]
      exact this
    · intro b mb hmb h1
      have hnot : ¬ ∃ l, (False ∨ ∃ c ∈ keys, s.pools_ c = some l) ∧ b ∈ stk l := by
        rintro ⟨l, _, hb⟩
        exact h.not_mem_of_ref hmb (by omega) hb
      have hk := ht.kept b hnot
      obtain ⟨hb1, hb2⟩ := hbase b mb hmb
      rw [hb1, hk.1, hk.2]
      exact ⟨hmb, hb2, rfl⟩

/-- Witness of C15 (amended): the allocator of the 64-bit platform after its
first buffer was handed out and released again; the map has the key 32. -/
theorem teardown_releases_free_stacks_witness :
    cfg64.TwoSlotHeader ∧ Reachable cfg64 exFreed ∧ exFreed.nblock ≤ 1 ∧
    ([32] : List Nat).Nodup ∧ (∀ c, c ∈ [32] ↔ (exFreed.pools_ c).isSome = true) ∧
    ((∀ l fl, exFreed.lists l = some fl →
      ∃ s1 stack, FreeList.dtor 1 l exFreed = some s1 ∧ freeStack exFreed l = some stack ∧
        s1.lists l = none ∧
        (∀ b ∈ stack, s1.blocks b = none ∧ s1.raws b = none) ∧
        (∀ b, b ∉ stack → s1.blocks b = exFreed.blocks b ∧ s1.raws b = exFreed.raws b)) ∧
    (∃ s', SmartAllocator.dtor 1 [32] exFreed = some s' ∧
      (∀ l, s'.lists l = none) ∧
      (∀ b mb, exFreed.blocks b = some mb → mb.ref_ = 0 →
        s'.blocks b = none ∧ s'.raws mb.data_.base = none) ∧
      (∀ b mb, exFreed.blocks b = some mb → 1 ≤ mb.ref_ →
        s'.blocks b = some mb ∧ (s'.raws mb.data_.base).isSome = true ∧
        s'.raws mb.data_.base = exFreed.raws mb.data_.base))) :=
  have hreach : Reachable cfg64 exFreed :=
    Steps.tail exState_reachable (Step.free exPtr exPtr_inCirculation rfl)
  have hkeys : ∀ c, c ∈ [32] ↔ (exFreed.pools_ c).isSome = true := by
    intro c
    have hp : exFreed.pools_ = upd (fun _ => none) 32 (some 0) := rfl
    rw [hp]
    by_cases e : c = 32
    · subst e
      simp [upd]
    · simp [upd, e]
  ⟨by decide, hreach, by decide, by decide, hkeys,
    teardown_releases_free_stacks cfg64 (by decide) exFreed hreach [32] 1 (by decide)
      (by decide) hkeys⟩
/-! ## Locks and the reference count -/

/-- C16, counterexample: on the 64-bit platform, for the buffer handed out by
the first `Malloc(10)`, `Refer` increments `ref_` of block 0 with no lock
held, and `Free` decrements it before `Push` takes the lock of list 0, which
owns the block: neither is inside a critical section of that list. -/
theorem refer_and_free_touch_ref_unlocked :
    InCirculation cfg64 exState exPtr ∧ ownerList exState 0 = some 0 ∧
    SmartAllocator.ReferEvents cfg64 exPtr exState = [Event.refInc 0] ∧
    guarded (ownerList exState) [] (SmartAllocator.ReferEvents cfg64 exPtr exState) = false ∧
    SmartAllocator.FreeEvents cfg64 exPtr exState
      = [Event.refDec 0, Event.lock 0, Event.unlock 0] ∧
    guarded (ownerList exState) [] (SmartAllocator.FreeEvents cfg64 exPtr exState) = false := by
  refine ⟨by decide, by decide, by decide, by decide, by decide, by decide⟩

/-- C16, amended: in every reachable state the increment of `ref_` made by
`Malloc` (through `data()` in `Pop`) happens inside the critical section of
the mutex of the list that owns the block.  The decrement made by `Free`
(through `Unlink`) is the first event of the call, made with no list mutex
held; the owner's mutex is taken only afterwards, by `Push`, when the count
has reached zero.  The increment made by `Refer` (through `Link`) is the only
event of the call, made with no mutex held. -/
theorem ref_count_locking (cfg : Config) (hc : cfg.TwoSlotHeader) (s : State)
    (hs : Reachable cfg s) :
    (∀ size, ∃ p s' b l, SmartAllocator.Malloc cfg size s = some (p, s') ∧
      recoverBlock cfg p s' = some b ∧ ownerList s' b = some l ∧
      SmartAllocator.MallocEvents cfg size s
        = [Event.lockMap, Event.unlockMap, Event.lock l, Event.refInc b, Event.unlock l] ∧
      guarded (ownerList s') [] (SmartAllocator.MallocEvents cfg size s) = true) ∧
    (∀ p, InCirculation cfg s p → ∃ b mb l, recoverBlock cfg p s = some b ∧
      s.blocks b = some mb ∧ ownerList s b = some l ∧
      SmartAllocator.FreeEvents cfg p s
        = Event.refDec b :: (if mb.ref_ - 1 = 0 then [Event.lock l, Event.unlock l] else []) ∧
      guarded (ownerList s) [] (SmartAllocator.FreeEvents cfg p s) = false) ∧
    (∀ p, InCirculation cfg s p → ∃ b l, recoverBlock cfg p s = some b ∧
      ownerList s b = some l ∧
      SmartAllocator.ReferEvents cfg p s = [Event.refInc b] ∧
      guarded (ownerList s) [] (SmartAllocator.ReferEvents cfg p s) = false) := by
  obtain ⟨stk, h⟩ := reachable_inv hc hs
  refine ⟨?_, ?_, ?_⟩
  · intro size
    have hg : ∀ (own : Nat → Option Nat) (b l : Nat), own b = some l →
        guarded own [] [Event.lockMap, Event.unlockMap, Event.lock l, Event.refInc b,
          Event.unlock l] = true := by
      intro own b l ho
      simp [guarded, ho]
    rcases Malloc_spec hc h size with ⟨l, fl, b, mb, hp, hl, hf, hmb, he, hi⟩ |
      ⟨l, fl, hp, hl, hf, he, hi⟩ | ⟨hp, he, hi⟩
    · obtain ⟨rest, hstk, _, _⟩ := h.stack_head hl hf hmb
      have hmem : b ∈ stk l := by rw [hstk]; exact List.mem_cons_self _ _
      obtain ⟨_, _, _, hh⟩ := h.stack_mem l b hmem
      have hown : ownerList (popState s l fl b mb) b = some l :=
        (hh.pop l fl hmb).ownerList_eq
      have hrec := hi.recover_payload hc (popState_blocks_same s l fl b mb)
      have hev : SmartAllocator.MallocEvents cfg size s
          = [Event.lockMap, Event.unlockMap, Event.lock l, Event.refInc b, Event.unlock l] := by
        simp [SmartAllocator.MallocEvents, hp, FreeList.PopEvents, hl, hf]
      exact ⟨_, _, b, l, he, hrec, hown, hev, by rw [hev]; exact hg _ _ _ hown⟩
    · have hnew : (growState cfg s fl.size_ l).blocks s.nblock
          = some ⟨none, ⟨s.nraw, 0⟩, 0 + 1⟩ := by
        simp [growState, upd_same]
      have hrec : recoverBlock cfg ⟨s.nraw, 0 + cfg.header_size_⟩ (growState cfg s fl.size_ l)
          = some s.nblock := hi.recover_payload hc hnew
      have hown : ownerList (growState cfg s fl.size_ l) s.nblock = some l := by
        have hnew' : (growState cfg s fl.size_ l).blocks s.nblock
            = some ⟨none, ⟨s.nblock, 0⟩, 0 + 1⟩ := by
          rw [hnew, h.counts]
        refine (header_new hc ((fl.size_ + cfg.header_size_) % 2 ^ cfg.size_bits) hnew'
          ?_).ownerList_eq
        simp only [growState, ← h.counts, upd_same]
      have hev : SmartAllocator.MallocEvents cfg size s
          = [Event.lockMap, Event.unlockMap, Event.lock l, Event.refInc s.nblock,
              Event.unlock l] := by
        simp [SmartAllocator.MallocEvents, hp, FreeList.PopEvents, hl, hf]
      exact ⟨_, _, s.nblock, l, he, hrec, hown, hev, by rw [hev]; exact hg _ _ _ hown⟩
    · have hnew := popState_blocks_same (registerState cfg s (roundSize cfg.size_bits size))
        s.nlist ⟨some s.nblock, roundSize cfg.size_bits size⟩ s.nblock ⟨none, ⟨s.nraw, 0⟩, 0⟩
      have hrec := hi.recover_payload hc hnew
      obtain ⟨l', _, hh, _⟩ := hi.header hnew
      have hh0 : HeaderOK cfg (popState (registerState cfg s (roundSize cfg.size_bits size))
          s.nlist ⟨some s.nblock, roundSize cfg.size_bits size⟩ s.nblock
          ⟨none, ⟨s.nraw, 0⟩, 0⟩) s.nblock s.nlist := by
        have hb' : (popState (registerState cfg s (roundSize cfg.size_bits size)) s.nlist
            ⟨some s.nblock, roundSize cfg.size_bits size⟩ s.nblock
            ⟨none, ⟨s.nraw, 0⟩, 0⟩).blocks s.nblock
              = some ⟨none, ⟨s.nblock, 0⟩, 0 + 1⟩ := by
          rw [hnew, h.counts]
        refine header_new hc
          ((roundSize cfg.size_bits size + cfg.header_size_) % 2 ^ cfg.size_bits) hb' ?_
        show (registerState cfg s (roundSize cfg.size_bits size)).raws s.nblock = _
        rw [register_raws, ← h.counts, upd_same]
      have hev : SmartAllocator.MallocEvents cfg size s
          = [Event.lockMap, Event.unlockMap, Event.lock s.nlist, Event.refInc s.nblock,
              Event.unlock s.nlist] := by
        simp [SmartAllocator.MallocEvents, hp, FreeList.PopEvents, register_lists, upd_same]
      exact ⟨_, _, s.nblock, s.nlist, he, hrec, hh0.ownerList_eq, hev,
        by rw [hev]; exact hg _ _ _ hh0.ownerList_eq⟩
  · intro p hp
    obtain ⟨b, mb, hrec, hmb, _, _⟩ := hp.elim
    obtain ⟨l, _, hh, _⟩ := h.header hmb
    have hown := hh.ownerList_eq
    have hev : SmartAllocator.FreeEvents cfg p s
        = Event.refDec b :: (if mb.ref_ - 1 = 0 then [Event.lock l, Event.unlock l] else []) := by
      simp [SmartAllocator.FreeEvents, hrec, MemoryBlock.UnlinkEvents, hmb, hown,
        FreeList.PushEvents]
    refine ⟨b, mb, l, hrec, hmb, hown, hev, ?_⟩
    rw [hev]
    simp [guarded, hown]
  · intro p hp
    obtain ⟨b, mb, hrec, hmb, _, _⟩ := hp.elim
    obtain ⟨l, _, hh, _⟩ := h.header hmb
    have hown := hh.ownerList_eq
    have hev : SmartAllocator.ReferEvents cfg p s = [Event.refInc b] := by
      simp [SmartAllocator.ReferEvents, hrec, MemoryBlock.LinkEvents]
    refine ⟨b, l, hrec, hown, hev, ?_⟩
    rw [hev]
    simp [guarded, hown]

/-- Witness of C16 (amended): the state after the first `Malloc(10)` of a new
allocator on the 64-bit platform. -/
theorem ref_count_locking_witness :
    cfg64.TwoSlotHeader ∧ Reachable cfg64 exState ∧
    ((∀ size, ∃ p s' b l, SmartAllocator.Malloc cfg64 size exState = some (p, s') ∧
      recoverBlock cfg64 p s' = some b ∧ ownerList s' b = some l ∧
      SmartAllocator.MallocEvents cfg64 size exState
        = [Event.lockMap, Event.unlockMap, Event.lock l, Event.refInc b, Event.unlock l] ∧
      guarded (ownerList s') [] (SmartAllocator.MallocEvents cfg64 size exState) = true) ∧
    (∀ p, InCirculation cfg64 exState p → ∃ b mb l, recoverBlock cfg64 p exState = some b ∧
      exState.blocks b = some mb ∧ ownerList exState b = some l ∧
      SmartAllocator.FreeEvents cfg64 p exState
        = Event.refDec b :: (if mb.ref_ - 1 = 0 then [Event.lock l, Event.unlock l] else []) ∧
      guarded (ownerList exState) [] (SmartAllocator.FreeEvents cfg64 p exState) = false) ∧
    (∀ p, InCirculation cfg64 exState p → ∃ b l, recoverBlock cfg64 p exState = some b ∧
      ownerList exState b = some l ∧
      SmartAllocator.ReferEvents cfg64 p exState = [Event.refInc b] ∧
      guarded (ownerList exState) [] (SmartAllocator.ReferEvents cfg64 p exState) = false)) :=
  ⟨by decide, exState_reachable, ref_count_locking cfg64 (by decide) exState exState_reachable⟩
/-! ## Residency -/

theorem countP_range_congr {p q : Nat → Bool} :
    ∀ n : Nat, (∀ x, x < n → p x = q x) →
      (List.range n).countP p = (List.range n).countP q := by
  intro n h
  apply List.countP_congr
  intro x hx
  rw [h x (List.mem_range.mp hx)]

theorem countP_range_succ (p : Nat → Bool) (n : Nat) :
    (List.range (n + 1)).countP p = (List.range n).countP p + (if p n then 1 else 0) := by
  rw [List.range_succ, List.countP_append]
  simp [List.countP_cons]

theorem countP_range_le {p q : Nat → Bool} (n : Nat) (h : ∀ x, p x = true → q x = true) :
    (List.range n).countP p ≤ (List.range n).countP q := by
  induction n with
  | zero => simp
  | succ n ih =>
    rw [countP_range_succ, countP_range_succ]
    by_cases hp : p n = true
    · rw [hp, h n hp]
      simp
      exact ih
    · have : p n = false := by simpa using hp
      rw [this]
      simp
      omega

theorem circCount_le_builtCount (st : State) (l : Nat) : circCount st l ≤ builtCount st l := by
  apply countP_range_le
  intro x hx
  simp only [isCirculating, Bool.and_eq_true] at hx
  exact hx.1

theorem ownerList_congr {st st' : State} {x : Nat}
    (hn : st.blocks x = none → st'.blocks x = none)
    (hb : ∀ mb, st.blocks x = some mb → ∃ mb', st'.blocks x = some mb' ∧ mb'.data_ = mb.data_ ∧
      st'.raws mb.data_.base = st.raws mb.data_.base) :
    ownerList st' x = ownerList st x := by
  cases hx : st.blocks x with
  | none => simp [ownerList, hx, hn hx]
  | some mb =>
    obtain ⟨mb', hx', hd, hr⟩ := hb mb hx
    simp [ownerList, hx, hx', load, hd, hr]

theorem Inv.owner_live {cfg : Config} {st : State} {stk : Nat → List Nat} (h : Inv cfg st stk)
    {b l : Nat} (ho : ownerList st b = some l) :
    ∃ mb fl, st.blocks b = some mb ∧ st.lists l = some fl ∧ 0 ≤ mb.ref_ ∧
      (mb.ref_ = 0 → b ∈ stk l) := by
  cases hb : st.blocks b with
  | none => simp [ownerList, hb] at ho
  | some mb =>
    obtain ⟨h0, l', fl, hh, hl, hm⟩ := h.block b mb hb
    rw [hh.ownerList_eq] at ho
    cases ho
    exact ⟨mb, fl, rfl, hl, h0, hm⟩

theorem Inv.builtCount_dead {cfg : Config} {st : State} {stk : Nat → List Nat}
    (h : Inv cfg st stk) {l : Nat} (hl : st.lists l = none) : builtCount st l = 0 := by
  unfold builtCount
  rw [List.countP_eq_zero]
  intro x _ hx
  simp only [isBlockOf, decide_eq_true_eq] at hx
  obtain ⟨_, fl, _, hfl, _⟩ := h.owner_live hx
  rw [hl] at hfl
  cases hfl

theorem Inv.circ_eq_built {cfg : Config} {st : State} {stk : Nat → List Nat}
    (h : Inv cfg st stk) {l : Nat} (hnil : stk l = []) : circCount st l = builtCount st l := by
  apply countP_range_congr
  intro x _
  simp only [isCirculating, isBlockOf]
  by_cases ho : ownerList st x = some l
  · obtain ⟨mb, _, hmb, _, h0, hm⟩ := h.owner_live ho
    have hne : mb.ref_ ≠ 0 := by
      intro hz
      have := hm hz
      rw [hnil] at this
      cases this
    have : 1 ≤ refOf st x := by
      simp only [refOf, hmb]
      omega
    simp [ho, this]
  · simp [ho]

theorem builtCount_same {st st' : State} (hn : st'.nblock = st.nblock)
    (ho : ∀ x, x < st.nblock → ownerList st' x = ownerList st x) (l : Nat) :
    builtCount st' l = builtCount st l := by
  unfold builtCount
  rw [hn]
  apply countP_range_congr
  intro x hx
  simp only [isBlockOf, ho x hx]

theorem builtCount_grow {st st' : State} (hn : st'.nblock = st.nblock + 1)
    (ho : ∀ x, x < st.nblock → ownerList st' x = ownerList st x) {l0 : Nat}
    (hnew : ownerList st' st.nblock = some l0) (l : Nat) :
    builtCount st' l = builtCount st l + (if l = l0 then 1 else 0) := by
  unfold builtCount
  rw [hn, countP_range_succ]
  congr 1
  · apply countP_range_congr
    intro x hx
    simp only [isBlockOf, ho x hx]
  · simp only [isBlockOf, hnew]
    by_cases e : l = l0
    · simp [e]
    · have : ¬ (some l0 = some l) := fun h' => e (Option.some.inj h').symm
      simp [e, this]

theorem Inv.data_base {cfg : Config} {st : State} {stk : Nat → List Nat} (h : Inv cfg st stk)
    {b : Nat} {mb : MemoryBlock} (hb : st.blocks b = some mb) :
    mb.data_ = ⟨b, 0⟩ ∧ b < st.nraw := by
  obtain ⟨l, _, ⟨mb', _, hmb', hd, _⟩, _⟩ := h.header hb
  rw [hb] at hmb'
  cases hmb'
  have := h.live_lt hb
  have hc := h.counts
  exact ⟨hd, by omega⟩

/-- What one call does to the number of blocks and to their owners: either no
block is constructed, or exactly one, for a list whose free stack is empty
afterwards; the owners of the existing blocks stay. -/
theorem step_delta {cfg : Config} (hc : cfg.TwoSlotHeader) {s s' : State}
    {stk : Nat → List Nat} (h : Inv cfg s stk) (hs : Step cfg s s') :
    ∃ stk', Inv cfg s' stk' ∧
      (∀ x, x < s.nblock → ownerList s' x = ownerList s x) ∧
      (s'.nblock = s.nblock ∨
        (s'.nblock = s.nblock + 1 ∧ ∃ l0, ownerList s' s.nblock = some l0 ∧ stk' l0 = [])) := by
  have hpop : ∀ (t : State) (l : Nat) (fl : FreeList) (b : Nat) (mb : MemoryBlock) (x : Nat),
      t.blocks b = some mb → ownerList (popState t l fl b mb) x = ownerList t x := by
    intro t l fl b mb x hmb
    apply ownerList_congr
    · intro hn
      have : x ≠ b := by
        intro e
        rw [e, hmb] at hn
        cases hn
      rw [popState_blocks_ne t l fl b mb this]
      exact hn
    · intro mx hmx
      by_cases e : x = b
      · subst e
        rw [hmb] at hmx
        cases hmx
        exact ⟨_, popState_blocks_same t l fl x mb, rfl, rfl⟩
      · exact ⟨mx, by rw [popState_blocks_ne t l fl b mb e]; exact hmx, rfl, rfl⟩
  cases hs with
  | malloc size p _ hm =>
    rcases Malloc_spec hc h size with ⟨l, fl, b, mb, _, hl, hf, hmb, he, hi⟩ |
      ⟨l, fl, _, hl, hf, he, hi⟩ | ⟨hp, he, hi⟩
    · rw [he] at hm
      cases hm
      exact ⟨_, hi, fun x _ => hpop s l fl b mb x hmb, Or.inl rfl⟩
    · rw [he] at hm
      cases hm
      refine ⟨stk, hi, ?_, Or.inr ⟨rfl, l, ?_, h.stack_nil hl hf⟩⟩
      · intro x hx
        have hxb : x ≠ s.nblock := by omega
        apply ownerList_congr
        · intro hn
          simp [growState, upd_ne _ _ hxb, hn]
        · intro mx hmx
          obtain ⟨hd, hlt⟩ := h.data_base hmx
          have hxr : mx.data_.base ≠ s.nraw := by
            rw [hd]
            show x ≠ s.nraw
            omega
          exact ⟨mx, by simp [growState, upd_ne _ _ hxb, hmx], rfl,
            by simp [growState, upd_ne _ _ hxr]⟩
      · have hnew : (growState cfg s fl.size_ l).blocks s.nblock
            = some ⟨none, ⟨s.nblock, 0⟩, 0 + 1⟩ := by
          simp [growState, upd_same, h.counts]
        refine (header_new hc ((fl.size_ + cfg.header_size_) % 2 ^ cfg.size_bits) hnew
          ?_).ownerList_eq
        simp only [growState, ← h.counts, upd_same]
    · rw [he] at hm
      cases hm
      have hb0 : (registerState cfg s (roundSize cfg.size_bits size)).blocks s.nblock
          = some ⟨none, ⟨s.nraw, 0⟩, 0⟩ := by
        rw [register_blocks, upd_same]
      refine ⟨_, hi, ?_, Or.inr ⟨rfl, s.nlist, ?_, upd_same _ _ _⟩⟩
      · intro x hx
        rw [hpop _ _ _ _ _ x hb0]
        have hxb : x ≠ s.nblock := by omega
        apply ownerList_congr
        · intro hn
          rw [register_blocks, upd_ne _ _ hxb]
          exact hn
        · intro mx hmx
          obtain ⟨hd, hlt⟩ := h.data_base hmx
          have hxr : mx.data_.base ≠ s.nraw := by
            rw [hd]
            show x ≠ s.nraw
            omega
          exact ⟨mx, by rw [register_blocks, upd_ne _ _ hxb]; exact hmx, rfl,
            by rw [register_raws, upd_ne _ _ hxr]⟩
      · have hnew := popState_blocks_same (registerState cfg s (roundSize cfg.size_bits size))
          s.nlist ⟨some s.nblock, roundSize cfg.size_bits size⟩ s.nblock
          ⟨none, ⟨s.nraw, 0⟩, 0⟩
        have hb' : (popState (registerState cfg s (roundSize cfg.size_bits size)) s.nlist
            ⟨some s.nblock, roundSize cfg.size_bits size⟩ s.nblock
            ⟨none, ⟨s.nraw, 0⟩, 0⟩).blocks s.nblock
              = some ⟨none, ⟨s.nblock, 0⟩, 0 + 1⟩ := by
          rw [hnew, h.counts]
        refine (header_new hc
          ((roundSize cfg.size_bits size + cfg.header_size_) % 2 ^ cfg.size_bits) hb'
          ?_).ownerList_eq
        show (registerState cfg s (roundSize cfg.size_bits size)).raws s.nblock = _
        rw [register_raws, ← h.counts, upd_same]
  | free p hp hf =>
    obtain ⟨b, mb, l, fl, _, hmb, _, _, _, _, hcase⟩ := Free_spec h hp
    rcases hcase with ⟨_, he, hi⟩ | ⟨_, he, hi⟩
    · rw [he] at hf
      cases hf
      refine ⟨_, hi, ?_, Or.inl rfl⟩
      intro x _
      apply ownerList_congr
      · intro hn
        have : x ≠ b := by
          intro e
          rw [e, hmb] at hn
          cases hn
        rw [refState_blocks_ne s b mb _ this]
        exact hn
      · intro mx hmx
        by_cases e : x = b
        · subst e
          rw [hmb] at hmx
          cases hmx
          exact ⟨_, refState_blocks_same s x mb _, rfl, rfl⟩
        · exact ⟨mx, by rw [refState_blocks_ne s b mb _ e]; exact hmx, rfl, rfl⟩
    · rw [he] at hf
      cases hf
      refine ⟨_, hi, ?_, Or.inl rfl⟩
      intro x _
      apply ownerList_congr
      · intro hn
        have : x ≠ b := by
          intro e
          rw [e, hmb] at hn
          cases hn
        rw [pushState_blocks_ne s l fl b mb this]
        exact hn
      · intro mx hmx
        by_cases e : x = b
        · subst e
          rw [hmb] at hmx
          cases hmx
          exact ⟨_, pushState_blocks_same s l fl x mb, rfl, rfl⟩
        · exact ⟨mx, by rw [pushState_blocks_ne s l fl b mb e]; exact hmx, rfl, rfl⟩
  | refer p hp hr =>
    obtain ⟨b, mb, _, hmb, _, _, he, hi⟩ := Refer_spec h hp
    rw [he] at hr
    cases hr
    refine ⟨_, hi, ?_, Or.inl rfl⟩
    intro x _
    apply ownerList_congr
    · intro hn
      have : x ≠ b := by
        intro e
        rw [e, hmb] at hn
        cases hn
      rw [refState_blocks_ne s b mb _ this]
      exact hn
    · intro mx hmx
      by_cases e : x = b
      · subst e
        rw [hmb] at hmx
        cases hmx
        exact ⟨_, refState_blocks_same s x mb _, rfl, rfl⟩
      · exact ⟨mx, by rw [refState_blocks_ne s b mb _ e]; exact hmx, rfl, rfl⟩

/-- A list of the state after a call existed before, or the call constructed
a block for it. -/
theorem step_lists_rev {cfg : Config} (hc : cfg.TwoSlotHeader) {s s' : State}
    {stk : Nat → List Nat} (h : Inv cfg s stk) (hs : Step cfg s s') :
    ∀ l fl', s'.lists l = some fl' →
      (∃ fl, s.lists l = some fl) ∨ (s'.nblock = s.nblock + 1 ∧
        ownerList s' s.nblock = some l ∧ s.lists l = none) := by
  have hpop : ∀ (t : State) (l0 : Nat) (fl0 : FreeList) (b : Nat) (mb : MemoryBlock)
      (l : Nat) (fl' : FreeList), t.lists l0 = some fl0 →
      (popState t l0 fl0 b mb).lists l = some fl' → ∃ fl, t.lists l = some fl := by
    intro t l0 fl0 b mb l fl' hl0 hl
    by_cases e : l = l0
    · subst e
      exact ⟨fl0, hl0⟩
    · rw [popState_lists_ne t l0 fl0 b mb e] at hl
      exact ⟨fl', hl⟩
  cases hs with
  | malloc size p _ hm =>
    rcases Malloc_spec hc h size with ⟨l0, fl0, b, mb, _, hl0, _, _, he, _⟩ |
      ⟨l0, fl0, _, _, _, he, _⟩ | ⟨_, he, _⟩
    · rw [he] at hm
      cases hm
      intro l fl' hl
      exact Or.inl (hpop s l0 fl0 b mb l fl' hl0 hl)
    · rw [he] at hm
      cases hm
      intro l fl' hl
      exact Or.inl ⟨fl', hl⟩
    · rw [he] at hm
      cases hm
      intro l fl' hl
      by_cases e : l = s.nlist
      · subst e
        refine Or.inr ⟨rfl, ?_, h.fresh_list _ (le_refl _)⟩
        have hnew := popState_blocks_same (registerState cfg s (roundSize cfg.size_bits size))
          s.nlist ⟨some s.nblock, roundSize cfg.size_bits size⟩ s.nblock
          ⟨none, ⟨s.nraw, 0⟩, 0⟩
        have hb' : (popState (registerState cfg s (roundSize cfg.size_bits size)) s.nlist
            ⟨some s.nblock, roundSize cfg.size_bits size⟩ s.nblock
            ⟨none, ⟨s.nraw, 0⟩, 0⟩).blocks s.nblock
              = some ⟨none, ⟨s.nblock, 0⟩, 0 + 1⟩ := by
          rw [hnew, h.counts]
        refine (header_new hc
          ((roundSize cfg.size_bits size + cfg.header_size_) % 2 ^ cfg.size_bits) hb'
          ?_).ownerList_eq
        show (registerState cfg s (roundSize cfg.size_bits size)).raws s.nblock = _
        rw [register_raws, ← h.counts, upd_same]
      · rw [popState_lists_ne _ _ _ _ _ e, register_lists, upd_ne _ _ e] at hl
        exact Or.inl ⟨fl', hl⟩
  | free p hp hf =>
    obtain ⟨b, mb, l0, fl0, _, _, _, _, _, hl0, hcase⟩ := Free_spec h hp
    rcases hcase with ⟨_, he, _⟩ | ⟨_, he, _⟩
    · rw [he] at hf
      cases hf
      intro l fl' hl
      exact Or.inl ⟨fl', hl⟩
    · rw [he] at hf
      cases hf
      intro l fl' hl
      by_cases e : l = l0
      · subst e
        exact Or.inl ⟨fl0, hl0⟩
      · rw [pushState_lists_ne s l0 fl0 b mb e] at hl
        exact Or.inl ⟨fl', hl⟩
  | refer p hp hr =>
    obtain ⟨b, mb, _, _, _, _, he, _⟩ := Refer_spec h hp
    rw [he] at hr
    cases hr
    intro l fl' hl
    exact Or.inl ⟨fl', hl⟩

/-- Along every history: a list that does not exist never had a block in
circulation, and for a list that exists the number of blocks constructed is
the largest number in circulation so far, and at least 1. -/
theorem history_bound {cfg : Config} (hc : cfg.TwoSlotHeader) {H : List State}
    (hH : History cfg H) :
    ∀ s hist, H = s :: hist → ∃ stk, Inv cfg s stk ∧ ∀ l,
      (s.lists l = none → maxCirc l (s :: hist) = 0) ∧
      (∀ fl, s.lists l = some fl →
        builtCount s l = maxCirc l (s :: hist) ∧ 1 ≤ builtCount s l) := by
  induction hH with
  | init =>
    intro s hist he
    cases he
    refine ⟨_, inv_empty cfg, ?_⟩
    intro l
    refine ⟨fun _ => by simp [maxCirc, circCount, State.empty], ?_⟩
    intro fl hfl
    simp [State.empty] at hfl
  | step hprev hstep ih =>
    rename_i s0 s1 hist0
    intro s hist he
    cases he
    obtain ⟨stk, h, hJ⟩ := ih s0 hist0 rfl
    obtain ⟨stk', hi, hown, hcnt⟩ := step_delta hc h hstep
    obtain ⟨_, _, hmono⟩ := step_frame hc h hstep
    have hrev := step_lists_rev hc h hstep
    refine ⟨stk', hi, ?_⟩
    intro l
    have hle := circCount_le_builtCount s1 l
    have hM : maxCirc l (s1 :: s0 :: hist0)
        = max (circCount s1 l) (maxCirc l (s0 :: hist0)) := rfl
    have hdead : s1.lists l = none → s0.lists l = none := by
      intro hn
      cases h0 : s0.lists l with
      | none => rfl
      | some fl0 =>
        obtain ⟨fl', hfl', _⟩ := hmono l fl0 h0
        rw [hn] at hfl'
        cases hfl'
    refine ⟨?_, ?_⟩
    · intro hn
      have hb := hi.builtCount_dead hn
      rw [hM, (hJ l).1 (hdead hn)]
      omega
    · intro fl hfl
      rcases hcnt with hsame | ⟨hgrow, l0, hnew, hnil⟩
      · have hB := builtCount_same hsame hown l
        rcases hrev l fl hfl with ⟨fl0, h0⟩ | ⟨hbad, _, _⟩
        · obtain ⟨hb0, h1⟩ := (hJ l).2 fl0 h0
          rw [hM, hB]
          exact ⟨by omega, h1⟩
        · omega
      · have hB := builtCount_grow hgrow hown hnew l
        by_cases e : l = l0
        · subst e
          have hC := hi.circ_eq_built hnil
          simp only [if_true] at hB
          cases h0 : s0.lists l with
          | none =>
            have hz := h.builtCount_dead h0
            rw [hM, (hJ l).1 h0]
            exact ⟨by omega, by omega⟩
          | some fl0 =>
            obtain ⟨hb0, h1⟩ := (hJ l).2 fl0 h0
            rw [hM]
            exact ⟨by omega, by omega⟩
        · simp only [e, if_false] at hB
          rcases hrev l fl hfl with ⟨fl0, h0⟩ | ⟨_, hl, _⟩
          · obtain ⟨hb0, h1⟩ := (hJ l).2 fl0 h0
            rw [hM, hB]
            exact ⟨by omega, h1⟩
          · rw [hnew] at hl
            cases hl
            exact absurd rfl e

theorem steps_history {cfg : Config} {s s' : State} (hs : Steps cfg s s') :
    ∀ hist, History cfg (s :: hist) → ∃ hist', History cfg (s' :: hist') := by
  induction hs with
  | refl => exact fun hist h => ⟨hist, h⟩
  | tail _ hstep ih =>
    intro hist h
    obtain ⟨hist', h'⟩ := ih hist h
    exact ⟨_, History.step h' hstep⟩

/-- The latest state of a history of calls made one at a time is reachable. -/
theorem history_steps {cfg : Config} {H : List State} (hH : History cfg H) :
    ∀ s hist, H = s :: hist → Reachable cfg s := by
  induction hH with
  | init =>
    intro s hist he
    cases he
    exact Steps.refl _
  | step _ hstep ih =>
    intro s hist he
    cases he
    exact Steps.tail (ih _ _ rfl) hstep

/-- Cutting `MemoryBlock::Unlink` between the decrement and the `Push` loses
nothing: the two halves run one right after the other are `Unlink`. -/
theorem Unlink_split (b : Nat) (st : State) :
    MemoryBlock.UnlinkSplit b st = MemoryBlock.Unlink b st := by
  unfold MemoryBlock.UnlinkSplit MemoryBlock.UnlinkDec MemoryBlock.Unlink MemoryBlock.UnlinkPush
  cases hb : st.blocks b with
  | none => rfl
  | some mb =>
    by_cases hz : mb.ref_ - 1 = 0
    · simp [hz]
    · simp [hz]

/-- C18, counterexample: on the 64-bit platform a thread calls `Malloc(10)` and
then `Free` of the result; the `Free` decrements the count of block 0 to 0
(l.65) and, before its `Push` (l.66, l.45-49) has run, another thread calls
`Malloc(10)`: `Pop` finds `free_ == nullptr` and constructs block 1 (l.37-38).
Then the `Push` runs and every call has returned.  The list of class 32 has
constructed 2 blocks, and in no state of the history was more than 1 of its
blocks in circulation.  The two halves of the `Free`, run with nothing in
between, are the `Free` of the one-at-a-time model. -/
theorem overlapping_free_and_malloc_build_extra_block :
    Overlapped cfg64 [] [exPushed, exSecond.2, exDec.1, exState, State.empty] ∧
    InCirculation cfg64 exState exPtr ∧
    recoverBlock cfg64 exPtr exState = some 0 ∧
    MemoryBlock.UnlinkDec 0 exState = some (exDec.1, true) ∧
    SmartAllocator.Malloc cfg64 10 exDec.1 = some (exSecond.1, exSecond.2) ∧
    MemoryBlock.UnlinkPush 0 exSecond.2 = some exPushed ∧
    MemoryBlock.UnlinkSplit 0 exState = SmartAllocator.Free cfg64 exPtr exState ∧
    exPushed.pools_ 32 = some 0 ∧
    builtCount exPushed 0 = 2 ∧
    maxCirc 0 [exPushed, exSecond.2, exDec.1, exState, State.empty] = 1 ∧
    builtCount exPushed 0 ≠ maxCirc 0 [exPushed, exSecond.2, exDec.1, exState, State.empty] := by
  have h1 : Overlapped cfg64 [] [exState, State.empty] :=
    Overlapped.malloc 10 exPtr Overlapped.init (by decide) exState_malloc
  have hcirc : InCirculation cfg64 exState exPtr := by decide
  have hrec : recoverBlock cfg64 exPtr exState = some 0 := rfl
  have hdec : MemoryBlock.UnlinkDec 0 exState = some (exDec.1, true) := rfl
  have h2 : Overlapped cfg64 [0] [exDec.1, exState, State.empty] :=
    Overlapped.freeDec exPtr 0 true h1 hcirc hrec hdec
  have hm : SmartAllocator.Malloc cfg64 10 exDec.1 = some (exSecond.1, exSecond.2) := rfl
  have h3 : Overlapped cfg64 [0] [exSecond.2, exDec.1, exState, State.empty] :=
    Overlapped.malloc 10 exSecond.1 h2 (by decide) hm
  have hpush : MemoryBlock.UnlinkPush 0 exSecond.2 = some exPushed := rfl
  have h4 : Overlapped cfg64 [] [exPushed, exSecond.2, exDec.1, exState, State.empty] :=
    Overlapped.freePush 0 h3 (by decide) hpush
  exact ⟨h4, hcirc, hrec, hdec, hm, hpush, rfl, rfl, by decide, by decide, by decide⟩

/-- C18, amended: when the calls run one at a time (every call has returned
before the next one starts; `Malloc`, `Free` and `Refer`, the last two on
pointers in circulation), every reachable state is the latest state of such a
history, and along every such history, for each size class in the map, the
number of blocks constructed so far by its list equals the largest number of
blocks of that list that were in circulation at the same time in any state of
the history, and is at least 1. -/
theorem residency_bound_one_call_at_a_time (cfg : Config) (hc : cfg.TwoSlotHeader)
    (s : State) (hist : List State) (hH : History cfg (s :: hist))
    (c l : Nat) (hp : s.pools_ c = some l) :
    (∀ t, Reachable cfg t → ∃ ht, History cfg (t :: ht)) ∧
    Reachable cfg s ∧
    builtCount s l = maxCirc l (s :: hist) ∧ 1 ≤ builtCount s l := by
  refine ⟨?_, history_steps hH s hist rfl, ?_⟩
  · intro t ht
    exact steps_history ht [] History.init
  · obtain ⟨stk, h, hJ⟩ := history_bound hc hH s hist rfl
    obtain ⟨fl, hl, _⟩ := h.pool_list c l hp
    exact (hJ l).2 fl hl

/-- Witness of C18, amended: on the 64-bit platform, the history `Malloc(10)`
then `Free` of the result, and the class 32 with its list 0: 1 block
constructed, at most 1 in circulation (none in the latest state). -/
theorem residency_bound_one_call_at_a_time_witness :
    cfg64.TwoSlotHeader ∧
    History cfg64 [exFreed, exState, State.empty] ∧
    exFreed.pools_ 32 = some 0 ∧
    ((∀ t, Reachable cfg64 t → ∃ ht, History cfg64 (t :: ht)) ∧
    Reachable cfg64 exFreed ∧
    builtCount exFreed 0 = maxCirc 0 [exFreed, exState, State.empty] ∧
    1 ≤ builtCount exFreed 0) :=
  ⟨by decide,
   History.step (History.step History.init (Step.malloc 10 exPtr (by decide) exState_malloc))
     (Step.free exPtr exPtr_inCirculation rfl),
   rfl,
   residency_bound_one_call_at_a_time cfg64 (by decide) exFreed [exState, State.empty]
     (History.step (History.step History.init (Step.malloc 10 exPtr (by decide) exState_malloc))
       (Step.free exPtr exPtr_inCirculation rfl))
     32 0 rfl⟩

end Multiverso
